import Mathlib

set_option maxRecDepth 100000

namespace Meryl

/-- The C++ right shift of a word of `W` bits.  A shift count of `W` or more is undefined in C++:
the model gives the unspecified word `oob`, cut to `W` bits. -/
def shrW (W oob x n : Nat) : Nat := if n < W then x >>> n else oob % 2 ^ W

/-- The C++ left shift of a word of `W` bits, with the same convention for an undefined count as
`shrW`. -/
def shlW (W oob x n : Nat) : Nat := if n < W then (x <<< n) % 2 ^ W else oob % 2 ^ W

/-- The word `-(uintType)(b)`: all-ones when `b` holds, zero otherwise. -/
def negBool (W : Nat) (b : Bool) : Nat := if b then 2 ^ W - 1 else 0

/-- The template `buildLowBitMask<uintType>` at a word of `W` bits.  The shift count
`8 * sizeof(uintType) - numBits` is computed in 64-bit unsigned arithmetic. -/
def buildLowBitMask (W oob numBits : Nat) : Nat :=
  let r := 2 ^ W - 1
  let r := shrW W oob r ((W + 2 ^ 64 - numBits) % 2 ^ 64)
  let r := r &&& negBool W (numBits != 0)
  let r := r ||| negBool W (decide (numBits > W))
  r

/-- The template `buildHighBitMask<uintType>` at a word of `W` bits. -/
def buildHighBitMask (W oob numBits : Nat) : Nat :=
  let r := 2 ^ W - 1
  let r := shlW W oob r ((W + 2 ^ 64 - numBits) % 2 ^ 64)
  let r := r &&& negBool W (numBits != 0)
  let r := r ||| negBool W (decide (numBits > W))
  r

def countNumberOfSetBits32 (x : Nat) : Nat :=
  let x := (((x >>> 1) &&& 0x55555555) + (x &&& 0x55555555)) % 2 ^ 32
  let x := (((x >>> 2) &&& 0x33333333) + (x &&& 0x33333333)) % 2 ^ 32
  let x := (((x >>> 4) &&& 0x0f0f0f0f) + (x &&& 0x0f0f0f0f)) % 2 ^ 32
  let x := (((x >>> 8) &&& 0x00ff00ff) + (x &&& 0x00ff00ff)) % 2 ^ 32
  let x := (((x >>> 16) &&& 0x0000ffff) + (x &&& 0x0000ffff)) % 2 ^ 32
  x

def countNumberOfSetBits64 (x : Nat) : Nat :=
  let x := (((x >>> 1) &&& 0x5555555555555555) + (x &&& 0x5555555555555555)) % 2 ^ 64
  let x := (((x >>> 2) &&& 0x3333333333333333) + (x &&& 0x3333333333333333)) % 2 ^ 64
  let x := (((x >>> 4) &&& 0x0f0f0f0f0f0f0f0f) + (x &&& 0x0f0f0f0f0f0f0f0f)) % 2 ^ 64
  let x := (((x >>> 8) &&& 0x00ff00ff00ff00ff) + (x &&& 0x00ff00ff00ff00ff)) % 2 ^ 64
  let x := (((x >>> 16) &&& 0x0000ffff0000ffff) + (x &&& 0x0000ffff0000ffff)) % 2 ^ 64
  let x := (((x >>> 32) &&& 0x00000000ffffffff) + (x &&& 0x00000000ffffffff)) % 2 ^ 64
  x

def countNumberOfBits32 (x : Nat) : Nat :=
  let x := x ||| (x >>> 1)
  let x := x ||| (x >>> 2)
  let x := x ||| (x >>> 4)
  let x := x ||| (x >>> 8)
  let x := x ||| (x >>> 16)
  countNumberOfSetBits32 x

def countNumberOfBits64 (x : Nat) : Nat :=
  let x := x ||| (x >>> 1)
  let x := x ||| (x >>> 2)
  let x := x ||| (x >>> 4)
  let x := x ||| (x >>> 8)
  let x := x ||| (x >>> 16)
  let x := x ||| (x >>> 32)
  countNumberOfSetBits64 x

/-- The least `n` with `x < 2 ^ n`. -/
def bitWidth (x : Nat) : Nat := if x = 0 then 0 else Nat.log2 x + 1

/-- One block of a stream (`struct _dBlock`): `_bgn` is the position of the block in the stream,
`_len` the number of valid bits, `_max` the allocated size in bits, `_dat` the words (`none` is the
null pointer). -/
structure dBlock where
  _bgn : Nat := 0
  _len : Nat := 0
  _max : Nat := 0
  _dat : Option (List Nat) := none
deriving DecidableEq

/-- The data members of `class stuffedBits`.  The pointer `_data` always aliases
`_blocks[_dataBlk]._dat` and is not stored. -/
structure stuffedBits where
  _maxBits : Nat := 0
  _blocksMax : Nat := 0
  _blocks : List dBlock := []
  _dataPos : Nat := 0
  _dataBlk : Nat := 0
  _dataWrd : Nat := 0
  _dataBit : Nat := 64
deriving DecidableEq

namespace stuffedBits

/-- `_blocks[i]` -/
def block (s : stuffedBits) (i : Nat) : dBlock := s._blocks.getD i {}

/-- `_blocks[i] = b` -/
def setBlock (s : stuffedBits) (i : Nat) (b : dBlock) : stuffedBits :=
  { s with _blocks := s._blocks.set i b }

/-- After a write, the length of the active block becomes the maximum of the cursor and the
length it had. -/
def updateLen (s : stuffedBits) : stuffedBits :=
  s.setBlock s._dataBlk { s.block s._dataBlk with _len := max s._dataPos (s.block s._dataBlk)._len }

/-- Move to the next word when no bit is left in the current one. -/
def updateBit (s : stuffedBits) : stuffedBits :=
  if s._dataBit = 0 then { s with _dataWrd := (s._dataWrd + 1) % 2 ^ 64, _dataBit := 64 } else s

/-- Make sure that a read of `wordLen` bits lies in the active block, moving to the next block
if not.  A failed assertion is the result `none`. -/
def moveToNextBlock (s : stuffedBits) (wordLen : Nat) : Option stuffedBits :=
  if s._dataBit = 0 ∨ 64 < s._dataBit ∨ s._blocksMax = 0 ∨ s._blocksMax ≤ s._dataBlk then none
  else if (s._dataPos + wordLen) % 2 ^ 64 ≤ (s.block s._dataBlk)._len then some s
  else if s._dataPos ≠ (s.block s._dataBlk)._len then none
  else
    let blk := (s._dataBlk + 1) % 2 ^ 32
    if s._blocksMax ≤ blk then none
    else if (s.block blk)._len = 0 then none
    else if (s.block blk)._dat = none then none
    else some { s with _dataBlk := blk, _dataPos := 0, _dataWrd := 0, _dataBit := 64 }

/-- Round a block size up to a multiple of 64, zero standing for a few pages; `pageSize` is the
value of `getPageSize()`.  The final assertion failing is the result `none`. -/
def roundMaxSizeUp (pageSize numbits : Nat) : Option Nat :=
  let numbits := if numbits = 0 then ((8 * pageSize + 2 ^ 64 - 32) * 8) % 2 ^ 64 else numbits
  let numbits := if numbits &&& 0x3f ≠ 0 then ((numbits ||| 0x3f) + 1) % 2 ^ 64 else numbits
  if numbits % 64 ≠ 0 then none else some numbits

/-- Modelled from the spec: `increaseArray` of arrays.H, which is not in src; the comment at its call
says "Allocate another 32 blocks if _dataBlk >= _blocksMax", with the old entries copied and the new
ones cleared. -/
def increaseArray (s : stuffedBits) : stuffedBits :=
  if s._dataBlk < s._blocksMax then s
  else { s with _blocks := s._blocks ++ List.replicate 32 {}, _blocksMax := s._blocksMax + 32 }

/-- Set up block `_dataBlk`: its start follows the block before it, its length is 0, its words
are allocated if they were not and cleared, and the cursor is at its start. -/
def allocateBlock (s : stuffedBits) : Option stuffedBits :=
  let s := s.increaseArray
  let b := s.block s._dataBlk
  let b := { b with
    _bgn := if s._dataBlk = 0 then 0
            else ((s.block (s._dataBlk - 1))._bgn + (s.block (s._dataBlk - 1))._len) % 2 ^ 64,
    _len := 0 }
  let b := match b._dat with
    | none => { b with _max := s._maxBits, _dat := some (List.replicate (s._maxBits / 64) 0) }
    | some _ => b
  if b._max % 64 ≠ 0 then none
  else
    let b := { b with _dat := b._dat.map (fun d => List.replicate (b._max / 64) 0 ++ d.drop (b._max / 64)) }
    let s := s.setBlock s._dataBlk b
    if b._dat = none then none
    else some { s with _dataPos := 0, _dataWrd := 0, _dataBit := 64 }

/-- Make sure that a write of `wordLen` bits lies in the active block: if it does not fit, the
active block ends at the cursor and the next block is set up. -/
def ensureSpaceInCurrentBlock (s : stuffedBits) (wordLen : Nat) : Option stuffedBits :=
  if s._dataBit = 0 ∨ 64 < s._dataBit ∨ s._blocksMax = 0 ∨ s._blocksMax ≤ s._dataBlk then none
  else if (s._dataPos + wordLen) % 2 ^ 64 ≤ (s.block s._dataBlk)._max then some s
  else
    let s := s.setBlock s._dataBlk { s.block s._dataBlk with _len := s._dataPos }
    let s := { s with _dataBlk := (s._dataBlk + 1) % 2 ^ 32 }
    s.allocateBlock

/-- Reset every block to length zero and the cursor to the start of the active block. -/
def eraseBlocks (s : stuffedBits) : Option stuffedBits :=
  if s._blocksMax = 0 then some s
  else
    let s := { s with _blocks := s._blocks.map (fun (b : dBlock) => { b with _len := 0 }) }
    if (s.block s._dataBlk)._dat = none then none
    else some { s with _dataPos := 0, _dataWrd := 0, _dataBit := 64 }

/-- Modelled from the spec: the constructor `stuffedBits(uint64 nBits)`, whose definition is not in
src ("Construction: empty, with a configurable per-block capacity"): the capacity is rounded by
`roundMaxSizeUp` and the first block is allocated, as `ensureSpaceInCurrentBlock` assumes. -/
def create (pageSize nBits : Nat) : Option stuffedBits :=
  match roundMaxSizeUp pageSize nBits with
  | none => none
  | some m => allocateBlock ({ _maxBits := m } : stuffedBits)

/-- Modelled from the spec: `getPosition`, not in src ("absolute tell across block boundaries"):
the start of the active block plus the position in it. -/
def getPosition (s : stuffedBits) : Nat := ((s.block s._dataBlk)._bgn + s._dataPos) % 2 ^ 64

/-- The index, counted from `i`, of the first block whose data extends beyond `position`. -/
def findBlock (position : Nat) : List dBlock → Nat → Option Nat
  | [], _ => none
  | b :: bs, i => if position < (b._bgn + b._len) % 2 ^ 64 then some i else findBlock position bs (i + 1)

/-- Modelled from the spec: `setPosition`, not in src ("absolute seek across block boundaries"):
the cursor goes to the block that holds bit `position` of the stream, at the offset of that bit;
seeking outside the written data fails. -/
def setPosition (s : stuffedBits) (position : Nat) : Option stuffedBits :=
  match findBlock position s._blocks 0 with
  | none => none
  | some i =>
    if position < (s.block i)._bgn ∨ (s.block i)._dat = none then none
    else
      let p := position - (s.block i)._bgn
      some { s with _dataBlk := i, _dataPos := p, _dataWrd := p / 64, _dataBit := 64 - p % 64 }

/-- The bit under the cursor: bit `_dataBit - 1` of the active word (`_dataBit` counts the bits
left in the word, so the stream fills each word from its most significant bit). -/
def peekBit (s : stuffedBits) : Option Bool :=
  match (s.block s._dataBlk)._dat with
  | none => none
  | some d =>
    if s._dataWrd < d.length ∧ 0 < s._dataBit ∧ s._dataBit ≤ 64
    then some ((d.getD s._dataWrd 0).testBit (s._dataBit - 1)) else none

/-- Advance the cursor by one bit, keeping `_dataBit` in [1,64] with `updateBit`. -/
def stepBit (s : stuffedBits) : stuffedBits :=
  updateBit { s with _dataPos := (s._dataPos + 1) % 2 ^ 64, _dataBit := s._dataBit - 1 }

/-- Read the bit under the cursor and advance. -/
def takeBit (s : stuffedBits) : Option (Bool × stuffedBits) :=
  match s.peekBit with
  | none => none
  | some b => some (b, s.stepBit)

/-- Store one bit under the cursor and advance.  An access outside the allocated words of the
block fails. -/
def pokeBit (s : stuffedBits) (b : Bool) : Option stuffedBits :=
  match (s.block s._dataBlk)._dat with
  | none => none
  | some d =>
    if s._dataWrd < d.length ∧ 0 < s._dataBit ∧ s._dataBit ≤ 64 then
      let w := d.getD s._dataWrd 0
      let m := 2 ^ (s._dataBit - 1)
      let w := if b then w ||| m else w &&& ((2 ^ 64 - 1) ^^^ m)
      some (stepBit (s.setBlock s._dataBlk { s.block s._dataBlk with _dat := some (d.set s._dataWrd w) }))
    else none

/-- Store the bits of a list in order from the cursor on. -/
def pokeList (s : stuffedBits) : List Bool → Option stuffedBits
  | [] => some s
  | b :: bs => match s.pokeBit b with
    | none => none
    | some s1 => pokeList s1 bs

/-- Read `n` bits in order from the cursor on. -/
def takeList (s : stuffedBits) : Nat → Option (List Bool × stuffedBits)
  | 0 => some ([], s)
  | n + 1 => match s.takeBit with
    | none => none
    | some (b, s1) => match takeList s1 n with
      | none => none
      | some (bs, s2) => some (b :: bs, s2)

/-- Modelled from the spec: the write of one value of `wordLen` bits ("if `positionInBlock + w`
exceeds the active block's capacity, seal the block, allocate/advance to the next block, reset
cursor to its start, then perform the write"), with the helpers of the header. -/
def writeBits (s : stuffedBits) (wordLen : Nat) (bits : List Bool) : Option stuffedBits :=
  match s.ensureSpaceInCurrentBlock wordLen with
  | none => none
  | some s1 => match s1.pokeList bits with
    | none => none
    | some s2 => some s2.updateLen

/-- Modelled from the spec: the read of one value of `wordLen` bits ("if `positionInBlock + w`
exceeds the active block's recorded `length`, advance to the next block"). -/
def readBits (s : stuffedBits) (wordLen : Nat) : Option (List Bool × stuffedBits) :=
  match s.moveToNextBlock wordLen with
  | none => none
  | some s1 => s1.takeList wordLen

end stuffedBits

/-- The low `w` bits of `v`, most significant first. -/
def toBitsMSB (v : Nat) : Nat → List Bool
  | 0 => []
  | w + 1 => v.testBit w :: toBitsMSB v w

/-- The number whose binary digits, most significant first, are `bits`. -/
def ofBitsMSB (bits : List Bool) : Nat := bits.foldl (fun acc b => 2 * acc + b.toNat) 0

namespace stuffedBits

/-- Modelled from the spec: `setBit`, not in src ("write exactly one bit, advance cursor by 1"). -/
def setBit (s : stuffedBits) (b : Bool) : Option stuffedBits := s.writeBits 1 [b]

/-- Modelled from the spec: `getBit`, not in src ("read exactly one bit, advance cursor by 1"). -/
def getBit (s : stuffedBits) : Option (Bool × stuffedBits) :=
  match s.readBits 1 with
  | some ([b], s1) => some (b, s1)
  | _ => none

/-- Modelled from the spec: `setBinary`, not in src ("fixed-width unsigned integer,
most-significant-bit first within the field; `v` is masked to `w` bits on write"; a width outside
[1,64] fails). -/
def setBinary (s : stuffedBits) (width value : Nat) : Option stuffedBits :=
  if width = 0 ∨ 64 < width then none
  else s.writeBits width (toBitsMSB (value % 2 ^ width) width)

/-- Modelled from the spec: `getBinary`, not in src: the field of `width` bits as a number,
most significant bit first; a width outside [1,64] fails. -/
def getBinary (s : stuffedBits) (width : Nat) : Option (Nat × stuffedBits) :=
  if width = 0 ∨ 64 < width then none
  else match s.readBits width with
    | none => none
    | some (bits, s1) => some (ofBitsMSB bits, s1)

end stuffedBits

/-- The Fibonacci numbers of the stream's Zeckendorf code, with their predecessor:
`F(0) = F(1) = 1`, `F(n) = F(n-1) + F(n-2)`. -/
def fibonacciPair : Nat → Nat × Nat
  | 0 => (1, 1)
  | n + 1 => ((fibonacciPair n).2, (fibonacciPair n).1 + (fibonacciPair n).2)

def fibonacciNumber (n : Nat) : Nat := (fibonacciPair n).1

/-- The highest index from `ff` on, at most `fuel` steps up, whose Fibonacci number is at most `v`. -/
def fibonacciTop (v : Nat) : Nat → Nat → Nat
  | 0, ff => ff
  | fuel + 1, ff => if fibonacciNumber (ff + 1) ≤ v then fibonacciTop v fuel (ff + 1) else ff

/-- The greedy decomposition of `v` over the Fibonacci numbers `F(n), ..., F(1)`: one bit for each
index, from the highest to the lowest (`true` = used). -/
def fibonacciBits : Nat → Nat → List Bool
  | 0, _ => []
  | n + 1, v =>
    if fibonacciNumber (n + 1) ≤ v then true :: fibonacciBits n (v - fibonacciNumber (n + 1))
    else false :: fibonacciBits n v

/-- The bits of the Zeckendorf code of `v`, in stream order: the decomposition from the lowest index
to the highest one in use, then the terminating set bit.  `F(0)` and `F(1)` are the same number, so
the indices start at 1. -/
def zeckendorfCode (v : Nat) : List Bool :=
  (fibonacciBits (fibonacciTop v v 0) v).reverse ++ [true]

namespace stuffedBits

/-- Write the bits of a list one at a time with `setBit`. -/
def setBits (s : stuffedBits) : List Bool → Option stuffedBits
  | [] => some s
  | b :: bs => (s.setBit b).bind (fun s1 => setBits s1 bs)

/-- Read `n` bits one at a time with `getBit`. -/
def getBits (s : stuffedBits) : Nat → Option (List Bool × stuffedBits)
  | 0 => some ([], s)
  | n + 1 => s.getBit.bind (fun r => (getBits r.2 n).bind (fun q => some (r.1 :: q.1, q.2)))

/-- Modelled from the spec: `setUnary`, not in src ("unary code = `v` zero bits followed by one
terminating set bit").  The block-boundary algorithm is run for the code as one value of `v + 1`
bits ("if `positionInBlock + w` exceeds the active block's capacity, seal the block, allocate/advance
to the next block, reset cursor to its start, then perform the write"), and the write is performed
one bit at a time with `setBit`: a code that fits in a block lies in one block, and a code longer
than the block capacity goes on in the blocks that follow. -/
def setUnary (s : stuffedBits) (value : Nat) : Option stuffedBits :=
  (s.ensureSpaceInCurrentBlock ((value + 1) % 2 ^ 64)).bind
    (fun s1 => s1.setBits (List.replicate value false ++ [true]))

/-- Count the zero bits up to the first set bit, reading at most `fuel` bits with `getBit`. -/
def scanUnary (s : stuffedBits) : Nat → Option (Nat × stuffedBits)
  | 0 => none
  | fuel + 1 => match s.getBit with
    | none => none
    | some (true, s1) => some (0, s1)
    | some (false, s1) => match scanUnary s1 fuel with
      | none => none
      | some (n, s2) => some (n + 1, s2)

/-- Modelled from the spec: `getUnary`, not in src ("decode counts zero bits until the
terminator"), the bits read one at a time with `getBit`.  No stream holds 2^64 bits, which bounds
the loop. -/
def getUnary (s : stuffedBits) : Option (Nat × stuffedBits) := s.scanUnary (2 ^ 64)

/-- Modelled from the spec: the low `k` bits of a value as one field of `k` bits (`k` may be 0). -/
def setField (s : stuffedBits) (k value : Nat) : Option stuffedBits :=
  s.writeBits k (toBitsMSB value k)

/-- Modelled from the spec: read `k` bits (at most 63) below an implicit leading bit and
reconstruct `2^k | bits`. -/
def getField (s : stuffedBits) (k : Nat) : Option (Nat × stuffedBits) :=
  if 63 < k then none
  else match s.readBits k with
    | none => none
    | some (bits, s1) => some (2 ^ k ||| ofBitsMSB bits, s1)

/-- Modelled from the spec: `setEliasGamma`, not in src ("unary(`k`) then the low `k` bits of `v`";
`v = 0` fails), with `k = floor(log2 v)` taken as `countNumberOfBits64 v - 1`. -/
def setEliasGamma (s : stuffedBits) (value : Nat) : Option stuffedBits :=
  if value = 0 then none
  else (s.setUnary (countNumberOfBits64 value - 1)).bind
    (fun s1 => s1.setField (countNumberOfBits64 value - 1) value)

/-- Modelled from the spec: `getEliasGamma`, not in src ("unary-decode `k`, read `k` more bits,
reconstruct `v = 2^k | bits`"). -/
def getEliasGamma (s : stuffedBits) : Option (Nat × stuffedBits) :=
  s.getUnary.bind (fun r => r.2.getField r.1)

/-- Modelled from the spec: `setEliasDelta`, not in src ("the Elias-gamma code of `k+1`, then the
low `k` bits of `v`"; `v = 0` fails). -/
def setEliasDelta (s : stuffedBits) (value : Nat) : Option stuffedBits :=
  if value = 0 then none
  else (s.setEliasGamma (countNumberOfBits64 value)).bind
    (fun s1 => s1.setField (countNumberOfBits64 value - 1) value)

/-- Modelled from the spec: `getEliasDelta`, not in src ("gamma-decode the length `L = k+1`, read
`k = L-1` more bits, reconstruct"). -/
def getEliasDelta (s : stuffedBits) : Option (Nat × stuffedBits) :=
  s.getEliasGamma.bind (fun r => r.2.getField (r.1 - 1))

/-- Modelled from the spec: `setZeckendorf`, not in src: the bits of the code go onto the stream
from the lowest index on, the terminating set bit last; `v = 0` fails. -/
def setZeckendorf (s : stuffedBits) (value : Nat) : Option stuffedBits :=
  if value = 0 then none else s.setBits (zeckendorfCode value)

/-- Read bits until two consecutive set bits are seen, at most `fuel` of them; the bit read when
`idx` is current stands for `F(idx)`. -/
def scanZeckendorf (s : stuffedBits) : Nat → Bool → Nat → Option (Nat × stuffedBits)
  | 0, _, _ => none
  | fuel + 1, prev, idx => match s.getBit with
    | none => none
    | some (b, s1) =>
      if prev && b then some (0, s1)
      else match scanZeckendorf s1 fuel b (idx + 1) with
        | none => none
        | some (v, s2) => some ((if b then fibonacciNumber idx else 0) + v, s2)

/-- Modelled from the spec: `getZeckendorf`, not in src ("read bits until two consecutive set bits
are seen; map bit positions read (excluding the terminator) back to Fibonacci indices and sum").  No
stream holds 2^64 bits, which bounds the loop; the result is a 64-bit word. -/
def getZeckendorf (s : stuffedBits) : Option (Nat × stuffedBits) :=
  match s.scanZeckendorf (2 ^ 64) false 1 with
  | none => none
  | some (v, s1) => some (v % 2 ^ 64, s1)

end stuffedBits

/-- One write of a mixed sequence: the codec and the value it writes. -/
inductive Code where
  | binary (width value : Nat)
  | unary (value : Nat)
  | eliasGamma (value : Nat)
  | eliasDelta (value : Nat)
  | zeckendorf (value : Nat)
deriving DecidableEq

namespace Code

def value : Code → Nat
  | binary _ v => v
  | unary v => v
  | eliasGamma v => v
  | eliasDelta v => v
  | zeckendorf v => v

/-- The number of bits of the code of the value. -/
def length : Code → Nat
  | binary w _ => w
  | unary v => v + 1
  | eliasGamma v => 2 * (countNumberOfBits64 v - 1) + 1
  | eliasDelta v =>
    2 * (countNumberOfBits64 (countNumberOfBits64 v) - 1) + 1 + (countNumberOfBits64 v - 1)
  | zeckendorf v => (zeckendorfCode v).length

def set (s : stuffedBits) : Code → Option stuffedBits
  | binary w v => s.setBinary w v
  | unary v => s.setUnary v
  | eliasGamma v => s.setEliasGamma v
  | eliasDelta v => s.setEliasDelta v
  | zeckendorf v => s.setZeckendorf v

def get (s : stuffedBits) : Code → Option (Nat × stuffedBits)
  | binary w _ => s.getBinary w
  | unary _ => s.getUnary
  | eliasGamma _ => s.getEliasGamma
  | eliasDelta _ => s.getEliasDelta
  | zeckendorf _ => s.getZeckendorf

end Code

/-- The data members of `class wordArray`.  `_segments` is the list of allocated segments, each a
list of 128-bit words; the locks (`_lock`, `_segLocks`) are not part of the sequential model. -/
structure wordArray where
  _valueWidth : Nat := 0
  _valueMask : Nat := 0
  _segmentSize : Nat := 0
  _valuesPerSegment : Nat := 0
  _wordsPerSegment : Nat := 0
  _wordsPerLock : Nat := 0
  _locksPerSegment : Nat := 0
  _numValuesAlloc : Nat := 0
  _validData : Nat := 0
  _segmentsLen : Nat := 0
  _segmentsMax : Nat := 0
  _segments : List (List Nat) := []
deriving DecidableEq

namespace wordArray

/-- Modelled from the spec: the constructor `wordArray(valueWidth, segmentsSizeInBits, useLocks)`,
not in src: "valuesPerSegment = segmentSizeBits / valueWidth; word and lock counts derived from
segment size and a fixed lock stride" (64 words to a lock in the header comment); the mask is
`buildLowBitMask<uint128>(valueWidth)`. -/
def create (valueWidth segmentsSizeInBits : Nat) : wordArray :=
  { _valueWidth := valueWidth,
    _valueMask := buildLowBitMask 128 0 valueWidth,
    _segmentSize := segmentsSizeInBits,
    _valuesPerSegment := segmentsSizeInBits / valueWidth,
    _wordsPerSegment := (segmentsSizeInBits + 127) / 128,
    _wordsPerLock := 64,
    _locksPerSegment := (segmentsSizeInBits + 127) / 128 / 64 + 1 }

/-- Modelled from the spec: "Accessing index k allocates every segment up to and including the one
containing k": segments of zero words are added up to segment `seg`. -/
def allocateTo (a : wordArray) (seg : Nat) : wordArray :=
  if seg < a._segments.length then a
  else
    { a with
      _segments := a._segments ++
        List.replicate (seg + 1 - a._segments.length) (List.replicate a._wordsPerSegment 0),
      _segmentsLen := seg + 1,
      _segmentsMax := max a._segmentsMax (seg + 1),
      _numValuesAlloc := (seg + 1) * a._valuesPerSegment }

/-- Word `wrd` of segment `seg`. -/
def word (a : wordArray) (seg wrd : Nat) : Nat := (a._segments.getD seg []).getD wrd 0

/-- Store `x` in word `wrd` of segment `seg`. -/
def setWord (a : wordArray) (seg wrd x : Nat) : wordArray :=
  { a with _segments := a._segments.set seg ((a._segments.getD seg []).set wrd x) }

/-- Modelled from the spec: `get`, not in src: "locate segment `i/valuesPerSegment` and in-segment
offset; locate the one or two 128-bit words the value occupies; extract/shift/mask the value".  The
bits of a segment fill each word from its most significant bit, as in the bit stream.  A read of a
segment that is not allocated fails. -/
def get (a : wordArray) (eIdx : Nat) : Option Nat :=
  if a._valuesPerSegment = 0 then none
  else
    let seg := eIdx / a._valuesPerSegment
    let pos := (a._valueWidth * (eIdx % a._valuesPerSegment)) % 2 ^ 64
    let wrd := pos / 128
    let bit := pos % 128
    if a._segments.length ≤ seg then none
    else if bit + a._valueWidth ≤ 128 then
      some ((a.word seg wrd >>> (128 - a._valueWidth - bit)) &&& a._valueMask)
    else
      let fShift := a._valueWidth - (128 - bit)
      let sShift := 128 - fShift
      some ((((a.word seg wrd <<< fShift) % 2 ^ 128) ||| (a.word seg (wrd + 1) >>> sShift)) &&&
        a._valueMask)

/-- Modelled from the spec: `set`, not in src: "`v` is masked to `valueWidth` bits (silent
narrowing, not an error) before storing; if it spans two words, split the write at the correct bit
offsets"; the array extends itself to the segment of the index. -/
def set (a : wordArray) (eIdx v : Nat) : Option wordArray :=
  if a._valuesPerSegment = 0 then none
  else
    let seg := eIdx / a._valuesPerSegment
    let pos := (a._valueWidth * (eIdx % a._valuesPerSegment)) % 2 ^ 64
    let wrd := pos / 128
    let bit := pos % 128
    let a := a.allocateTo seg
    let v := v &&& a._valueMask
    let ones := 2 ^ 128 - 1
    if bit + a._valueWidth ≤ 128 then
      let sh := 128 - a._valueWidth - bit
      some (a.setWord seg wrd ((a.word seg wrd &&& (ones ^^^ (a._valueMask <<< sh))) ||| (v <<< sh)))
    else
      let fShift := a._valueWidth - (128 - bit)
      let sShift := 128 - fShift
      let a := a.setWord seg wrd
        ((a.word seg wrd &&& (ones ^^^ (a._valueMask >>> fShift))) ||| (v >>> fShift))
      some (a.setWord seg (wrd + 1)
        ((a.word seg (wrd + 1) &&& (ones ^^^ ((a._valueMask <<< sShift) % 2 ^ 128))) |||
          ((v <<< sShift) % 2 ^ 128)))

end wordArray

namespace stuffedBits

/-- The words of block `i` (none for a null pointer). -/
def words (s : stuffedBits) (i : Nat) : List Nat := ((s.block i)._dat).getD []

/-- Bit `q` of block `i`, counted from the start of the block. -/
def bitAt (s : stuffedBits) (i q : Nat) : Bool := ((s.words i).getD (q / 64) 0).testBit (63 - q % 64)

/-- The stream with its cursor at bit `q` of block `b`. -/
def seek (s : stuffedBits) (b q : Nat) : stuffedBits :=
  { s with _dataBlk := b, _dataPos := q, _dataWrd := q / 64, _dataBit := 64 - q % 64 }

/-- The word and bit cursors agree with the position in the block. -/
def Cur (s : stuffedBits) : Prop := s._dataWrd = s._dataPos / 64 ∧ s._dataBit = 64 - s._dataPos % 64

/-- The bits `q .. q+n-1` of block `b`. -/
def bitsFrom (s : stuffedBits) (b q : Nat) : Nat → List Bool
  | 0 => []
  | n + 1 => s.bitAt b q :: bitsFrom s b (q + 1) n

end stuffedBits

/-- Bit `q` of a list of 64-bit words, each word filled from its most significant bit. -/
def wordsBit (d : List Nat) (q : Nat) : Bool := (d.getD (q / 64) 0).testBit (63 - q % 64)

/-- Store bit `b` at bit index `k` of the word `w`. -/
def pokeWord (w k : Nat) (b : Bool) : Nat :=
  if b then w ||| 2 ^ k else w &&& ((2 ^ 64 - 1) ^^^ 2 ^ k)

/-- The words `d` after the bits `bits` are stored from bit `q` on. -/
def writeAt (d : List Nat) (q : Nat) : List Bool → List Nat
  | [] => d
  | b :: bs => writeAt (d.set (q / 64) (pokeWord (d.getD (q / 64) 0) (63 - q % 64) b)) (q + 1) bs

namespace stuffedBits

/-- The invariants of a stream between two operations: the block array has `_blocksMax` entries
and the active block is one of them; the block capacity is a multiple of 64, at least 64 and
below 2^63; the word and bit cursors agree with the position, which lies in the data of the
active block; the blocks up to the active one are allocated with the capacity of the stream, and
a block after it is either not allocated or allocated with that capacity; the first block starts
at 0 and each block up to the active one starts where the block before it ends; the end of the
active block is a 64-bit position. -/
structure Inv (s : stuffedBits) : Prop where
  len_blocks : s._blocks.length = s._blocksMax
  blk_lt : s._dataBlk < s._blocksMax
  blk32 : s._dataBlk < 2 ^ 32
  max_ge : 64 ≤ s._maxBits
  max_dvd : s._maxBits % 64 = 0
  max_lt : s._maxBits < 2 ^ 63
  cur : s.Cur
  pos_le : s._dataPos ≤ (s.block s._dataBlk)._len
  used : ∀ i, i ≤ s._dataBlk → (s.block i)._max = s._maxBits ∧ (s.block i)._len ≤ s._maxBits ∧
    ∃ d, (s.block i)._dat = some d ∧ d.length = s._maxBits / 64
  spare : ∀ i, s._dataBlk < i → (s.block i)._dat = none ∨
    ((s.block i)._max = s._maxBits ∧ ∃ d, (s.block i)._dat = some d ∧ d.length = s._maxBits / 64)
  bgn_zero : (s.block 0)._bgn = 0
  chain : ∀ i, i < s._dataBlk → (s.block (i + 1))._bgn = (s.block i)._bgn + (s.block i)._len
  end_lt : (s.block s._dataBlk)._bgn + (s.block s._dataBlk)._len < 2 ^ 64

/-- The stream can take `pieces` more values of `bits` bits in all: either the block index stays
below 2^32 or everything fits in the active block, and the position stays below 2^64. -/
def Room (s : stuffedBits) (pieces bits : Nat) : Prop :=
  (s._dataBlk + pieces < 2 ^ 32 ∨ s._dataPos + bits ≤ s._maxBits) ∧
  (s.block s._dataBlk)._bgn + s._dataPos + bits < 2 ^ 64

/-- The state in which `ensureSpaceInCurrentBlock` calls `allocateBlock`: the active block is
sealed at the cursor and the block index advanced. -/
def sealed (s : stuffedBits) : stuffedBits :=
  { s.setBlock s._dataBlk { s.block s._dataBlk with _len := s._dataPos } with
    _dataBlk := (s._dataBlk + 1) % 2 ^ 32 }

/-- The block that `allocateBlock` sets up after sealing the active block of `s`. -/
def freshBlock (s : stuffedBits) : dBlock :=
  { _bgn := (s.block s._dataBlk)._bgn + s._dataPos, _len := 0, _max := s._maxBits,
    _dat := some (List.replicate (s._maxBits / 64) 0) }

/-- The stream after `ensureSpaceInCurrentBlock` moved to the next block. -/
def moved (s : stuffedBits) : stuffedBits :=
  (s.sealed.increaseArray.setBlock (s._dataBlk + 1) s.freshBlock).seek (s._dataBlk + 1) 0

/-- The stream after the bits `bits` are stored at the cursor and the block length updated. -/
def wr (s : stuffedBits) (bits : List Bool) : stuffedBits :=
  updateLen ((s.setBlock s._dataBlk
    { s.block s._dataBlk with _dat := some (writeAt (s.words s._dataBlk) s._dataPos bits) }).seek
      s._dataBlk (s._dataPos + bits.length))

/-- The state `s'` is the state `s` after one value with the bits `bits` was written. -/
def Wrote (s s' : stuffedBits) (bits : List Bool) : Prop :=
  s.Inv ∧ (s.block s._dataBlk)._bgn + s._dataPos + bits.length < 2 ^ 64 ∧ bits.length ≤ s._maxBits ∧
  ((s._dataPos + bits.length ≤ s._maxBits ∧ s' = s.wr bits) ∨
   (¬ s._dataPos + bits.length ≤ s._maxBits ∧ s._dataBlk + 1 < 2 ^ 32 ∧ s' = s.moved.wr bits))

/-- The block in which a value of `n` bits written at the cursor of `s` starts. -/
def landBlk (s : stuffedBits) (n : Nat) : Nat :=
  if s._dataPos + n ≤ s._maxBits then s._dataBlk else s._dataBlk + 1

/-- The position in its block at which a value of `n` bits written at the cursor of `s` starts. -/
def landPos (s : stuffedBits) (n : Nat) : Nat :=
  if s._dataPos + n ≤ s._maxBits then s._dataPos else 0

/-- What a write leaves behind, in terms of the blocks: the landing block and position, the stored
bits, and what is kept of the state before. -/
structure Landed (s s' : stuffedBits) (bits : List Bool) : Prop where
  blk_eq : s'._dataBlk = s.landBlk bits.length
  pos_eq : s'._dataPos = s.landPos bits.length + bits.length
  blk_le : s._dataBlk ≤ s'._dataBlk
  before : ∀ i, i < s._dataBlk → s'.block i = s.block i
  old_bgn : (s'.block s._dataBlk)._bgn = (s.block s._dataBlk)._bgn
  old_bits : ∀ q, q < s._dataPos → s'.bitAt s._dataBlk q = s.bitAt s._dataBlk q
  old_len : s._dataBlk < s'._dataBlk → (s'.block s._dataBlk)._len = s._dataPos
  old_pos : s._dataBlk = s'._dataBlk → s._dataPos = s.landPos bits.length
  new_bits : ∀ j, j < bits.length → s'.bitAt s'._dataBlk (s.landPos bits.length + j) = bits.getD j false
  land_bgn : (s'.block s'._dataBlk)._bgn + s.landPos bits.length = (s.block s._dataBlk)._bgn + s._dataPos

/-- The blocks of `t` hold everything that was written up to the cursor of `s`: the blocks before
the active block of `s` are as `s` sealed them, and the active block of `s` is kept up to the cursor
of `s`. -/
structure Ext (s t : stuffedBits) : Prop where
  blk_lt : s._dataBlk < t._blocksMax
  blk_len : s._dataBlk < t._blocks.length
  sealed_len : ∀ i, i < s._dataBlk → (t.block i)._len = (s.block i)._len
  sealed_bits : ∀ i q, i < s._dataBlk → q < (s.block i)._len → t.bitAt i q = s.bitAt i q
  len_active : s._dataPos ≤ (t.block s._dataBlk)._len
  bits_active : ∀ q, q < s._dataPos → t.bitAt s._dataBlk q = s.bitAt s._dataBlk q
  alloc : ∀ i, i ≤ s._dataBlk → (t.block i)._len ≤ 64 * (t.words i).length ∧ (t.block i)._dat ≠ none
  bgn : ∀ i, i ≤ s._dataBlk → (t.block i)._bgn = (s.block i)._bgn
  end_lt : (t.block s._dataBlk)._bgn + (t.block s._dataBlk)._len < 2 ^ 64

/-- The cursors from which a value written at the cursor of `s`, with a first piece of `n` bits, is
read back: the cursor of `s` itself, or the place where the first piece landed. -/
def Start (s : stuffedBits) (n b0 q0 : Nat) : Prop :=
  (b0 = s._dataBlk ∧ q0 = s._dataPos) ∨ (b0 = s.landBlk n ∧ q0 = s.landPos n)

/-- The write `wr` and the read `rd` round-trip the value `x`: from every valid stream with room
for `pieces` pieces and `bits` bits and a block capacity of at least `cap`, `wr` succeeds and keeps
the stream valid, and on every stream `t` that holds what was written up to then, seeking to the
start of the write finds its landing place and `rd` returns `x`, leaving the cursor where `wr`
left it. -/
def Sound {α : Type} (wr : stuffedBits → Option stuffedBits)
    (rd : stuffedBits → Option (α × stuffedBits)) (x : α) (n1 pieces bits cap : Nat) : Prop :=
  ∀ (s : stuffedBits) (p r : Nat), s.Inv → s.Room (pieces + p) (bits + r) → cap ≤ s._maxBits →
    ∃ s', wr s = some s' ∧ s'.Inv ∧ s'.Room p r ∧ s'._maxBits = s._maxBits ∧
      ∀ t, s'.Ext t → s.Ext t ∧
        (1 ≤ n1 → t.setPosition s.getPosition = some (t.seek (s.landBlk n1) (s.landPos n1))) ∧
        ∀ b0 q0, s.Start n1 b0 q0 → rd (t.seek b0 q0) = some (x, t.seek s'._dataBlk s'._dataPos)

end stuffedBits

/-- The greedy bits of `fibonacciBits`, from the lowest index to the highest. -/
def fibonacciLow : Nat → Nat → List Bool
  | 0, _ => []
  | n + 1, v =>
    if fibonacciNumber (n + 1) ≤ v then fibonacciLow n (v - fibonacciNumber (n + 1)) ++ [true]
    else fibonacciLow n v ++ [false]

/-- The sum of the Fibonacci numbers selected by `bits`, the first bit standing for `F(idx)`. -/
def fibonacciSum : Nat → List Bool → Nat
  | _, [] => 0
  | idx, b :: bs => (if b then fibonacciNumber idx else 0) + fibonacciSum (idx + 1) bs

/-- No two adjacent bits of the list are both set. -/
def NoAdjacent (l : List Bool) : Prop :=
  ∀ i, i + 1 < l.length → ¬ (l.getD i false = true ∧ l.getD (i + 1) false = true)

namespace stuffedBits

/-- The stream that the constructor leaves for a block capacity of `m` bits. -/
def emptyStream (m : Nat) : stuffedBits :=
  { _maxBits := m, _blocksMax := 32,
    _blocks := { _bgn := 0, _len := 0, _max := m, _dat := some (List.replicate (m / 64) 0) } ::
      List.replicate 31 {},
    _dataPos := 0, _dataBlk := 0, _dataWrd := 0, _dataBit := 64 }

/-- A stream of block capacity 64 with 60 bits written: the next value of more than 4 bits goes to
the next block. -/
def stream60 : stuffedBits := (emptyStream 64).wr (toBitsMSB 5 60)

end stuffedBits

namespace wordArray

/-- The invariants of a packed array, as the constructor sets them up for a width in [1,128] and
a segment size, below 2^64, that holds at least one value: the mask has the low `_valueWidth` bits,
the values of a segment fit in its size, the words of a segment cover its size, and every
allocated segment has `_wordsPerSegment` words. -/
structure Inv (a : wordArray) : Prop where
  width_pos : 1 ≤ a._valueWidth
  width_le : a._valueWidth ≤ 128
  mask : a._valueMask = 2 ^ a._valueWidth - 1
  vps_pos : 1 ≤ a._valuesPerSegment
  vps : a._valuesPerSegment * a._valueWidth ≤ a._segmentSize
  wps : a._segmentSize ≤ 128 * a._wordsPerSegment
  size64 : a._segmentSize < 2 ^ 64
  segs : ∀ i, i < a._segments.length → (a._segments.getD i []).length = a._wordsPerSegment

end wordArray

def reverseBits64 (x : Nat) : Nat :=
  let x := ((x >>> 1) &&& 0x5555555555555555) ||| (((x <<< 1) % 2 ^ 64) &&& 0xaaaaaaaaaaaaaaaa)
  let x := ((x >>> 2) &&& 0x3333333333333333) ||| (((x <<< 2) % 2 ^ 64) &&& 0xcccccccccccccccc)
  let x := ((x >>> 4) &&& 0x0f0f0f0f0f0f0f0f) ||| (((x <<< 4) % 2 ^ 64) &&& 0xf0f0f0f0f0f0f0f0)
  let x := ((x >>> 8) &&& 0x00ff00ff00ff00ff) ||| (((x <<< 8) % 2 ^ 64) &&& 0xff00ff00ff00ff00)
  let x := ((x >>> 16) &&& 0x0000ffff0000ffff) ||| (((x <<< 16) % 2 ^ 64) &&& 0xffff0000ffff0000)
  let x := ((x >>> 32) &&& 0x00000000ffffffff) ||| (((x <<< 32) % 2 ^ 64) &&& 0xffffffff00000000)
  x

def reverseBits32 (x : Nat) : Nat :=
  let x := ((x >>> 1) &&& 0x55555555) ||| (((x <<< 1) % 2 ^ 32) &&& 0xaaaaaaaa)
  let x := ((x >>> 2) &&& 0x33333333) ||| (((x <<< 2) % 2 ^ 32) &&& 0xcccccccc)
  let x := ((x >>> 4) &&& 0x0f0f0f0f) ||| (((x <<< 4) % 2 ^ 32) &&& 0xf0f0f0f0)
  let x := ((x >>> 8) &&& 0x00ff00ff) ||| (((x <<< 8) % 2 ^ 32) &&& 0xff00ff00)
  let x := ((x >>> 16) &&& 0x0000ffff) ||| (((x <<< 16) % 2 ^ 32) &&& 0xffff0000)
  x

def uint64Swap (x : Nat) : Nat :=
  let x := ((x >>> 8) &&& 0x00ff00ff00ff00ff) ||| (((x <<< 8) % 2 ^ 64) &&& 0xff00ff00ff00ff00)
  let x := ((x >>> 16) &&& 0x0000ffff0000ffff) ||| (((x <<< 16) % 2 ^ 64) &&& 0xffff0000ffff0000)
  let x := ((x >>> 32) &&& 0x00000000ffffffff) ||| (((x <<< 32) % 2 ^ 64) &&& 0xffffffff00000000)
  x

def uint32Swap (x : Nat) : Nat :=
  let x := ((x >>> 8) &&& 0x00ff00ff) ||| (((x <<< 8) % 2 ^ 32) &&& 0xff00ff00)
  let x := ((x >>> 16) &&& 0x0000ffff) ||| (((x <<< 16) % 2 ^ 32) &&& 0xffff0000)
  x

/-- The argument is promoted to `int` for the shifts (a 16-bit value shifted left by 8 fits), and
the result is converted back to 16 bits. -/
def uint16Swap (x : Nat) : Nat :=
  (((x >>> 8) &&& 0x00ff) ||| ((x <<< 8) &&& 0xff00)) % 2 ^ 16

/-- Byte `i` of a word, byte 0 being the least significant. -/
def byteOf (x i : Nat) : Nat := (x >>> (8 * i)) % 2 ^ 8

/-- The index that one exchange step of distance `k` reads bit `j` from: the partner of `j` in its
pair of `k`-bit groups. -/
def flipIndex (k j : Nat) : Nat := if (j / k) % 2 = 0 then j + k else j - k

/-- The number of set bits of `x` among its low `W` bits: the number of indices `i < W` at which `x`
has a set bit. -/
def numberOfSetBits (W x : Nat) : Nat := (List.range W).countP (fun i => x.testBit i)

/-- One step of the population count, `((x >> k) & M) + (x & M)`. -/
def addFields (k M x : Nat) : Nat := ((x >>> k) &&& M) + (x &&& M)

/-- A sequence of steps `(k, M)` of the population count on a word of `W` bits. -/
def addFieldsAll (W : Nat) (stages : List (Nat × Nat)) (x : Nat) : Nat :=
  stages.foldl (fun x p => addFields p.1 p.2 x % 2 ^ W) x

/-- The steps of the population count on a word of `2 ^ j` bits, with that width: those of the
half-width word with every mask doubled, then the step that adds the two halves. -/
def popStages : Nat → Nat × List (Nat × Nat)
  | 0 => (1, [])
  | j + 1 =>
    ((popStages j).1 + (popStages j).1,
     (popStages j).2.map (fun p => (p.1, 2 ^ (popStages j).1 * p.2 + p.2)) ++
       [((popStages j).1, 2 ^ (popStages j).1 - 1)])

/-- A failed assertion is the result `none`. -/
def expandTo3 (v : Nat) : Option Nat :=
  let o := ((v &&& 0x0000000000000003) <<< 0) % 2 ^ 64
  let o := o ||| ((v &&& 0x000000000000000c) <<< 1) % 2 ^ 64
  let o := o ||| ((v &&& 0x0000000000000030) <<< 2) % 2 ^ 64
  let o := o ||| ((v &&& 0x00000000000000c0) <<< 3) % 2 ^ 64
  let o := o ||| ((v &&& 0x0000000000000300) <<< 4) % 2 ^ 64
  let o := o ||| ((v &&& 0x0000000000000c00) <<< 5) % 2 ^ 64
  let o := o ||| ((v &&& 0x0000000000003000) <<< 6) % 2 ^ 64
  let o := o ||| ((v &&& 0x000000000000c000) <<< 7) % 2 ^ 64
  let o := o ||| ((v &&& 0x0000000000030000) <<< 8) % 2 ^ 64
  let o := o ||| ((v &&& 0x00000000000c0000) <<< 9) % 2 ^ 64
  let o := o ||| ((v &&& 0x0000000000300000) <<< 10) % 2 ^ 64
  let o := o ||| ((v &&& 0x0000000000c00000) <<< 11) % 2 ^ 64
  let o := o ||| ((v &&& 0x0000000003000000) <<< 12) % 2 ^ 64
  let o := o ||| ((v &&& 0x000000000c000000) <<< 13) % 2 ^ 64
  let o := o ||| ((v &&& 0x0000000030000000) <<< 14) % 2 ^ 64
  let o := o ||| ((v &&& 0x00000000c0000000) <<< 15) % 2 ^ 64
  let o := o ||| ((v &&& 0x0000000300000000) <<< 16) % 2 ^ 64
  let o := o ||| ((v &&& 0x0000000c00000000) <<< 17) % 2 ^ 64
  let o := o ||| ((v &&& 0x0000003000000000) <<< 18) % 2 ^ 64
  let o := o ||| ((v &&& 0x000000c000000000) <<< 19) % 2 ^ 64
  let o := o ||| ((v &&& 0x0000030000000000) <<< 20) % 2 ^ 64
  if v &&& 0xffffc0000000000 = 0 then some o else none

/-- A failed assertion is the result `none`. -/
def compressTo2 (v : Nat) : Option Nat :=
  let o := (v &&& 0x0000000000000003) >>> 0
  let o := o ||| (v &&& 0x0000000000000018) >>> 1
  let o := o ||| (v &&& 0x00000000000000c0) >>> 2
  let o := o ||| (v &&& 0x0000000000000600) >>> 3
  let o := o ||| (v &&& 0x0000000000003000) >>> 4
  let o := o ||| (v &&& 0x0000000000018000) >>> 5
  let o := o ||| (v &&& 0x00000000000c0000) >>> 6
  let o := o ||| (v &&& 0x0000000000600000) >>> 7
  let o := o ||| (v &&& 0x0000000003000000) >>> 8
  let o := o ||| (v &&& 0x0000000018000000) >>> 9
  let o := o ||| (v &&& 0x00000000c0000000) >>> 10
  let o := o ||| (v &&& 0x0000000600000000) >>> 11
  let o := o ||| (v &&& 0x0000003000000000) >>> 12
  let o := o ||| (v &&& 0x0000018000000000) >>> 13
  let o := o ||| (v &&& 0x00000c0000000000) >>> 14
  let o := o ||| (v &&& 0x0000600000000000) >>> 15
  let o := o ||| (v &&& 0x0003000000000000) >>> 16
  let o := o ||| (v &&& 0x0018000000000000) >>> 17
  let o := o ||| (v &&& 0x00c0000000000000) >>> 18
  let o := o ||| (v &&& 0x0600000000000000) >>> 19
  let o := o ||| (v &&& 0x3000000000000000) >>> 20
  if o &&& 0xffffc0000000000 = 0 then some o else none

/-- The masks and shift counts of `expandTo3`, in the order of the source. -/
def expandTerms : List (Nat × Nat) :=
  [(0x0000000000000003, 0), (0x000000000000000c, 1), (0x0000000000000030, 2),
   (0x00000000000000c0, 3), (0x0000000000000300, 4), (0x0000000000000c00, 5),
   (0x0000000000003000, 6), (0x000000000000c000, 7), (0x0000000000030000, 8),
   (0x00000000000c0000, 9), (0x0000000000300000, 10), (0x0000000000c00000, 11),
   (0x0000000003000000, 12), (0x000000000c000000, 13), (0x0000000030000000, 14),
   (0x00000000c0000000, 15), (0x0000000300000000, 16), (0x0000000c00000000, 17),
   (0x0000003000000000, 18), (0x000000c000000000, 19), (0x0000030000000000, 20)]

/-- The masks and shift counts of `compressTo2`, in the order of the source. -/
def compressTerms : List (Nat × Nat) :=
  [(0x0000000000000003, 0), (0x0000000000000018, 1), (0x00000000000000c0, 2),
   (0x0000000000000600, 3), (0x0000000000003000, 4), (0x0000000000018000, 5),
   (0x00000000000c0000, 6), (0x0000000000600000, 7), (0x0000000003000000, 8),
   (0x0000000018000000, 9), (0x00000000c0000000, 10), (0x0000000600000000, 11),
   (0x0000003000000000, 12), (0x0000018000000000, 13), (0x00000c0000000000, 14),
   (0x0000600000000000, 15), (0x0003000000000000, 16), (0x0018000000000000, 17),
   (0x00c0000000000000, 18), (0x0600000000000000, 19), (0x3000000000000000, 20)]

/-- The word that `expandTo3` computes before its assertion: the terms joined with OR. -/
def expandWord (v : Nat) : Nat :=
  expandTerms.tail.foldl (fun o p => o ||| ((v &&& p.1) <<< p.2) % 2 ^ 64)
    (((v &&& 0x0000000000000003) <<< 0) % 2 ^ 64)

/-- The word that `compressTo2` computes before its assertion. -/
def compressWord (v : Nat) : Nat :=
  compressTerms.tail.foldl (fun o p => o ||| (v &&& p.1) >>> p.2)
    ((v &&& 0x0000000000000003) >>> 0)

/-- The overloads `clearLeftBits(uint64, uint32)` (`W = 64`) and `clearLeftBits(uint128, uint32)`
(`W = 128`); `2 ^ W - 1` is `uint64max` or `uint128max`. -/
def clearLeftBits (W oob v l : Nat) : Nat :=
  if l ≥ W then 0 else v &&& shrW W oob (2 ^ W - 1) l

/-- The two overloads of `saveLeftBits`; the shift count `W - l` is computed in 32-bit unsigned
arithmetic. -/
def saveLeftBits (W oob v l : Nat) : Nat :=
  if l = 0 then 0 else v &&& shlW W oob (2 ^ W - 1) ((W + 2 ^ 32 - l) % 2 ^ 32)

/-- The two overloads of `clearRightBits`. -/
def clearRightBits (W oob v r : Nat) : Nat :=
  if r ≥ W then 0 else v &&& shlW W oob (2 ^ W - 1) r

/-- The two overloads of `saveRightBits`. -/
def saveRightBits (W oob v r : Nat) : Nat :=
  if r = 0 then 0 else v &&& shrW W oob (2 ^ W - 1) ((W + 2 ^ 32 - r) % 2 ^ 32)

/-- The two overloads of `clearMiddleBits`. -/
def clearMiddleBits (W oob v l r : Nat) : Nat :=
  saveRightBits W oob v r ||| saveLeftBits W oob v l

/-- The two overloads of `saveMiddleBits`. -/
def saveMiddleBits (W oob v l r : Nat) : Nat :=
  clearRightBits W oob v r &&& clearLeftBits W oob v l

/-- The table is indexed by bits 1..3 of the character; a `char` is its code here. -/
def encode2bitBase (base : Nat) : Nat :=
  [0, 1, 2, 3, 4, 4, 4, 4].getD ((base >>> 1) &&& 0x07) 0

/-- The character at index `base & 0x07` of the string "ACTGNNNN". -/
def decode2bitBase (base : Nat) : Char :=
  ['A', 'C', 'T', 'G', 'N', 'N', 'N', 'N'].getD (base &&& 0x07) 'N'

namespace stuffedBits

/-- The cursor can read: the bit cursor is in [1,64] and the active block is one of the blocks. -/
def Ready (u : stuffedBits) : Prop :=
  1 ≤ u._dataBit ∧ u._dataBit ≤ 64 ∧ u._blocksMax ≠ 0 ∧ u._dataBlk < u._blocksMax

end stuffedBits

/-- The bits of the Elias-gamma code of `n`: `floor(log2 n)` zero bits and a set bit (the unary
code of `floor(log2 n)`), then the low `floor(log2 n)` bits of `n`, most significant first. -/
def eliasGammaCode (n : Nat) : List Bool :=
  (List.replicate (Nat.log2 n) false ++ [true]) ++ toBitsMSB n (Nat.log2 n)

/-- The bits of the Elias-delta code of `v` with `k = floor(log2 v)`: the Elias-gamma code of
`k + 1`, then the low `k` bits of `v`, most significant first (the leading set bit of `v` is left
out). -/
def eliasDeltaCode (v : Nat) : List Bool :=
  eliasGammaCode (Nat.log2 v + 1) ++ toBitsMSB v (Nat.log2 v)

namespace stuffedBits

/-- The memory layout that the class keeps: the block array has `_blocksMax` entries, a 32-bit
count; the capacities are multiples of 64 (`allocateBlock` asserts it), and the buffer of an
allocated block has one word for each 64 bits of its capacity. -/
structure Layout (s : stuffedBits) : Prop where
  len_blocks : s._blocks.length = s._blocksMax
  max32 : s._blocksMax < 2 ^ 32
  max_dvd : s._maxBits % 64 = 0
  alloc : ∀ i d, (s.block i)._dat = some d →
    (s.block i)._max % 64 = 0 ∧ d.length = (s.block i)._max / 64

/-- The sum `_dataPos + wordLen` as the code computes it, in 64-bit unsigned arithmetic. -/
def wordEnd (s : stuffedBits) (wordLen : Nat) : Nat := (s._dataPos + wordLen) % 2 ^ 64

/-- The block after the active one as `allocateBlock` sets it up: it starts where the active block
ends at the cursor, has length 0, keeps its capacity if it was allocated and gets the capacity of
the stream if not, and its words are cleared. -/
def nextBlock (s : stuffedBits) : dBlock :=
  match (s.block (s._dataBlk + 1))._dat with
  | none =>
    { _bgn := ((s.block s._dataBlk)._bgn + s._dataPos) % 2 ^ 64, _len := 0, _max := s._maxBits,
      _dat := some (List.replicate (s._maxBits / 64) 0) }
  | some _ =>
    { _bgn := ((s.block s._dataBlk)._bgn + s._dataPos) % 2 ^ 64, _len := 0,
      _max := (s.block (s._dataBlk + 1))._max,
      _dat := some (List.replicate ((s.block (s._dataBlk + 1))._max / 64) 0) }

/-- The stream after `ensureSpaceInCurrentBlock` ended the active block at the cursor and set up
the next block. -/
def advanced (s : stuffedBits) : stuffedBits :=
  (s.sealed.increaseArray.setBlock (s._dataBlk + 1) s.nextBlock).seek (s._dataBlk + 1) 0

/-- Each block up to the active one starts where the block before it ends, and the first block
starts at 0. -/
def Chained (s : stuffedBits) : Prop :=
  (s.block 0)._bgn = 0 ∧
  ∀ i, 1 ≤ i → i ≤ s._dataBlk → (s.block i)._bgn = (s.block (i - 1))._bgn + (s.block (i - 1))._len

end stuffedBits

namespace stuffedBits

/-- A stream of block capacity 64 on which a 64-bit value and then a 3-bit value were written, read
up to the end of the first value: the cursor is at the end of block 0, and block 1 holds 3 bits. -/
def shortTail : Option stuffedBits :=
  (create 4096 64).bind (fun s0 => (s0.setBinary 64 (2 ^ 64 - 1)).bind (fun s1 =>
    (s1.setBinary 3 5).bind (fun s2 => (s2.setPosition 0).bind (fun s3 =>
      (s3.getBinary 64).map Prod.snd))))

end stuffedBits

namespace stuffedBits

/-- The relation between the position in the block and the word and bit cursors:
`_dataPos = 64 * _dataWrd + (64 - _dataBit)`. -/
def Consistent (s : stuffedBits) : Prop := s._dataPos = 64 * s._dataWrd + (64 - s._dataBit)

/-- While no block array is allocated (`_blocksMax = 0`) the cursor still has the values of its
member initialisers: position 0, word 0 and 64 bits left.  The helpers of the header that move the
cursor either assert `_blocksMax > 0` or allocate. -/
def Unmoved (s : stuffedBits) : Prop :=
  s._blocksMax = 0 → s._dataPos = 0 ∧ s._dataWrd = 0 ∧ s._dataBit = 64

/-- The logical position of the cursor in the stream: the begin of the active block plus the
position in the block. -/
def streamPos (s : stuffedBits) : Nat := (s.block s._dataBlk)._bgn + s._dataPos

end stuffedBits

/-- The expression in the comment above `encode2bitBase`:
`0x0706050403020100llu >> (((base >> 1) & 0x07) << 3) & 0x0f`. -/
def encode2bitBaseDoc (base : Nat) : Nat :=
  (0x0706050403020100 >>> (((base >>> 1) &&& 0x07) <<< 3)) &&& 0x0f

/-- The data members of `class readBuffer` that reading a character uses; a character is its
code, and the file behind the buffer is not part of the state. -/
structure readBuffer where
  _filePos : Nat := 0
  _eof : Bool := false
  _ignoreCR : Bool := true
  _bufferBgn : Nat := 0
  _bufferPos : Nat := 0
  _bufferLen : Nat := 0
  _bufferMax : Nat := 0
  _buffer : List Nat := []
deriving DecidableEq

namespace readBuffer

/-- The method `readuntil(stop)`: the character returned and the state left.  `fillBuffer`, which
is defined outside the header, is a parameter; `fuel` bounds the number of passes through the label
`readuntilAgain` (one more for each carriage return that is skipped), running out being `none`. -/
def readuntil (fillBuffer : readBuffer → readBuffer) :
    Nat → readBuffer → Nat → Option (Nat × readBuffer)
  | 0, _, _ => none
  | fuel + 1, b, stop =>
    let b := if b._eof = false ∧ b._bufferPos ≥ b._bufferLen then fillBuffer b else b
    if b._eof then some (0, b)
    else
      let ch := b._buffer.getD b._bufferPos 0
      if ch = stop then some (stop, b)
      else
        let b := { b with _bufferPos := (b._bufferPos + 1) % 2 ^ 64,
                          _filePos := (b._filePos + 1) % 2 ^ 64 }
        if b._ignoreCR ∧ ch = 13 then readuntil fillBuffer fuel b stop
        else some (ch, b)

end readBuffer

/-- The data members of `class histogramStatistics` that the median depends on.  The array
`_histogram`, cleared when it is allocated and when it grows, is a function from the value to its
count; the floating-point statistics and the mode and median absolute deviation are left out. -/
structure histogramStatistics where
  _finalized : Bool := false
  _histogramAlloc : Nat := 1024 * 1024
  _histogramMax : Nat := 0
  _histogram : Nat → Nat := fun _ => 0
  _numObjs : Nat := 0
  _median : Nat := 0

namespace histogramStatistics

/-- The constructor: an array of 1024 * 1024 cleared counts, nothing finalized, the statistics
cleared. -/
def create : histogramStatistics := {}

/-- The allocation after the loop `while (_histogramAlloc <= data)` of `add`, which doubles it; 64
doublings exhaust a 64-bit size. -/
def growAlloc : Nat → Nat → Nat → Nat
  | 0, alloc, _ => alloc
  | fuel + 1, alloc, data =>
    if alloc ≤ data then growAlloc fuel ((alloc * 2) % 2 ^ 64) data else alloc

/-- The method `add(data, count)`. -/
def add (h : histogramStatistics) (data count : Nat) : histogramStatistics :=
  { h with
    _histogramAlloc := growAlloc 64 h._histogramAlloc data,
    _histogramMax := if h._histogramMax < data then data else h._histogramMax,
    _histogram := fun i => if i = data then (h._histogram i + count) % 2 ^ 64 else h._histogram i,
    _finalized := false }

/-- The loop of `finalizeData` that counts the objects. -/
def countObjects (h : histogramStatistics) : Nat :=
  (List.range (h._histogramMax + 1)).foldl (fun n ii => (n + h._histogram ii) % 2 ^ 64) 0

/-- The loop of `finalizeData` that finds the median: `_median` sums the counts and, when the sum
reaches `_numObjs / 2`, becomes the value at hand and the loop stops. -/
def medianScan (hist : Nat → Nat) (numObjs : Nat) : List Nat → Nat → Nat
  | [], median => median
  | ii :: rest, median =>
    if (median + hist ii) % 2 ^ 64 ≥ numObjs / 2 then ii
    else medianScan hist numObjs rest ((median + hist ii) % 2 ^ 64)

/-- The part of `finalizeData` that sets `_numObjs` and `_median`. -/
def finalizeData (h : histogramStatistics) : histogramStatistics :=
  if h._finalized then h
  else
    { h with
      _numObjs := h.countObjects,
      _median := medianScan h._histogram h.countObjects (List.range (h._histogramMax + 1)) 0,
      _finalized := true }

/-- The method `median()`. -/
def median (h : histogramStatistics) : Nat := h.finalizeData._median

/-- The method `numberOfObjects()`. -/
def numberOfObjects (h : histogramStatistics) : Nat := h.finalizeData._numObjs

end histogramStatistics

/-- The local variables of `computeMode`. -/
structure modeScan where
  modeCnt : Nat := 0
  modeVal : Int := 0
  modeTmpCnt : Nat := 0
  modeTmpVal : Int := 0
deriving DecidableEq

/-- The update `if (modeCnt < modeTmpCnt) { modeCnt = modeTmpCnt; modeVal = modeTmpVal; }`. -/
def modeScan.keep (st : modeScan) : modeScan :=
  if st.modeCnt < st.modeTmpCnt then { st with modeCnt := st.modeTmpCnt, modeVal := st.modeTmpVal }
  else st

/-- The body of the loop of `computeMode` at the element `d`; the counters are 32-bit. -/
def modeScan.step (st : modeScan) (d : Int) : modeScan :=
  let st := if d ≠ st.modeTmpVal then { st.keep with modeTmpCnt := 1, modeTmpVal := d } else st
  { st with modeTmpCnt := (st.modeTmpCnt + 1) % 2 ^ 32 }

/-- The function `computeMode` at an integer type `TT`, returning `mode`.  `sort` is `std::sort`,
which is called when `isSorted` is false. -/
def computeMode (sort : List Int → List Int) (dist : List Int) (isSorted : Bool) : Int :=
  if dist.length = 0 then 0
  else
    let dist := if isSorted = false then sort dist else dist
    ((dist.foldl modeScan.step {}).keep).modeVal

/-- The count that the loop of `computeMode` reaches for the value `v` of the array `l`: one more
than the number of occurrences, except for zeros at the start of the array, which are counted
exactly. -/
def modeWeight (l : List Int) (v : Int) : Nat :=
  l.count v + (if l.head? = some 0 ∧ v = 0 then 0 else 1)

/-- The state of the loop of `computeMode` after the non-empty sorted prefix `p` of the array: the
value at hand is in `p` and is its greatest element, its counter is its weight, the best of the
earlier values is recorded with its weight, and a recorded value other than 0 beats the zeros at
the start of the array strictly. -/
structure ModeInv (p : List Int) (st : modeScan) : Prop where
  mem : st.modeTmpVal ∈ p
  le_last : ∀ v ∈ p, v ≤ st.modeTmpVal
  ge_head : ∀ h, p.head? = some h → ∀ v ∈ p, h ≤ v
  tmp : st.modeTmpCnt = modeWeight p st.modeTmpVal
  mode : st.modeCnt = 0 ∨
    (st.modeVal ∈ p ∧ st.modeVal ≠ st.modeTmpVal ∧ st.modeCnt = modeWeight p st.modeVal)
  max : ∀ v ∈ p, v ≠ st.modeTmpVal → modeWeight p v ≤ st.modeCnt
  zero : p.head? = some 0 → st.modeVal ≠ 0 → st.modeCnt ≠ 0 → p.count 0 < st.modeCnt

theorem popTable64 : ∀ n, n ≤ 64 → countNumberOfSetBits64 (2 ^ n - 1) = n := by
  decide

theorem popTable32 : ∀ n, n ≤ 32 → countNumberOfSetBits32 (2 ^ n - 1) = n := by
  decide

theorem smear_step (x y k m : Nat) (hm : m ≤ k + 1)
    (h : ∀ i, y.testBit i = true ↔ ∃ j, i ≤ j ∧ j ≤ i + k ∧ x.testBit j = true) :
    ∀ i, (y ||| (y >>> m)).testBit i = true ↔ ∃ j, i ≤ j ∧ j ≤ i + (k + m) ∧ x.testBit j = true := by
  intro i
  simp only [Nat.testBit_or, Nat.testBit_shiftRight, Bool.or_eq_true, h]
  constructor
  · rintro (⟨j, h1, h2, h3⟩ | ⟨j, h1, h2, h3⟩)
    · exact ⟨j, h1, by omega, h3⟩
    · exact ⟨j, by omega, by omega, h3⟩
  · rintro ⟨j, h1, h2, h3⟩
    by_cases hj : j ≤ i + k
    · exact Or.inl ⟨j, h1, hj, h3⟩
    · exact Or.inr ⟨j, by omega, by omega, h3⟩

theorem smear_base (x : Nat) :
    ∀ i, x.testBit i = true ↔ ∃ j, i ≤ j ∧ j ≤ i + 0 ∧ x.testBit j = true := by
  intro i
  constructor
  · intro h; exact ⟨i, le_refl _, le_refl _, h⟩
  · rintro ⟨j, h1, h2, h3⟩
    have : j = i := by omega
    subst this; exact h3

theorem lt_bitWidth_iff (x i : Nat) : i < bitWidth x ↔ 2 ^ i ≤ x := by
  unfold bitWidth
  split
  · next h => subst h; simp
  · next h => rw [Nat.lt_succ_iff, Nat.le_log2 h]

theorem window_eq (x W r : Nat) (hx : x < 2 ^ W) (hW : 0 < W)
    (h : ∀ i, r.testBit i = true ↔ ∃ j, i ≤ j ∧ j ≤ i + (W - 1) ∧ x.testBit j = true) :
    r = 2 ^ bitWidth x - 1 := by
  apply Nat.eq_of_testBit_eq
  intro i
  rw [Nat.testBit_two_pow_sub_one, Bool.eq_iff_iff, h, decide_eq_true_iff, lt_bitWidth_iff]
  constructor
  · rintro ⟨j, h1, _, h3⟩
    exact le_trans (Nat.pow_le_pow_right (by decide) h1) (Nat.testBit_implies_ge h3)
  · intro hi
    obtain ⟨j, h1, h2⟩ := Nat.ge_two_pow_implies_high_bit_true hi
    refine ⟨j, h1, ?_, h2⟩
    have hj : j < W := by
      by_contra hc
      have := Nat.testBit_implies_ge h2
      have : 2 ^ W ≤ 2 ^ j := Nat.pow_le_pow_right (by decide) (by omega)
      omega
    omega

theorem bitWidth_le (x W : Nat) (hx : x < 2 ^ W) : bitWidth x ≤ W := by
  by_contra hc
  have := (lt_bitWidth_iff x W).1 (by omega)
  omega

theorem countNumberOfBits64_eq (x : Nat) (hx : x < 2 ^ 64) : countNumberOfBits64 x = bitWidth x := by
  have h := smear_step x _ _ 32 (by decide) (smear_step x _ _ 16 (by decide) (smear_step x _ _ 8 (by decide)
    (smear_step x _ _ 4 (by decide) (smear_step x _ _ 2 (by decide) (smear_step x _ _ 1 (by decide) (smear_base x))))))
  have h2 := window_eq x 64 _ hx (by decide) h
  unfold countNumberOfBits64
  simp only []
  rw [h2]
  exact popTable64 _ (bitWidth_le x 64 hx)

theorem countNumberOfBits32_eq (x : Nat) (hx : x < 2 ^ 32) : countNumberOfBits32 x = bitWidth x := by
  have h := smear_step x _ _ 16 (by decide) (smear_step x _ _ 8 (by decide)
    (smear_step x _ _ 4 (by decide) (smear_step x _ _ 2 (by decide) (smear_step x _ _ 1 (by decide) (smear_base x)))))
  have h2 := window_eq x 32 _ hx (by decide) h
  unfold countNumberOfBits32
  simp only []
  rw [h2]
  exact popTable32 _ (bitWidth_le x 32 hx)

theorem testBit_negBool (W : Nat) (b : Bool) (i : Nat) :
    (negBool W b).testBit i = (b && decide (i < W)) := by
  unfold negBool
  cases b <;> simp

theorem testBit_shrW_ones (W oob c i : Nat) (hc : c < W) :
    (shrW W oob (2 ^ W - 1) c).testBit i = decide (c + i < W) := by
  unfold shrW
  simp [hc]

theorem testBit_shlW_ones (W oob c i : Nat) (hc : c < W) :
    (shlW W oob (2 ^ W - 1) c).testBit i = decide (c ≤ i ∧ i < W) := by
  unfold shlW
  simp only [hc, if_true, Nat.testBit_mod_two_pow, Nat.testBit_shiftLeft, Nat.testBit_two_pow_sub_one]
  rw [Bool.eq_iff_iff]
  simp only [Bool.and_eq_true, decide_eq_true_iff, ge_iff_le]
  constructor
  · rintro ⟨h1, h2, _⟩; exact ⟨h2, h1⟩
  · rintro ⟨h1, h2⟩; exact ⟨h2, h1, by omega⟩

theorem testBit_shrW_high (W oob x c i : Nat) (hx : x < 2 ^ W) (hi : W ≤ i) :
    (shrW W oob x c).testBit i = false := by
  unfold shrW
  split
  · rw [Nat.testBit_shiftRight]
    apply Nat.testBit_lt_two_pow
    exact lt_of_lt_of_le hx (Nat.pow_le_pow_right (by decide) (by omega))
  · simp; omega

theorem testBit_shlW_high (W oob x c i : Nat) (hi : W ≤ i) :
    (shlW W oob x c).testBit i = false := by
  unfold shlW
  split <;> simp <;> omega

theorem shiftCount (W n : Nat) (hW : W < 2 ^ 64) (hn : 0 < n) (hnW : n ≤ W) :
    (W + 2 ^ 64 - n) % 2 ^ 64 = W - n := by
  have : W + 2 ^ 64 - n = (W - n) + 2 ^ 64 := by omega
  rw [this, Nat.add_mod_right]
  exact Nat.mod_eq_of_lt (by omega)

theorem testBit_buildLowBitMask (W oob n i : Nat) (hW : W < 2 ^ 64) :
    (buildLowBitMask W oob n).testBit i = decide (i < min n W) := by
  unfold buildLowBitMask
  simp only [Nat.testBit_or, Nat.testBit_and, testBit_negBool]
  rcases Nat.eq_zero_or_pos n with h0 | hpos
  · subst h0; simp
  · by_cases hle : n ≤ W
    · rw [shiftCount W n hW hpos hle, testBit_shrW_ones W oob _ i (by omega)]
      rw [Bool.eq_iff_iff]
      simp
      omega
    · by_cases hi : i < W
      · have h1 : decide (W < n) = true := by simp; omega
        have h2 : i < n := by omega
        simp [hi, h1, h2]
      · rw [testBit_shrW_high W oob _ _ i (by have := Nat.two_pow_pos W; omega) (by omega)]
        simp [hi]

theorem testBit_buildHighBitMask (W oob n i : Nat) (hW : W < 2 ^ 64) :
    (buildHighBitMask W oob n).testBit i = decide (W - min n W ≤ i ∧ i < W) := by
  unfold buildHighBitMask
  simp only [Nat.testBit_or, Nat.testBit_and, testBit_negBool]
  rcases Nat.eq_zero_or_pos n with h0 | hpos
  · subst h0; simp
  · by_cases hle : n ≤ W
    · rw [shiftCount W n hW hpos hle, testBit_shlW_ones W oob _ i (by omega)]
      rw [Bool.eq_iff_iff]
      simp
      omega
    · by_cases hi : i < W
      · have h1 : decide (W < n) = true := by simp; omega
        have h2 : min n W = W := by omega
        simp [hi, h1, h2]
      · rw [testBit_shlW_high W oob _ _ i (by omega)]
        simp [hi]

theorem buildLowBitMask_eq (W oob n : Nat) (hW : W < 2 ^ 64) :
    buildLowBitMask W oob n = 2 ^ min n W - 1 := by
  apply Nat.eq_of_testBit_eq
  intro i
  rw [testBit_buildLowBitMask W oob n i hW, Nat.testBit_two_pow_sub_one]

theorem buildHighBitMask_eq (W oob n : Nat) (hW : W < 2 ^ 64) :
    buildHighBitMask W oob n = 2 ^ W - 2 ^ (W - min n W) := by
  apply Nat.eq_of_testBit_eq
  intro i
  rw [testBit_buildHighBitMask W oob n i hW]
  have hk : W - min n W ≤ W := Nat.sub_le _ _
  generalize W - min n W = k at hk
  have e : 2 ^ W - 2 ^ k = (2 ^ (W - k) - 1) <<< k := by
    rw [Nat.shiftLeft_eq, Nat.sub_mul, one_mul, ← Nat.pow_add]
    congr 2; omega
  rw [e, Nat.testBit_shiftLeft, Nat.testBit_two_pow_sub_one, Bool.eq_iff_iff]
  simp
  omega

namespace stuffedBits

theorem cur_iff (s : stuffedBits) :
    s.Cur ↔ (s._dataPos = 64 * s._dataWrd + (64 - s._dataBit) ∧ 1 ≤ s._dataBit ∧ s._dataBit ≤ 64) := by
  unfold Cur; omega

theorem cur_eq_seek (s : stuffedBits) (h : s.Cur) : s = s.seek s._dataBlk s._dataPos := by
  obtain ⟨h1, h2⟩ := h
  cases s
  simp only [seek] at *
  simp [h1, h2]

theorem cur_seek (s : stuffedBits) (b q : Nat) : (s.seek b q).Cur := ⟨rfl, rfl⟩

@[simp] theorem seek_blocks (s : stuffedBits) (b q : Nat) : (s.seek b q)._blocks = s._blocks := rfl

@[simp] theorem seek_blocksMax (s : stuffedBits) (b q : Nat) : (s.seek b q)._blocksMax = s._blocksMax := rfl

@[simp] theorem seek_maxBits (s : stuffedBits) (b q : Nat) : (s.seek b q)._maxBits = s._maxBits := rfl

@[simp] theorem seek_dataBlk (s : stuffedBits) (b q : Nat) : (s.seek b q)._dataBlk = b := rfl

@[simp] theorem seek_dataPos (s : stuffedBits) (b q : Nat) : (s.seek b q)._dataPos = q := rfl

@[simp] theorem seek_block (s : stuffedBits) (b q i : Nat) : (s.seek b q).block i = s.block i := rfl

@[simp] theorem seek_words (s : stuffedBits) (b q i : Nat) : (s.seek b q).words i = s.words i := rfl

@[simp] theorem seek_bitAt (s : stuffedBits) (b q i j : Nat) : (s.seek b q).bitAt i j = s.bitAt i j := rfl

@[simp] theorem seek_seek (s : stuffedBits) (b q b' q' : Nat) : (s.seek b q).seek b' q' = s.seek b' q' := rfl

theorem stepBit_seek (s : stuffedBits) (b q : Nat) (hq : q + 1 < 2 ^ 64) :
    (s.seek b q).stepBit = s.seek b (q + 1) := by
  unfold stepBit updateBit seek
  simp only [Nat.mod_eq_of_lt hq]
  by_cases h : q % 64 = 63
  · have h1 : 64 - q % 64 - 1 = 0 := by omega
    have h2 : (q / 64 + 1) % 2 ^ 64 = (q + 1) / 64 := by
      rw [Nat.mod_eq_of_lt (by omega)]; omega
    have h3 : 64 = 64 - (q + 1) % 64 := by omega
    simp only [h1, if_true, h2]
    rw [← h3]
  · have h1 : 64 - q % 64 - 1 ≠ 0 := by omega
    have h2 : q / 64 = (q + 1) / 64 := by omega
    have h3 : 64 - q % 64 - 1 = 64 - (q + 1) % 64 := by omega
    have h4 : 64 - (q + 1) % 64 ≠ 0 := by omega
    simp only [h2, h3, h4, if_false]

theorem peekBit_seek (s : stuffedBits) (b q : Nat) (h : q < 64 * (s.words b).length) :
    (s.seek b q).peekBit = some (s.bitAt b q) := by
  unfold peekBit bitAt
  simp only [seek_block, seek_dataBlk]
  unfold words at h ⊢
  cases hd : (s.block b)._dat with
  | none => simp [hd] at h
  | some d =>
    simp only [hd, Option.getD_some] at h ⊢
    have h1 : (s.seek b q)._dataWrd = q / 64 := rfl
    have h2 : (s.seek b q)._dataBit = 64 - q % 64 := rfl
    rw [h1, h2]
    have h3 : q / 64 < d.length ∧ 0 < 64 - q % 64 ∧ 64 - q % 64 ≤ 64 := by omega
    have h4 : 64 - q % 64 - 1 = 63 - q % 64 := by omega
    simp only [h3, and_self, if_true, h4]

theorem takeBit_seek (s : stuffedBits) (b q : Nat) (h : q < 64 * (s.words b).length) (hq : q + 1 < 2 ^ 64) :
    (s.seek b q).takeBit = some (s.bitAt b q, s.seek b (q + 1)) := by
  unfold takeBit
  rw [peekBit_seek s b q h, stepBit_seek s b q hq]

theorem takeList_seek (s : stuffedBits) (b : Nat) (n : Nat) : ∀ (q : Nat),
    q + n ≤ 64 * (s.words b).length → q + n < 2 ^ 64 →
    (s.seek b q).takeList n = some (s.bitsFrom b q n, s.seek b (q + n)) := by
  induction n with
  | zero => intro q _ _; rfl
  | succ n ih =>
    intro q h hq
    unfold takeList
    rw [takeBit_seek s b q (by omega) (by omega)]
    simp only []
    rw [ih (q + 1) (by omega) (by omega)]
    simp only [bitsFrom]
    congr 3; omega

end stuffedBits

theorem testBit_pokeWord (w k j : Nat) (b : Bool) (hj : j < 64) :
    (pokeWord w k b).testBit j = if j = k then b else w.testBit j := by
  unfold pokeWord
  cases b
  · simp only [Bool.false_eq_true, if_false, Nat.testBit_and, Nat.testBit_xor,
      Nat.testBit_two_pow_sub_one, Nat.testBit_two_pow]
    by_cases h : j = k
    · subst h; simp [hj]
    · have : ¬ k = j := fun e => h e.symm
      simp [h, this, hj]
  · simp only [if_true, Nat.testBit_or, Nat.testBit_two_pow]
    by_cases h : j = k
    · subst h; simp
    · have : ¬ k = j := fun e => h e.symm
      simp [h, this]

theorem length_writeAt (bits : List Bool) : ∀ (d : List Nat) (q : Nat), (writeAt d q bits).length = d.length := by
  induction bits with
  | nil => intro d q; rfl
  | cons b bs ih => intro d q; simp only [writeAt]; rw [ih]; simp

theorem wordsBit_set (d : List Nat) (q j : Nat) (b : Bool) (hq : q < 64 * d.length) :
    wordsBit (d.set (q / 64) (pokeWord (d.getD (q / 64) 0) (63 - q % 64) b)) j =
      if j = q then b else wordsBit d j := by
  unfold wordsBit
  simp only [List.getD_eq_getElem?_getD, List.getElem?_set]
  by_cases hw : q / 64 = j / 64
  · have hlt : q / 64 < d.length := by omega
    simp only [hw, if_true]
    rw [← hw]
    simp only [hlt, if_true, Option.getD_some]
    rw [testBit_pokeWord _ _ _ _ (by omega)]
    by_cases hjq : j = q
    · subst hjq; simp
    · have : ¬ (63 - j % 64 = 63 - q % 64) := by omega
      simp only [this, hjq, if_false]
  · have hjq : ¬ j = q := by intro e; subst e; exact hw rfl
    simp only [hw, hjq, if_false]

theorem wordsBit_writeAt (bits : List Bool) : ∀ (d : List Nat) (q j : Nat), q + bits.length ≤ 64 * d.length →
    wordsBit (writeAt d q bits) j =
      if q ≤ j ∧ j < q + bits.length then bits.getD (j - q) false else wordsBit d j := by
  induction bits with
  | nil => intro d q j _; simp [writeAt]; intro _; omega
  | cons b bs ih =>
    intro d q j h
    simp only [List.length_cons] at h
    simp only [writeAt]
    rw [ih _ _ _ (by simp; omega), wordsBit_set d q j b (by omega)]
    simp only [List.length_cons]
    by_cases h1 : j = q
    · subst h1
      have : ¬ (j + 1 ≤ j ∧ j < j + 1 + bs.length) := by omega
      simp [this]
    · by_cases h2 : q + 1 ≤ j ∧ j < q + 1 + bs.length
      · have h3 : q ≤ j ∧ j < q + (bs.length + 1) := by omega
        have h4 : j - q = (j - (q + 1)) + 1 := by omega
        simp only [h2, h3, and_self, if_true]
        rw [h4]; simp
      · have h3 : ¬ (q ≤ j ∧ j < q + (bs.length + 1)) := by omega
        simp only [h2, h3, h1, if_false]

namespace stuffedBits

theorem bitAt_eq (s : stuffedBits) (i q : Nat) : s.bitAt i q = wordsBit (s.words i) q := rfl

theorem block_setBlock (s : stuffedBits) (i j : Nat) (b : dBlock) :
    (s.setBlock i b).block j = if i = j ∧ i < s._blocks.length then b else s.block j := by
  unfold setBlock block
  simp only [List.getD_eq_getElem?_getD, List.getElem?_set]
  by_cases h : i = j
  · subst h
    by_cases h2 : i < s._blocks.length
    · simp [h2]
    · simp [h2, List.getElem?_eq_none (Nat.le_of_not_lt h2)]
  · simp [h]

theorem setBlock_setBlock (s : stuffedBits) (i : Nat) (b c : dBlock) :
    (s.setBlock i b).setBlock i c = s.setBlock i c := by
  unfold setBlock
  simp [List.set_set]

theorem setBlock_self (s : stuffedBits) (i : Nat) : s.setBlock i (s.block i) = s := by
  unfold setBlock block
  cases s with
  | mk a b l d e f g =>
    simp only [mk.injEq, true_and, and_true]
    apply List.ext_getElem?
    intro n
    rw [List.getElem?_set]
    by_cases h : i = n
    · subst h
      by_cases h2 : i < l.length
      · simp [h2, List.getElem?_eq_getElem h2]
      · simp [h2]; omega
    · simp [h]

theorem seek_setBlock (s : stuffedBits) (b q i : Nat) (c : dBlock) :
    (s.seek b q).setBlock i c = (s.setBlock i c).seek b q := rfl

theorem pokeBit_seek (s : stuffedBits) (b q : Nat) (v : Bool) (d : List Nat)
    (hd : (s.block b)._dat = some d) (h : q < 64 * d.length) (hq : q + 1 < 2 ^ 64) :
    (s.seek b q).pokeBit v =
      some ((s.setBlock b { s.block b with _dat := some (writeAt d q [v]) }).seek b (q + 1)) := by
  unfold pokeBit
  simp only [seek_block, seek_dataBlk, hd]
  have h1 : (s.seek b q)._dataWrd = q / 64 := rfl
  have h2 : (s.seek b q)._dataBit = 64 - q % 64 := rfl
  rw [h1, h2]
  have h3 : q / 64 < d.length ∧ 0 < 64 - q % 64 ∧ 64 - q % 64 ≤ 64 := by omega
  have h4 : 64 - q % 64 - 1 = 63 - q % 64 := by omega
  simp only [h3, and_self, if_true, h4]
  rw [seek_setBlock, stepBit_seek _ _ _ hq]
  rfl

theorem pokeList_seek (bits : List Bool) : ∀ (s : stuffedBits) (b q : Nat) (d : List Nat),
    (s.block b)._dat = some d → b < s._blocks.length → q + bits.length ≤ 64 * d.length →
    q + bits.length < 2 ^ 64 →
    (s.seek b q).pokeList bits =
      some ((s.setBlock b { s.block b with _dat := some (writeAt d q bits) }).seek b (q + bits.length)) := by
  induction bits with
  | nil =>
    intro s b q d hd hb _ _
    simp only [pokeList, writeAt, List.length_nil, Nat.add_zero]
    have : ({ s.block b with _dat := some d } : dBlock) = s.block b := by
      rw [← hd]
    rw [this, setBlock_self]
  | cons v vs ih =>
    intro s b q d hd hb h hq
    simp only [List.length_cons] at h hq
    simp only [pokeList]
    rw [pokeBit_seek s b q v d hd (by omega) (by omega)]
    simp only []
    have hd1 : ((s.setBlock b { s.block b with _dat := some (writeAt d q [v]) }).block b)._dat
        = some (writeAt d q [v]) := by
      rw [block_setBlock]; simp [hb]
    rw [ih _ b (q + 1) _ hd1 (by simp [setBlock]; exact hb) (by rw [length_writeAt]; omega) (by omega)]
    rw [setBlock_setBlock, block_setBlock]
    simp only [hb, and_self, if_true, List.length_cons]
    congr 2
    omega

theorem block_increaseArray (s : stuffedBits) (i : Nat) : s.increaseArray.block i = s.block i := by
  unfold increaseArray
  split
  · rfl
  · unfold block
    simp only [List.getD_eq_getElem?_getD]
    by_cases h : i < s._blocks.length
    · rw [List.getElem?_append_left h]
    · rw [List.getElem?_append_right (by omega), List.getElem?_replicate,
        List.getElem?_eq_none (by omega)]
      split <;> rfl

theorem increaseArray_props (s : stuffedBits) (h : s._blocks.length = s._blocksMax)
    (hb : s._dataBlk ≤ s._blocksMax) :
    s.increaseArray._blocks.length = s.increaseArray._blocksMax ∧
    s._dataBlk < s.increaseArray._blocksMax ∧ s.increaseArray._maxBits = s._maxBits ∧
    s.increaseArray._dataBlk = s._dataBlk ∧ s.increaseArray._dataPos = s._dataPos ∧
    s._blocksMax ≤ s.increaseArray._blocksMax := by
  unfold increaseArray
  split
  · refine ⟨h, by assumption, ?_, ?_, ?_, le_refl _⟩ <;> rfl
  · simp only [List.length_append, List.length_replicate]
    exact ⟨by omega, by omega, trivial, trivial, trivial, by omega⟩

theorem sealed_block (s : stuffedBits) (h : s._dataBlk < s._blocks.length) (i : Nat) :
    s.sealed.block i =
      if i = s._dataBlk then { s.block s._dataBlk with _len := s._dataPos } else s.block i := by
  have : s.sealed.block i = (s.setBlock s._dataBlk { s.block s._dataBlk with _len := s._dataPos }).block i := rfl
  rw [this, block_setBlock]
  by_cases hi : i = s._dataBlk
  · subst hi; simp [h]
  · have : ¬ s._dataBlk = i := fun e => hi e.symm
    simp [hi, this]

theorem ensureSpace_stay (s : stuffedBits) (n : Nat) (hs : s.Inv) (hn : s._dataPos + n < 2 ^ 64)
    (hfit : s._dataPos + n ≤ s._maxBits) : s.ensureSpaceInCurrentBlock n = some s := by
  unfold ensureSpaceInCurrentBlock
  have hc := (cur_iff s).1 hs.cur
  have h1 : ¬ (s._dataBit = 0 ∨ 64 < s._dataBit ∨ s._blocksMax = 0 ∨ s._blocksMax ≤ s._dataBlk) := by
    have := hs.blk_lt; omega
  have h2 : (s._dataPos + n) % 2 ^ 64 ≤ (s.block s._dataBlk)._max := by
    rw [Nat.mod_eq_of_lt hn, (hs.used _ (le_refl _)).1]; exact hfit
  simp only [h1, if_false, h2, if_true]

theorem ensureSpace_move (s : stuffedBits) (n : Nat) (hs : s.Inv) (hn : s._dataPos + n < 2 ^ 64)
    (hfit : ¬ s._dataPos + n ≤ s._maxBits) (h32 : s._dataBlk + 1 < 2 ^ 32) :
    s.ensureSpaceInCurrentBlock n = some s.moved := by
  unfold ensureSpaceInCurrentBlock
  have hc := (cur_iff s).1 hs.cur
  have h1 : ¬ (s._dataBit = 0 ∨ 64 < s._dataBit ∨ s._blocksMax = 0 ∨ s._blocksMax ≤ s._dataBlk) := by
    have := hs.blk_lt; omega
  have h2 : ¬ (s._dataPos + n) % 2 ^ 64 ≤ (s.block s._dataBlk)._max := by
    rw [Nat.mod_eq_of_lt hn, (hs.used _ (le_refl _)).1]; exact hfit
  simp only [h1, if_false, h2]
  change s.sealed.allocateBlock = some s.moved
  have hlen : s._dataBlk < s._blocks.length := by rw [hs.len_blocks]; exact hs.blk_lt
  have hblk : s.sealed._dataBlk = s._dataBlk + 1 := by
    show (s._dataBlk + 1) % 2 ^ 32 = _
    exact Nat.mod_eq_of_lt h32
  have hsl : s.sealed._blocks.length = s.sealed._blocksMax := by
    show (s._blocks.set _ _).length = s._blocksMax
    rw [List.length_set]; exact hs.len_blocks
  have hsm : s.sealed._blocksMax = s._blocksMax := rfl
  obtain ⟨p1, p2, p3, p4, p5, p6⟩ := increaseArray_props s.sealed hsl (by rw [hblk, hsm]; have := hs.blk_lt; omega)
  have hmx : s.sealed._maxBits = s._maxBits := rfl
  unfold allocateBlock
  simp only [p4, hblk, p3, hmx, block_increaseArray, Nat.add_sub_cancel]
  have hne : s._dataBlk + 1 ≠ 0 := by omega
  rw [sealed_block s hlen s._dataBlk, sealed_block s hlen (s._dataBlk + 1)]
  have hne2 : ¬ s._dataBlk + 1 = s._dataBlk := by omega
  simp only [hne, hne2, if_false, if_true]
  have hend := hs.end_lt
  have hpl := hs.pos_le
  have hbgn : ((s.block s._dataBlk)._bgn + s._dataPos) % 2 ^ 64 = (s.block s._dataBlk)._bgn + s._dataPos :=
    Nat.mod_eq_of_lt (by omega)
  rw [hbgn]
  rcases hs.spare (s._dataBlk + 1) (by omega) with hnone | ⟨hmax, d, hd, hdl⟩
  · simp only [hnone, hs.max_dvd]
    simp only [ne_eq, not_true_eq_false, if_false, Option.map_some', List.drop_replicate,
      Nat.sub_self, List.replicate_zero, List.append_nil, reduceCtorEq]
    unfold moved seek freshBlock setBlock
    simp [p4, hblk]
  · simp only [hd, hmax, hs.max_dvd]
    simp only [ne_eq, not_true_eq_false, if_false, Option.map_some', reduceCtorEq]
    have : List.drop (s._maxBits / 64) d = [] := by
      apply List.drop_eq_nil_of_le; omega
    rw [this, List.append_nil]
    unfold moved seek freshBlock setBlock
    simp [p4, hblk]

theorem moved_block (s : stuffedBits) (hs : s.Inv) (h32 : s._dataBlk + 1 < 2 ^ 32) (i : Nat) :
    s.moved.block i =
      if i = s._dataBlk then { s.block s._dataBlk with _len := s._dataPos }
      else if i = s._dataBlk + 1 then s.freshBlock else s.block i := by
  have hlen : s._dataBlk < s._blocks.length := by rw [hs.len_blocks]; exact hs.blk_lt
  have hblk : s.sealed._dataBlk = s._dataBlk + 1 := by
    show (s._dataBlk + 1) % 2 ^ 32 = _
    exact Nat.mod_eq_of_lt h32
  have hsl : s.sealed._blocks.length = s.sealed._blocksMax := by
    show (s._blocks.set _ _).length = s._blocksMax
    rw [List.length_set]; exact hs.len_blocks
  have hsm : s.sealed._blocksMax = s._blocksMax := rfl
  obtain ⟨p1, p2, -, -, -, -⟩ := increaseArray_props s.sealed hsl (by rw [hblk, hsm]; have := hs.blk_lt; omega)
  unfold moved
  rw [seek_block, block_setBlock, block_increaseArray, sealed_block s hlen]
  rw [p1]; rw [hblk] at p2
  by_cases h1 : i = s._dataBlk
  · subst h1
    rw [if_neg (by omega), if_pos rfl, if_pos rfl]
  · by_cases h2 : i = s._dataBlk + 1
    · subst h2
      rw [if_pos ⟨rfl, p2⟩, if_neg h1, if_pos rfl]
    · rw [if_neg (by omega), if_neg h1, if_neg h1, if_neg h2]

theorem moved_fields (s : stuffedBits) (hs : s.Inv) (h32 : s._dataBlk + 1 < 2 ^ 32) :
    s.moved._maxBits = s._maxBits ∧ s.moved._dataBlk = s._dataBlk + 1 ∧ s.moved._dataPos = 0 ∧
    s.moved._blocks.length = s.moved._blocksMax ∧ s._dataBlk + 1 < s.moved._blocksMax := by
  have hblk : s.sealed._dataBlk = s._dataBlk + 1 := by
    show (s._dataBlk + 1) % 2 ^ 32 = _
    exact Nat.mod_eq_of_lt h32
  have hsl : s.sealed._blocks.length = s.sealed._blocksMax := by
    show (s._blocks.set _ _).length = s._blocksMax
    rw [List.length_set]; exact hs.len_blocks
  have hsm : s.sealed._blocksMax = s._blocksMax := rfl
  obtain ⟨p1, p2, p3, -, -, -⟩ := increaseArray_props s.sealed hsl (by rw [hblk, hsm]; have := hs.blk_lt; omega)
  rw [hblk] at p2
  refine ⟨p3, rfl, rfl, ?_, p2⟩
  show (s.sealed.increaseArray._blocks.set _ _).length = s.sealed.increaseArray._blocksMax
  rw [List.length_set]; exact p1

theorem inv_moved (s : stuffedBits) (hs : s.Inv) (h32 : s._dataBlk + 1 < 2 ^ 32) : s.moved.Inv := by
  obtain ⟨f1, f2, f3, f4, f5⟩ := moved_fields s hs h32
  have hb := moved_block s hs h32
  have hpl := hs.pos_le
  have hend := hs.end_lt
  have hu := hs.used s._dataBlk (le_refl _)
  refine ⟨f4, by omega, by omega, by rw [f1]; exact hs.max_ge, by rw [f1]; exact hs.max_dvd,
    by rw [f1]; exact hs.max_lt, cur_seek _ _ _, by rw [f3]; exact Nat.zero_le _, ?_, ?_, ?_, ?_, ?_⟩
  · intro i hi
    rw [f2] at hi
    rw [hb i, f1]
    by_cases h1 : i = s._dataBlk
    · simp only [h1, if_true]
      exact ⟨hu.1, by omega, hu.2.2⟩
    · by_cases h2 : i = s._dataBlk + 1
      · simp only [h1, h2, if_false, if_true]
        have : ¬ s._dataBlk + 1 = s._dataBlk := by omega
        simp only [this, if_false]
        exact ⟨rfl, Nat.zero_le _, _, rfl, List.length_replicate _ _⟩
      · simp only [h1, h2, if_false]
        exact hs.used i (by omega)
  · intro i hi
    rw [f2] at hi
    rw [hb i, f1]
    have h1 : ¬ i = s._dataBlk := by omega
    have h2 : ¬ i = s._dataBlk + 1 := by omega
    simp only [h1, h2, if_false]
    exact hs.spare i (by omega)
  · rw [hb 0]
    by_cases h1 : 0 = s._dataBlk
    · simp only [h1, if_true]; rw [← h1]; exact hs.bgn_zero
    · have h2 : ¬ 0 = s._dataBlk + 1 := by omega
      simp only [h1, h2, if_false]; exact hs.bgn_zero
  · intro i hi
    rw [f2] at hi
    rw [hb i, hb (i + 1)]
    by_cases h1 : i = s._dataBlk
    · have h3 : ¬ i + 1 = s._dataBlk := by omega
      have h4 : i + 1 = s._dataBlk + 1 := by omega
      simp only [h1, h3, h4, if_true, if_false]
      have : ¬ s._dataBlk + 1 = s._dataBlk := by omega
      simp only [this, if_false]
      rfl
    · have h2 : ¬ i = s._dataBlk + 1 := by omega
      have h4 : ¬ i + 1 = s._dataBlk + 1 := by omega
      simp only [h1, h2, h4, if_false]
      by_cases h3 : i + 1 = s._dataBlk
      · simp only [h3, if_true]
        rw [← h3]; exact hs.chain i (by omega)
      · simp only [h3, if_false]
        exact hs.chain i (by omega)
  · rw [f2, hb]
    have : ¬ s._dataBlk + 1 = s._dataBlk := by omega
    simp only [this, if_false, if_true]
    show (s.block s._dataBlk)._bgn + s._dataPos + 0 < 2 ^ 64
    omega

theorem wr_fields (s : stuffedBits) (bits : List Bool) :
    (s.wr bits)._maxBits = s._maxBits ∧ (s.wr bits)._dataBlk = s._dataBlk ∧
    (s.wr bits)._dataPos = s._dataPos + bits.length ∧ (s.wr bits)._blocksMax = s._blocksMax ∧
    (s.wr bits)._blocks.length = s._blocks.length ∧ (s.wr bits).Cur := by
  refine ⟨rfl, rfl, rfl, rfl, ?_, rfl, rfl⟩
  show (List.set (List.set _ _ _) _ _).length = _
  rw [List.length_set, List.length_set]

theorem wr_block (s : stuffedBits) (bits : List Bool) (h : s._dataBlk < s._blocks.length) (i : Nat) :
    (s.wr bits).block i =
      if i = s._dataBlk then
        { s.block s._dataBlk with
          _dat := some (writeAt (s.words s._dataBlk) s._dataPos bits),
          _len := max (s._dataPos + bits.length) (s.block s._dataBlk)._len }
      else s.block i := by
  unfold wr updateLen
  simp only [seek_dataBlk, seek_dataPos, seek_block, seek_setBlock]
  rw [setBlock_setBlock, block_setBlock, block_setBlock]
  by_cases h1 : i = s._dataBlk
  · subst h1; simp [h]
  · have : ¬ s._dataBlk = i := fun e => h1 e.symm
    simp [h1, this]

theorem words_of_dat (s : stuffedBits) (i : Nat) (d : List Nat) (h : (s.block i)._dat = some d) :
    s.words i = d := by
  unfold words; rw [h]; rfl

theorem inv_wr (s : stuffedBits) (bits : List Bool) (hs : s.Inv)
    (hfit : s._dataPos + bits.length ≤ s._maxBits)
    (h64 : (s.block s._dataBlk)._bgn + s._dataPos + bits.length < 2 ^ 64) : (s.wr bits).Inv := by
  obtain ⟨f1, f2, f3, f4, f5, f6⟩ := wr_fields s bits
  have hlen : s._dataBlk < s._blocks.length := by rw [hs.len_blocks]; exact hs.blk_lt
  have hb := wr_block s bits hlen
  have hu := hs.used s._dataBlk (le_refl _)
  obtain ⟨d, hd, hdl⟩ := hu.2.2
  have hend := hs.end_lt
  refine ⟨by rw [f5, f4]; exact hs.len_blocks, by rw [f2, f4]; exact hs.blk_lt, by rw [f2]; exact hs.blk32,
    by rw [f1]; exact hs.max_ge,
    by rw [f1]; exact hs.max_dvd, by rw [f1]; exact hs.max_lt, f6, ?_, ?_, ?_, ?_, ?_, ?_⟩
  · rw [f2, f3, hb]; simp
  · intro i hi
    rw [f2] at hi
    rw [hb i, f1]
    by_cases h1 : i = s._dataBlk
    · simp only [h1, if_true]
      refine ⟨hu.1, ?_, _, rfl, ?_⟩
      · exact max_le hfit hu.2.1
      · rw [length_writeAt, words_of_dat s _ d hd, hdl]
    · simp only [h1, if_false]; exact hs.used i hi
  · intro i hi
    rw [f2] at hi
    rw [hb i, f1]
    have h1 : ¬ i = s._dataBlk := by omega
    simp only [h1, if_false]; exact hs.spare i hi
  · rw [hb 0]
    by_cases h1 : 0 = s._dataBlk
    · simp only [h1, if_true]; rw [← h1]; exact hs.bgn_zero
    · simp only [h1, if_false]; exact hs.bgn_zero
  · intro i hi
    rw [f2] at hi
    rw [hb i, hb (i + 1)]
    have h1 : ¬ i = s._dataBlk := by omega
    simp only [h1, if_false]
    by_cases h3 : i + 1 = s._dataBlk
    · simp only [h3, if_true]; rw [← h3]; exact hs.chain i hi
    · simp only [h3, if_false]; exact hs.chain i hi
  · rw [f2, hb]
    simp only [if_true]
    rcases Nat.le_total (s._dataPos + bits.length) (s.block s._dataBlk)._len with h | h
    · rw [max_eq_right h]; exact hend
    · rw [max_eq_left h]; omega

theorem pokeList_inv (s : stuffedBits) (bits : List Bool) (hs : s.Inv)
    (hfit : s._dataPos + bits.length ≤ s._maxBits) :
    (s.pokeList bits).map updateLen = some (s.wr bits) := by
  obtain ⟨-, -, d, hd, hdl⟩ := hs.used s._dataBlk (le_refl _)
  have hlen : s._dataBlk < s._blocks.length := by rw [hs.len_blocks]; exact hs.blk_lt
  have hm := hs.max_lt
  have hdv := hs.max_dvd
  have e := cur_eq_seek s hs.cur
  have h := pokeList_seek bits s s._dataBlk s._dataPos d hd hlen (by omega) (by omega)
  rw [← e] at h
  rw [h, Option.map_some']
  unfold wr
  rw [words_of_dat s _ d hd]

theorem writeBits_stay (s : stuffedBits) (bits : List Bool) (hs : s.Inv)
    (hfit : s._dataPos + bits.length ≤ s._maxBits) :
    s.writeBits bits.length bits = some (s.wr bits) := by
  have hm := hs.max_lt
  have h := pokeList_inv s bits hs hfit
  unfold writeBits
  rw [ensureSpace_stay s _ hs (by omega) hfit]
  simp only []
  cases hp : s.pokeList bits with
  | none => rw [hp] at h; simp at h
  | some s2 => rw [hp] at h; simpa using h

theorem writeBits_move (s : stuffedBits) (bits : List Bool) (hs : s.Inv)
    (hfit : ¬ s._dataPos + bits.length ≤ s._maxBits) (h32 : s._dataBlk + 1 < 2 ^ 32)
    (hn : bits.length ≤ s._maxBits) :
    s.writeBits bits.length bits = some (s.moved.wr bits) := by
  have hm := hs.max_lt
  have hpl := hs.pos_le
  have hu := (hs.used s._dataBlk (le_refl _)).2.1
  obtain ⟨f1, -, f3, -, -⟩ := moved_fields s hs h32
  have h := pokeList_inv s.moved bits (inv_moved s hs h32) (by rw [f1, f3]; omega)
  unfold writeBits
  rw [ensureSpace_move s _ hs (by omega) hfit h32]
  simp only []
  cases hp : s.moved.pokeList bits with
  | none => rw [hp] at h; simp at h
  | some s2 => rw [hp] at h; simpa using h

theorem writeBits_spec (s : stuffedBits) (bits : List Bool) (p rest : Nat) (hs : s.Inv)
    (hr : s.Room (p + 1) (bits.length + rest)) (hn : bits.length ≤ s._maxBits) :
    ∃ s', s.writeBits bits.length bits = some s' ∧ s.Wrote s' bits ∧ s'.Inv ∧ s'.Room p rest := by
  obtain ⟨hr1, hr2⟩ := hr
  by_cases hfit : s._dataPos + bits.length ≤ s._maxBits
  · refine ⟨s.wr bits, writeBits_stay s bits hs hfit, ⟨hs, by omega, hn, Or.inl ⟨hfit, rfl⟩⟩,
      inv_wr s bits hs hfit (by omega), ?_⟩
    obtain ⟨f1, f2, f3, -, -, -⟩ := wr_fields s bits
    have hlen : s._dataBlk < s._blocks.length := by rw [hs.len_blocks]; exact hs.blk_lt
    unfold Room
    rw [f1, f2, f3, wr_block s bits hlen, if_pos rfl]
    simp only []
    omega
  · have h32 : s._dataBlk + 1 < 2 ^ 32 := by omega
    have hi := inv_moved s hs h32
    obtain ⟨m1, m2, m3, m4, m5⟩ := moved_fields s hs h32
    refine ⟨s.moved.wr bits, writeBits_move s bits hs hfit h32 hn, ⟨hs, by omega, hn, Or.inr ⟨hfit, h32, rfl⟩⟩,
      inv_wr s.moved bits hi (by rw [m1, m3]; omega) ?_, ?_⟩
    · rw [m2, m3, moved_block s hs h32, if_neg (by omega), if_pos rfl]
      show (s.block s._dataBlk)._bgn + s._dataPos + 0 + bits.length < 2 ^ 64
      omega
    · obtain ⟨f1, f2, f3, -, -, -⟩ := wr_fields s.moved bits
      have hlen : s.moved._dataBlk < s.moved._blocks.length := by rw [m4, m2]; exact m5
      unfold Room
      rw [f1, f2, f3, wr_block s.moved bits hlen, if_pos rfl, m1, m2, m3,
        moved_block s hs h32, if_neg (by omega), if_pos rfl]
      show (s._dataBlk + 1 + p < 2 ^ 32 ∨ 0 + bits.length + rest ≤ s._maxBits) ∧
        (s.block s._dataBlk)._bgn + s._dataPos + (0 + bits.length) + rest < 2 ^ 64
      omega

theorem wrote_inv (s s' : stuffedBits) (bits : List Bool) (h : s.Wrote s' bits) : s'.Inv := by
  obtain ⟨hs, h64, hn, (⟨hfit, rfl⟩ | ⟨hfit, h32, rfl⟩)⟩ := h
  · exact inv_wr s bits hs hfit h64
  · obtain ⟨m1, m2, m3, m4, m5⟩ := moved_fields s hs h32
    refine inv_wr s.moved bits (inv_moved s hs h32) (by rw [m1, m3]; omega) ?_
    rw [m2, m3, moved_block s hs h32, if_neg (by omega), if_pos rfl]
    show (s.block s._dataBlk)._bgn + s._dataPos + 0 + bits.length < 2 ^ 64
    omega

theorem bitAt_wr (s : stuffedBits) (bits : List Bool) (hs : s.Inv)
    (hfit : s._dataPos + bits.length ≤ s._maxBits) (q : Nat) :
    (s.wr bits).bitAt s._dataBlk q =
      if s._dataPos ≤ q ∧ q < s._dataPos + bits.length then bits.getD (q - s._dataPos) false
      else s.bitAt s._dataBlk q := by
  have hlen : s._dataBlk < s._blocks.length := by rw [hs.len_blocks]; exact hs.blk_lt
  obtain ⟨-, -, d, hd, hdl⟩ := hs.used s._dataBlk (le_refl _)
  have hdv := hs.max_dvd
  rw [bitAt_eq, bitAt_eq]
  have : (s.wr bits).words s._dataBlk = writeAt (s.words s._dataBlk) s._dataPos bits := by
    unfold words
    rw [wr_block s bits hlen, if_pos rfl]
    rfl
  rw [this, wordsBit_writeAt _ _ _ _ (by rw [words_of_dat s _ d hd]; omega)]

theorem wrote_landed (s s' : stuffedBits) (bits : List Bool) (h : s.Wrote s' bits) :
    s.Landed s' bits := by
  obtain ⟨hs, h64, hn, (⟨hfit, rfl⟩ | ⟨hfit, h32, rfl⟩)⟩ := h
  · obtain ⟨f1, f2, f3, -, -, -⟩ := wr_fields s bits
    have hlen : s._dataBlk < s._blocks.length := by rw [hs.len_blocks]; exact hs.blk_lt
    have hb := wr_block s bits hlen
    have hbm := hs.blk_lt
    have hl : s.landBlk bits.length = s._dataBlk := by unfold landBlk; rw [if_pos hfit]
    have hp : s.landPos bits.length = s._dataPos := by unfold landPos; rw [if_pos hfit]
    refine ⟨by rw [f2, hl], by rw [f3, hp], by rw [f2], ?_, ?_, ?_, ?_, ?_, ?_, ?_⟩
    · intro i hi; rw [hb, if_neg (by omega)]
    · rw [hb, if_pos rfl]
    · intro q hq; rw [bitAt_wr s bits hs hfit, if_neg (by omega)]
    · rw [f2]; intro hc; omega
    · intro _; exact hp.symm
    · intro j hj
      rw [f2, hp, bitAt_wr s bits hs hfit, if_pos (by omega)]
      congr 1; omega
    · rw [f2, hp, hb, if_pos rfl]
  · obtain ⟨m1, m2, m3, m4, m5⟩ := moved_fields s hs h32
    have hi := inv_moved s hs h32
    obtain ⟨f1, f2, f3, -, -, -⟩ := wr_fields s.moved bits
    have hlen : s.moved._dataBlk < s.moved._blocks.length := by rw [m4, m2]; exact m5
    have hb := wr_block s.moved bits hlen
    have hmb := moved_block s hs h32
    have hl : s.landBlk bits.length = s._dataBlk + 1 := by unfold landBlk; rw [if_neg hfit]
    have hp : s.landPos bits.length = 0 := by unfold landPos; rw [if_neg hfit]
    have hold : (s.moved.wr bits).block s._dataBlk = { s.block s._dataBlk with _len := s._dataPos } := by
      rw [hb, if_neg (by omega), hmb, if_pos rfl]
    refine ⟨by rw [f2, m2, hl], by rw [f3, m3, hp], by rw [f2, m2]; omega, ?_, ?_, ?_, ?_, ?_, ?_, ?_⟩
    · intro i hi; rw [hb, if_neg (by omega), hmb, if_neg (by omega), if_neg (by omega)]
    · rw [hold]
    · intro q _
      unfold bitAt words
      rw [hold]
    · intro _; rw [hold]
    · rw [f2, m2]; intro hc; omega
    · intro j hj
      have := bitAt_wr s.moved bits hi (by rw [m1, m3]; omega) (0 + j)
      rw [m2, m3] at this
      rw [f2, m2, hp, this, if_pos (by omega)]
      congr 1; omega
    · rw [f2, m2, hp, hb, if_pos m2.symm, m2, hmb, if_neg (by omega), if_pos rfl]
      rfl

theorem ext_refl (s : stuffedBits) (hs : s.Inv) : s.Ext s := by
  refine ⟨hs.blk_lt, by rw [hs.len_blocks]; exact hs.blk_lt, fun _ _ => rfl, fun _ _ _ _ => rfl,
    hs.pos_le, fun _ _ => rfl, ?_, fun _ _ => rfl, hs.end_lt⟩
  intro i hi
  obtain ⟨h1, h2, d, hd, hdl⟩ := hs.used i hi
  have := hs.max_dvd
  rw [words_of_dat s i d hd, hd]
  exact ⟨by omega, by simp⟩

theorem bitAt_congr (s t : stuffedBits) (i q : Nat) (h : t.block i = s.block i) :
    t.bitAt i q = s.bitAt i q := by
  unfold bitAt words; rw [h]

theorem landBlk_cases (s : stuffedBits) (n : Nat) :
    (s.landBlk n = s._dataBlk ∧ s.landPos n = s._dataPos ∧ s._dataPos + n ≤ s._maxBits) ∨
    (s.landBlk n = s._dataBlk + 1 ∧ s.landPos n = 0 ∧ ¬ s._dataPos + n ≤ s._maxBits) := by
  unfold landBlk landPos
  by_cases h : s._dataPos + n ≤ s._maxBits
  · left; simp [h]
  · right; simp [h]

theorem ext_of_wrote (s s' t : stuffedBits) (bits : List Bool) (W : s.Wrote s' bits) (E : s'.Ext t) :
    s.Ext t := by
  have L := wrote_landed s s' bits W
  obtain ⟨hs, h64, hn, -⟩ := W
  have hle := L.blk_le
  rcases Nat.eq_or_lt_of_le hle with heq | hlt
  · have hp := L.old_pos heq
    have hpe := L.pos_eq
    refine ⟨by have := E.blk_lt; omega, by have := E.blk_len; omega, ?_, ?_, ?_, ?_, ?_, ?_, ?_⟩
    · intro i hi; rw [E.sealed_len i (by omega), L.before i hi]
    · intro i q hi hq
      rw [E.sealed_bits i q (by omega) (by rw [L.before i hi]; exact hq)]
      exact bitAt_congr _ _ _ _ (L.before i hi)
    · have := E.len_active; rw [← heq] at this; omega
    · intro q hq
      have := E.bits_active q (by omega)
      rw [← heq] at this
      rw [this, L.old_bits q hq]
    · intro i hi; exact E.alloc i (by omega)
    · intro i hi
      rw [E.bgn i (by omega)]
      rcases Nat.eq_or_lt_of_le hi with h | h
      · rw [h]; exact L.old_bgn
      · rw [L.before i h]
    · have := E.end_lt; rw [← heq] at this; exact this
  · have hol := L.old_len hlt
    refine ⟨by have := E.blk_lt; omega, by have := E.blk_len; omega, ?_, ?_, ?_, ?_, ?_, ?_, ?_⟩
    · intro i hi; rw [E.sealed_len i (by omega), L.before i hi]
    · intro i q hi hq
      rw [E.sealed_bits i q (by omega) (by rw [L.before i hi]; exact hq)]
      exact bitAt_congr _ _ _ _ (L.before i hi)
    · rw [E.sealed_len _ hlt, hol]
    · intro q hq
      rw [E.sealed_bits _ q hlt (by rw [hol]; exact hq), L.old_bits q hq]
    · intro i hi; exact E.alloc i (by omega)
    · intro i hi
      rw [E.bgn i (by omega)]
      rcases Nat.eq_or_lt_of_le hi with h | h
      · rw [h]; exact L.old_bgn
      · rw [L.before i h]
    · rw [E.sealed_len _ hlt, hol, E.bgn _ (by omega), L.old_bgn]; omega

theorem bitsFrom_eq (s : stuffedBits) (b : Nat) (bits : List Bool) : ∀ (q : Nat),
    (∀ j, j < bits.length → s.bitAt b (q + j) = bits.getD j false) →
    s.bitsFrom b q bits.length = bits := by
  induction bits with
  | nil => intro q _; rfl
  | cons v vs ih =>
    intro q h
    simp only [List.length_cons, bitsFrom]
    have h0 := h 0 (by simp)
    simp only [Nat.add_zero, List.getD_cons_zero] at h0
    rw [h0, ih (q + 1)]
    intro j hj
    have := h (j + 1) (by simp; omega)
    simp only [List.getD_cons_succ] at this
    rw [← this]; congr 1; omega

/-- Reading at the landing position: the block step keeps the cursor. -/
theorem move_landed (s s' t : stuffedBits) (bits : List Bool) (W : s.Wrote s' bits) (E : s'.Ext t)
    (w : Nat) (hw : w ≤ bits.length) :
    (t.seek s'._dataBlk (s.landPos bits.length)).moveToNextBlock w =
      some (t.seek s'._dataBlk (s.landPos bits.length)) := by
  have L := wrote_landed s s' bits W
  have h1 := E.len_active
  have h2 := E.end_lt
  have h3 := E.blk_lt
  have h4 := L.pos_eq
  unfold moveToNextBlock
  simp only [seek_dataBlk, seek_dataPos, seek_block, seek_blocksMax]
  have hb : (t.seek s'._dataBlk (s.landPos bits.length))._dataBit = 64 - s.landPos bits.length % 64 := rfl
  rw [hb]
  rw [if_neg (by omega), Nat.mod_eq_of_lt (by omega), if_pos (by omega)]

/-- Reading at the cursor at which the write started: the block step goes to the landing
position. -/
theorem move_start (s s' t : stuffedBits) (bits : List Bool) (W : s.Wrote s' bits) (E : s'.Ext t)
    (w : Nat) (hw : w ≤ bits.length) (hw0 : w = 0 → bits = []) :
    (t.seek s._dataBlk s._dataPos).moveToNextBlock w =
      some (t.seek s'._dataBlk (s.landPos bits.length)) := by
  have L := wrote_landed s s' bits W
  have hs' := wrote_inv s s' bits W
  have hs := W.1
  have hn := W.2.2.1
  rcases landBlk_cases s bits.length with ⟨c1, c2, c3⟩ | ⟨c1, c2, c3⟩
  · have := move_landed s s' t bits W E w hw
    rw [L.blk_eq, c1, c2] at this ⊢
    exact this
  · have hblk : s'._dataBlk = s._dataBlk + 1 := by rw [L.blk_eq, c1]
    have hol := L.old_len (by omega)
    have hsl := E.sealed_len s._dataBlk (by omega)
    have h1 := E.len_active
    have h3 := E.blk_lt
    have h4 := L.pos_eq
    have h5 := hs'.blk32
    have hpl := hs.pos_le
    have hml := hs.max_lt
    have hu := (hs.used s._dataBlk (le_refl _)).2.1
    have hw1 : 1 ≤ w := by
      rcases Nat.eq_zero_or_pos w with h | h
      · have := hw0 h; subst this; simp at c3; omega
      · exact h
    unfold moveToNextBlock
    simp only [seek_dataBlk, seek_dataPos, seek_block, seek_blocksMax]
    have hb : (t.seek s._dataBlk s._dataPos)._dataBit = 64 - s._dataPos % 64 := rfl
    rw [hb, hsl, hol]
    rw [hblk] at h1 h3
    rw [if_neg (by omega), Nat.mod_eq_of_lt (by omega), if_neg (by omega)]
    simp only [ne_eq, not_true_eq_false, if_false]
    rw [Nat.mod_eq_of_lt (by omega), if_neg (by omega), if_neg (by omega), if_neg (by rw [← hblk]; exact (E.alloc _ (le_refl _)).2)]
    rw [hblk, c2]
    rfl

/-- The bits of a value that was written are read back from its landing position. -/
theorem takeList_landed (s s' t : stuffedBits) (bits : List Bool) (W : s.Wrote s' bits) (E : s'.Ext t) :
    (t.seek s'._dataBlk (s.landPos bits.length)).takeList bits.length =
      some (bits, t.seek s'._dataBlk s'._dataPos) := by
  have L := wrote_landed s s' bits W
  have h1 := E.len_active
  have h2 := E.end_lt
  have h4 := L.pos_eq
  have ha := (E.alloc s'._dataBlk (le_refl _)).1
  rw [takeList_seek t _ _ _ (by omega) (by omega), ← h4, bitsFrom_eq]
  intro j hj
  rw [E.bits_active _ (by omega), L.new_bits j hj]

theorem readBits_start (s s' t : stuffedBits) (bits : List Bool) (W : s.Wrote s' bits) (E : s'.Ext t) :
    (t.seek s._dataBlk s._dataPos).readBits bits.length = some (bits, t.seek s'._dataBlk s'._dataPos) := by
  unfold readBits
  rw [move_start s s' t bits W E _ (le_refl _) (fun h => List.length_eq_zero.1 h)]
  exact takeList_landed s s' t bits W E

theorem readBits_landed (s s' t : stuffedBits) (bits : List Bool) (W : s.Wrote s' bits) (E : s'.Ext t) :
    (t.seek s'._dataBlk (s.landPos bits.length)).readBits bits.length =
      some (bits, t.seek s'._dataBlk s'._dataPos) := by
  unfold readBits
  rw [move_landed s s' t bits W E _ (le_refl _)]
  exact takeList_landed s s' t bits W E

theorem chain_le (s : stuffedBits) (hs : s.Inv) : ∀ j, j ≤ s._dataBlk → ∀ i, i < j →
    (s.block i)._bgn + (s.block i)._len ≤ (s.block j)._bgn := by
  intro j
  induction j with
  | zero => intro _ i hi; omega
  | succ j ih =>
    intro hj i hi
    have hc := hs.chain j (by omega)
    rcases Nat.eq_or_lt_of_le (Nat.lt_succ_iff.1 hi) with h | h
    · subst h; omega
    · have := ih (by omega) i h; omega

theorem findBlock_eq (p : Nat) : ∀ (l : List dBlock) (k off : Nat), k < l.length →
    (∀ i, i < k → ¬ p < ((l.getD i {})._bgn + (l.getD i {})._len) % 2 ^ 64) →
    p < ((l.getD k {})._bgn + (l.getD k {})._len) % 2 ^ 64 →
    findBlock p l off = some (off + k) := by
  intro l
  induction l with
  | nil => intro k off hk; simp at hk
  | cons b bs ih =>
    intro k off hk hbefore hat
    cases k with
    | zero =>
      simp only [List.getD_cons_zero] at hat
      simp only [findBlock]
      rw [if_pos hat]
      rfl
    | succ k =>
      have h0 := hbefore 0 (by omega)
      simp only [List.getD_cons_zero] at h0
      simp only [findBlock, h0, if_false]
      rw [ih k (off + 1) (by simpa using hk) ?_ (by simpa using hat)]
      · congr 1; omega
      · intro i hi
        have := hbefore (i + 1) (by omega)
        simpa using this

/-- Seeking to the position at which a value was written puts the cursor at its landing
position. -/
theorem setPosition_landed (s s' t : stuffedBits) (bits : List Bool) (W : s.Wrote s' bits)
    (E : s'.Ext t) (hne : 1 ≤ bits.length) :
    t.setPosition s.getPosition = some (t.seek s'._dataBlk (s.landPos bits.length)) := by
  have L := wrote_landed s s' bits W
  have hs' := wrote_inv s s' bits W
  have h64 := W.2.1
  have hgp : s.getPosition = (s.block s._dataBlk)._bgn + s._dataPos := by
    unfold getPosition; exact Nat.mod_eq_of_lt (by omega)
  have hlb := L.land_bgn
  have hbg := E.bgn s'._dataBlk (le_refl _)
  have h1 := E.len_active
  have h2 := E.end_lt
  have h4 := L.pos_eq
  have hfb : findBlock s.getPosition t._blocks 0 = some (0 + s'._dataBlk) := by
    apply findBlock_eq _ _ _ _ E.blk_len
    · intro i hi
      have hc := chain_le s' hs' s'._dataBlk (le_refl _) i hi
      have e1 := E.sealed_len i hi
      have e2 := E.bgn i (by omega)
      show ¬ s.getPosition < ((t.block i)._bgn + (t.block i)._len) % 2 ^ 64
      rw [e1, e2, hgp, Nat.mod_eq_of_lt (by omega)]
      omega
    · show s.getPosition < ((t.block s'._dataBlk)._bgn + (t.block s'._dataBlk)._len) % 2 ^ 64
      rw [Nat.mod_eq_of_lt h2, hgp]
      omega
  unfold setPosition
  rw [hfb]
  simp only [Nat.zero_add]
  rw [if_neg]
  · have : s.getPosition - (t.block s'._dataBlk)._bgn = s.landPos bits.length := by omega
    rw [this]; rfl
  · intro h
    rcases h with h | h
    · omega
    · exact (E.alloc _ (le_refl _)).2 h

theorem wrote_maxBits (s s' : stuffedBits) (bits : List Bool) (h : s.Wrote s' bits) :
    s'._maxBits = s._maxBits := by
  obtain ⟨hs, h64, hn, (⟨hfit, rfl⟩ | ⟨hfit, h32, rfl⟩)⟩ := h
  · exact (wr_fields s bits).1
  · rw [(wr_fields s.moved bits).1]; exact (moved_fields s hs h32).1

theorem room_mono (s : stuffedBits) (p p' b b' : Nat) (hp : p ≤ p') (hb : b ≤ b')
    (h : s.Room p' b') : s.Room p b := by
  unfold Room at *
  omega

theorem sound_piece {α : Type} (bits : List Bool) (w : Nat) (hw : w ≤ bits.length)
    (hw0 : w = 0 → bits = []) (rd : stuffedBits → Option (α × stuffedBits)) (x : α)
    (hrd : ∀ u u1 u2 : stuffedBits, u.moveToNextBlock w = some u1 →
      u1.takeList bits.length = some (bits, u2) →
      u1._dataPos + bits.length ≤ (u1.block u1._dataBlk)._len → rd u = some (x, u2)) :
    Sound (fun s => s.writeBits bits.length bits) rd x bits.length 1 bits.length bits.length := by
  intro s p r hs hr hcap
  obtain ⟨s', h1, W, hs', hr'⟩ := writeBits_spec s bits p r hs (by rw [Nat.add_comm]; exact hr) hcap
  refine ⟨s', h1, hs', hr', wrote_maxBits s s' bits W, ?_⟩
  intro t E
  have L := wrote_landed s s' bits W
  have hfuel : (t.seek s'._dataBlk (s.landPos bits.length))._dataPos + bits.length ≤
      ((t.seek s'._dataBlk (s.landPos bits.length)).block
        (t.seek s'._dataBlk (s.landPos bits.length))._dataBlk)._len := by
    simp only [seek_dataPos, seek_dataBlk, seek_block]
    have := E.len_active; have := L.pos_eq; omega
  refine ⟨ext_of_wrote s s' t bits W E, ?_, ?_⟩
  · intro h
    rw [← L.blk_eq]
    exact setPosition_landed s s' t bits W E h
  · intro b0 q0 hst
    rcases hst with ⟨rfl, rfl⟩ | ⟨rfl, rfl⟩
    · exact hrd _ _ _ (move_start s s' t bits W E w hw hw0) (takeList_landed s s' t bits W E) hfuel
    · rw [← L.blk_eq]
      exact hrd _ _ _ (move_landed s s' t bits W E w hw) (takeList_landed s s' t bits W E) hfuel

theorem sound_seq {α β : Type} (wr1 wr2 : stuffedBits → Option stuffedBits)
    (rd1 : stuffedBits → Option (α × stuffedBits)) (rd2 : α → stuffedBits → Option (β × stuffedBits))
    (x1 : α) (x2 : β) (n1 n2 p1 p2 b1 b2 c1 c2 : Nat)
    (h1 : Sound wr1 rd1 x1 n1 p1 b1 c1) (h2 : Sound wr2 (rd2 x1) x2 n2 p2 b2 c2) :
    Sound (fun s => (wr1 s).bind wr2) (fun u => (rd1 u).bind (fun a => rd2 a.1 a.2)) x2 n1
      (p1 + p2) (b1 + b2) (max c1 c2) := by
  intro s p r hs hr hcap
  obtain ⟨s1, e1, i1, r1, m1, k1⟩ := h1 s (p2 + p) (b2 + r) hs
    (by rw [← Nat.add_assoc, ← Nat.add_assoc]; exact hr) (le_trans (le_max_left _ _) hcap)
  obtain ⟨s2, e2, i2, r2, m2, k2⟩ := h2 s1 p r i1 r1 (by rw [m1]; exact le_trans (le_max_right _ _) hcap)
  refine ⟨s2, by simp only [e1]; exact e2, i2, r2, by rw [m2, m1], ?_⟩
  intro t E
  obtain ⟨E1, -, g2⟩ := k2 t E
  obtain ⟨E0, sp, g1⟩ := k1 t E1
  refine ⟨E0, sp, ?_⟩
  intro b0 q0 hst
  simp only [g1 b0 q0 hst]
  exact g2 _ _ (Or.inl ⟨rfl, rfl⟩)

theorem sound_conv {α β : Type} (wr wr' : stuffedBits → Option stuffedBits)
    (rd : stuffedBits → Option (α × stuffedBits)) (rd' : stuffedBits → Option (β × stuffedBits))
    (x : α) (y : β) (n1 p b c p' b' c' : Nat) (h : Sound wr rd x n1 p b c)
    (hwr : ∀ s, wr' s = wr s)
    (hrd : ∀ u u', rd u = some (x, u') → rd' u = some (y, u'))
    (hp : p ≤ p') (hb : b ≤ b') (hc : c ≤ c') :
    Sound wr' rd' y n1 p' b' c' := by
  intro s q r hs hr hcap
  obtain ⟨s1, e1, i1, r1, m1, k1⟩ := h s (p' - p + q) (b' - b + r) hs
    (by apply room_mono s _ _ _ _ _ _ hr <;> omega) (le_trans hc hcap)
  refine ⟨s1, by rw [hwr, e1], i1, room_mono s1 _ _ _ _ (by omega) (by omega) r1, m1, ?_⟩
  intro t E
  obtain ⟨E0, sp, g1⟩ := k1 t E
  exact ⟨E0, sp, fun b0 q0 hst => hrd _ _ (g1 b0 q0 hst)⟩

end stuffedBits

theorem length_toBitsMSB (v : Nat) : ∀ w, (toBitsMSB v w).length = w := by
  intro w
  induction w with
  | zero => rfl
  | succ w ih => simp [toBitsMSB, ih]

theorem foldl_toBitsMSB (v : Nat) : ∀ (w acc : Nat),
    (toBitsMSB v w).foldl (fun a b => 2 * a + b.toNat) acc = acc * 2 ^ w + v % 2 ^ w := by
  intro w
  induction w with
  | zero => intro acc; simp [toBitsMSB, Nat.mod_one]
  | succ w ih =>
    intro acc
    simp only [toBitsMSB, List.foldl_cons]
    rw [ih, Nat.mod_pow_succ, Nat.toNat_testBit]
    ring

theorem ofBitsMSB_toBitsMSB (v w : Nat) : ofBitsMSB (toBitsMSB v w) = v % 2 ^ w := by
  unfold ofBitsMSB
  rw [foldl_toBitsMSB]; simp

theorem two_pow_or_mod (v k : Nat) (h1 : 2 ^ k ≤ v) (h2 : v < 2 ^ (k + 1)) :
    2 ^ k ||| v % 2 ^ k = v := by
  apply Nat.eq_of_testBit_eq
  intro i
  rw [Nat.testBit_or, Nat.testBit_two_pow, Nat.testBit_mod_two_pow]
  by_cases hi : i < k
  · have : ¬ k = i := by omega
    simp [hi, this]
  · by_cases hk : k = i
    · subst hk
      simp only [decide_True, lt_self_iff_false, decide_False, Bool.false_and, Bool.or_false]
      symm
      rw [Nat.testBit_to_div_mod]
      have h3 : v / 2 ^ k = 1 := by
        apply Nat.div_eq_of_lt_le
        · simpa using h1
        · rw [Nat.pow_succ] at h2; omega
      simp [h3]
    · have h3 : v.testBit i = false := by
        apply Nat.testBit_lt_two_pow
        exact lt_of_lt_of_le h2 (Nat.pow_le_pow_right (by decide) (by omega))
      simp [hi, hk, h3]

theorem bits64_pos (v : Nat) (h1 : 1 ≤ v) (h2 : v < 2 ^ 64) :
    1 ≤ countNumberOfBits64 v ∧ countNumberOfBits64 v ≤ 64 ∧
    2 ^ (countNumberOfBits64 v - 1) ≤ v ∧ v < 2 ^ (countNumberOfBits64 v - 1 + 1) := by
  rw [countNumberOfBits64_eq v h2]
  have hb := bitWidth_le v 64 h2
  have h0 : 0 < bitWidth v := (lt_bitWidth_iff v 0).2 (by simpa using h1)
  refine ⟨h0, hb, ?_, ?_⟩
  · exact (lt_bitWidth_iff v _).1 (by omega)
  · have : bitWidth v - 1 + 1 = bitWidth v := by omega
    rw [this]
    by_contra hc
    have := (lt_bitWidth_iff v (bitWidth v)).2 (by omega)
    omega

namespace stuffedBits

theorem sound_binary (w v : Nat) (hw1 : 1 ≤ w) (hw2 : w ≤ 64) (hv : v < 2 ^ w) :
    Sound (fun s => s.setBinary w v) (fun u => u.getBinary w) v w 1 w w := by
  have hl := length_toBitsMSB (v % 2 ^ w) w
  have hne : ¬ (w = 0 ∨ 64 < w) := by omega
  have h := sound_piece (toBitsMSB (v % 2 ^ w) w) w (by omega) (by omega)
    (fun u => u.getBinary w) v (by
      intro u u1 u2 e1 e2 _
      unfold getBinary readBits
      rw [hl] at e2
      simp only [hne, if_false, e1, e2]
      rw [ofBitsMSB_toBitsMSB, Nat.mod_mod, Nat.mod_eq_of_lt hv])
  rw [hl] at h
  refine sound_conv _ _ _ _ _ _ _ _ _ _ _ _ _ h ?_ (fun _ _ e => e) (le_refl _) (le_refl _) (le_refl _)
  intro s
  unfold setBinary
  simp only [hne, if_false]

theorem wrote_position (s s' : stuffedBits) (bits : List Bool) (h : s.Wrote s' bits)
    (hs' : s'.Inv) : s'.getPosition = s.getPosition + bits.length := by
  have L := wrote_landed s s' bits h
  obtain ⟨hs, h64, -, -⟩ := h
  have a1 := L.land_bgn
  have a2 := L.pos_eq
  have a3 := hs'.end_lt
  have a4 := hs'.pos_le
  have a5 := hs.end_lt
  have a6 := hs.pos_le
  unfold getPosition
  rw [Nat.mod_eq_of_lt (by omega), Nat.mod_eq_of_lt (by omega)]
  omega

theorem scanUnary_of_getBits : ∀ (v : Nat) (u u' : stuffedBits) (fuel : Nat),
    u.getBits (v + 1) = some (List.replicate v false ++ [true], u') → v + 1 ≤ fuel →
    u.scanUnary fuel = some (v, u') := by
  intro v
  induction v with
  | zero =>
    intro u u' fuel h hf
    obtain ⟨f, rfl⟩ : ∃ f, fuel = f + 1 := ⟨fuel - 1, by omega⟩
    simp only [Nat.zero_add, getBits, List.replicate_zero, List.nil_append] at h
    unfold scanUnary
    cases hg : u.getBit with
    | none => simp [hg] at h
    | some r =>
      obtain ⟨b, u1⟩ := r
      simp only [hg, Option.bind_some, Option.some.injEq, Prod.mk.injEq, List.cons.injEq,
        and_true] at h
      obtain ⟨rfl, rfl⟩ := h
      rfl
  | succ v ih =>
    intro u u' fuel h hf
    obtain ⟨f, rfl⟩ : ∃ f, fuel = f + 1 := ⟨fuel - 1, by omega⟩
    rw [getBits] at h
    unfold scanUnary
    cases hg : u.getBit with
    | none => simp [hg] at h
    | some r =>
      obtain ⟨b, u1⟩ := r
      simp only [hg, Option.bind] at h
      cases hg2 : u1.getBits (v + 1) with
      | none => rw [hg2] at h; simp at h
      | some r2 =>
        obtain ⟨bs, u2⟩ := r2
        rw [hg2] at h
        simp only [Option.some.injEq, Prod.mk.injEq, List.replicate_succ, List.cons_append,
          List.cons.injEq] at h
        obtain ⟨⟨rfl, rfl⟩, rfl⟩ := h
        simp only []
        rw [ih u1 u2 f hg2 (by omega)]

/-- Writing the bits of a list one at a time: a block is left only when it is full, so the write
takes `(_dataPos + length - 1) / _maxBits` more blocks; the bits are read back one at a time from
the cursor at which the write started and from the place where the first bit landed. -/
theorem setBits_spec : ∀ (l : List Bool) (s : stuffedBits) (p r : Nat), s.Inv →
    (s._dataBlk + (s._dataPos + l.length - 1) / s._maxBits + p < 2 ^ 32 ∨
      s._dataPos + l.length + r ≤ s._maxBits) →
    (s.block s._dataBlk)._bgn + s._dataPos + l.length + r < 2 ^ 64 →
    ∃ s', s.setBits l = some s' ∧ s'.Inv ∧ s'.Room p r ∧ s'._maxBits = s._maxBits ∧
      s'.getPosition = s.getPosition + l.length ∧
      ∀ t, s'.Ext t → s.Ext t ∧
        (t.seek s._dataBlk s._dataPos).getBits l.length = some (l, t.seek s'._dataBlk s'._dataPos) ∧
        (1 ≤ l.length →
          t.setPosition s.getPosition = some (t.seek (s.landBlk 1) (s.landPos 1)) ∧
          s.landPos 1 < (t.block (s.landBlk 1))._len ∧
          (t.seek (s.landBlk 1) (s.landPos 1)).getBits l.length =
            some (l, t.seek s'._dataBlk s'._dataPos)) := by
  intro l
  induction l with
  | nil =>
    intro s p r hs h1 h2
    refine ⟨s, rfl, hs, ?_, rfl, rfl, ?_⟩
    · unfold Room
      simp only [List.length_nil, Nat.add_zero] at h1 h2
      refine ⟨?_, h2⟩
      rcases h1 with h | h
      · left
        exact lt_of_le_of_lt (Nat.add_le_add_right (Nat.le_add_right _ _) _) h
      · right; exact h
    · intro t E
      exact ⟨E, rfl, fun h => absurd h (by simp)⟩
  | cons b l ih =>
    intro s p r hs h1 h2
    simp only [List.length_cons] at h1 h2
    have hM := hs.max_ge
    have hpl := hs.pos_le
    have hlm := (hs.used s._dataBlk (le_refl _)).2.1
    have hroom : s.Room (0 + 1) ([b].length + 0) := by
      unfold Room
      simp only [List.length_singleton, Nat.add_zero, Nat.zero_add]
      refine ⟨?_, by omega⟩
      by_cases hfit : s._dataPos + 1 ≤ s._maxBits
      · right; exact hfit
      · left
        rcases h1 with h | h
        · have e : s._dataPos + (l.length + 1) - 1 = s._maxBits + l.length := by omega
          rw [e, Nat.add_div_left _ (by omega)] at h
          generalize l.length / s._maxBits = a at h
          omega
        · omega
    obtain ⟨s1, e1, W, hs1, -⟩ := writeBits_spec s [b] 0 0 hs hroom
      (by simp only [List.length_singleton]; omega)
    have L := wrote_landed s s1 [b] W
    have hmax := wrote_maxBits s s1 [b] W
    have hpos := wrote_position s s1 [b] W hs1
    have hb := L.blk_eq
    have hq := L.pos_eq
    have hg := L.land_bgn
    simp only [List.length_singleton] at hb hq hg hpos
    have h1' : s1._dataBlk + (s1._dataPos + l.length - 1) / s1._maxBits + p < 2 ^ 32 ∨
        s1._dataPos + l.length + r ≤ s1._maxBits := by
      rw [hmax]
      rcases h1 with h | h
      · left
        rcases landBlk_cases s 1 with ⟨c1, c2, c3⟩ | ⟨c1, c2, c3⟩
        · rw [hb, hq, c1, c2]
          have e : s._dataPos + 1 + l.length - 1 = s._dataPos + (l.length + 1) - 1 := by omega
          rw [e]; exact h
        · rw [hb, hq, c1, c2]
          have e : s._dataPos + (l.length + 1) - 1 = s._maxBits + l.length := by omega
          rw [e, Nat.add_div_left _ (by omega)] at h
          have e2 : 0 + 1 + l.length - 1 = l.length := by omega
          rw [e2]
          generalize l.length / s._maxBits = a at h ⊢
          omega
      · right
        rcases landBlk_cases s 1 with ⟨c1, c2, c3⟩ | ⟨c1, c2, c3⟩
        · rw [hq, c2]; omega
        · omega
    have h2' : (s1.block s1._dataBlk)._bgn + s1._dataPos + l.length + r < 2 ^ 64 := by
      rw [hq]; omega
    obtain ⟨s', e2, hs', hr', hm', hp', k⟩ := ih s1 p r hs1 h1' h2'
    have e1' : s.setBit b = some s1 := e1
    refine ⟨s', ?_, hs', hr', by rw [hm', hmax], ?_, ?_⟩
    · show (s.setBit b).bind (fun s1 => setBits s1 l) = some s'
      rw [e1']
      exact e2
    · rw [hp', hpos, List.length_cons]; omega
    · intro t E
      obtain ⟨E1, g1, -⟩ := k t E
      have rs := readBits_start s s1 t [b] W E1
      have rl : (t.seek (s.landBlk 1) (s.landPos 1)).readBits 1 =
          some ([b], t.seek s1._dataBlk s1._dataPos) := by
        rw [← hb]; exact readBits_landed s s1 t [b] W E1
      have sp : t.setPosition s.getPosition = some (t.seek (s.landBlk 1) (s.landPos 1)) := by
        rw [← hb]; exact setPosition_landed s s1 t [b] W E1 (by simp)
      simp only [List.length_singleton] at rs
      have gs : (t.seek s._dataBlk s._dataPos).getBit = some (b, t.seek s1._dataBlk s1._dataPos) := by
        unfold getBit; rw [rs]
      have gl : (t.seek (s.landBlk 1) (s.landPos 1)).getBit =
          some (b, t.seek s1._dataBlk s1._dataPos) := by
        unfold getBit; rw [rl]
      have hlen : s.landPos 1 < (t.block (s.landBlk 1))._len := by
        have := E1.len_active
        rw [hb] at this
        omega
      refine ⟨ext_of_wrote s s1 t [b] W E1, ?_, fun _ => ⟨sp, hlen, ?_⟩⟩
      · show (t.seek s._dataBlk s._dataPos).getBit.bind _ = _
        rw [gs]
        simp only [Option.bind, g1]
      · show (t.seek (s.landBlk 1) (s.landPos 1)).getBit.bind _ = _
        rw [gl]
        simp only [Option.bind, g1]

theorem getPosition_moved (s : stuffedBits) (hs : s.Inv) (h32 : s._dataBlk + 1 < 2 ^ 32) :
    s.moved.getPosition = s.getPosition := by
  obtain ⟨m1, m2, m3, m4, m5⟩ := moved_fields s hs h32
  unfold getPosition
  rw [m2, m3, moved_block s hs h32, if_neg (by omega), if_pos rfl]
  rfl

/-- What was written up to the cursor is kept when the active block is sealed and the next block
entered. -/
theorem ext_of_moved (s t : stuffedBits) (hs : s.Inv) (h32 : s._dataBlk + 1 < 2 ^ 32)
    (E : s.moved.Ext t) : s.Ext t := by
  obtain ⟨m1, m2, m3, m4, m5⟩ := moved_fields s hs h32
  have hb := moved_block s hs h32
  have e1 := E.blk_lt
  have e2 := E.blk_len
  rw [m2] at e1 e2
  have hold : s.moved.block s._dataBlk = { s.block s._dataBlk with _len := s._dataPos } := by
    rw [hb, if_pos rfl]
  have hbefore : ∀ i, i < s._dataBlk → s.moved.block i = s.block i := by
    intro i hi; rw [hb, if_neg (by omega), if_neg (by omega)]
  have hsl : (t.block s._dataBlk)._len = s._dataPos := by
    rw [E.sealed_len s._dataBlk (by rw [m2]; omega), hold]
  refine ⟨by omega, by omega, ?_, ?_, ?_, ?_, ?_, ?_, ?_⟩
  · intro i hi; rw [E.sealed_len i (by rw [m2]; omega), hbefore i hi]
  · intro i q hi hq
    rw [E.sealed_bits i q (by rw [m2]; omega) (by rw [hbefore i hi]; exact hq)]
    exact bitAt_congr _ _ _ _ (hbefore i hi)
  · rw [hsl]
  · intro q hq
    rw [E.sealed_bits _ q (by rw [m2]; omega) (by rw [hold]; exact hq)]
    unfold bitAt words; rw [hold]
  · intro i hi; exact E.alloc i (by rw [m2]; omega)
  · intro i hi
    rw [E.bgn i (by rw [m2]; omega)]
    rcases Nat.eq_or_lt_of_le hi with h | h
    · rw [h, hold]
    · rw [hbefore i h]
  · rw [hsl, E.bgn _ (by rw [m2]; omega), hold]
    have := hs.end_lt
    have := hs.pos_le
    show (s.block s._dataBlk)._bgn + s._dataPos < 2 ^ 64
    omega

/-- A read of one bit at the cursor at which a block was sealed goes to the start of the next
block. -/
theorem getBit_moved (s t : stuffedBits) (hs : s.Inv) (h32 : s._dataBlk + 1 < 2 ^ 32)
    (E : s.moved.Ext t) (hlen : 0 < (t.block (s._dataBlk + 1))._len) :
    (t.seek s._dataBlk s._dataPos).getBit = (t.seek (s._dataBlk + 1) 0).getBit := by
  obtain ⟨m1, m2, m3, m4, m5⟩ := moved_fields s hs h32
  have hb := moved_block s hs h32
  have e1 := E.blk_lt
  rw [m2] at e1
  have hsl : (t.block s._dataBlk)._len = s._dataPos := by
    rw [E.sealed_len s._dataBlk (by rw [m2]; omega), hb, if_pos rfl]
  have hal : ¬ (t.block (s._dataBlk + 1))._dat = none := by
    have := (E.alloc (s._dataBlk + 1) (by rw [m2])).2
    exact this
  have hpl := hs.pos_le
  have hlm := (hs.used s._dataBlk (le_refl _)).2.1
  have hml := hs.max_lt
  have a1 : (t.seek s._dataBlk s._dataPos).moveToNextBlock 1 = some (t.seek (s._dataBlk + 1) 0) := by
    unfold moveToNextBlock
    simp only [seek_dataBlk, seek_dataPos, seek_block, seek_blocksMax]
    have hbit : (t.seek s._dataBlk s._dataPos)._dataBit = 64 - s._dataPos % 64 := rfl
    rw [hbit, hsl]
    rw [if_neg (by omega), Nat.mod_eq_of_lt (by omega), if_neg (by omega)]
    simp only [ne_eq, not_true_eq_false, if_false]
    rw [Nat.mod_eq_of_lt (by omega), if_neg (by omega), if_neg (by omega), if_neg hal]
    rfl
  have a2 : (t.seek (s._dataBlk + 1) 0).moveToNextBlock 1 = some (t.seek (s._dataBlk + 1) 0) := by
    unfold moveToNextBlock
    simp only [seek_dataBlk, seek_dataPos, seek_block, seek_blocksMax]
    have hbit : (t.seek (s._dataBlk + 1) 0)._dataBit = 64 - 0 % 64 := rfl
    rw [hbit]
    rw [if_neg (by omega), Nat.mod_eq_of_lt (by omega), if_pos (by omega)]
  unfold getBit readBits
  rw [a1, a2]

/-- The unary code of `v`, written by `setUnary`, is read back bit by bit.  The code takes one
block more when it does not fit in the active block, and `v / cap` further blocks when it is
longer than a block. -/
theorem setUnary_spec (v cap : Nat) (hv : v + 1 < 2 ^ 64) (hc : 1 ≤ cap) (s : stuffedBits)
    (p r : Nat) (hs : s.Inv) (hr : s.Room (1 + v / cap + p) (v + 1 + r)) (hcap : cap ≤ s._maxBits) :
    ∃ s', s.setUnary v = some s' ∧ s'.Inv ∧ s'.Room p r ∧ s'._maxBits = s._maxBits ∧
      s'.getPosition = s.getPosition + (v + 1) ∧
      ∀ t, s'.Ext t → s.Ext t ∧
        (1 ≤ v + 1 → t.setPosition s.getPosition =
          some (t.seek (s.landBlk (v + 1)) (s.landPos (v + 1)))) ∧
        ∀ b0 q0, s.Start (v + 1) b0 q0 → (t.seek b0 q0).getBits (v + 1) =
          some (List.replicate v false ++ [true], t.seek s'._dataBlk s'._dataPos) := by
  have hl : (List.replicate v false ++ [true]).length = v + 1 := by simp
  have hdiv : v / s._maxBits ≤ v / cap := Nat.div_le_div_left hcap hc
  have hM := hs.max_ge
  have hpl := hs.pos_le
  have hlm := (hs.used s._dataBlk (le_refl _)).2.1
  have hml := hs.max_lt
  obtain ⟨hr1, hr2⟩ := hr
  generalize v / cap = c at hr1 hdiv
  by_cases hfit : s._dataPos + (v + 1) ≤ s._maxBits
  · have hl1 : s.landBlk 1 = s._dataBlk ∧ s.landPos 1 = s._dataPos := by
      unfold landBlk landPos
      rw [if_pos (by omega), if_pos (by omega)]
      exact ⟨rfl, rfl⟩
    have hlv : s.landBlk (v + 1) = s._dataBlk ∧ s.landPos (v + 1) = s._dataPos := by
      unfold landBlk landPos
      rw [if_pos hfit, if_pos hfit]
      exact ⟨rfl, rfl⟩
    obtain ⟨s', e, hs', hr', hm', hp', k⟩ := setBits_spec (List.replicate v false ++ [true]) s p r hs
      (by
        rw [hl]
        rcases hr1 with h | h
        · left
          have e0 : (s._dataPos + (v + 1) - 1) / s._maxBits = 0 := Nat.div_eq_of_lt (by omega)
          rw [e0]
          omega
        · right; omega)
      (by rw [hl]; omega)
    refine ⟨s', ?_, hs', hr', hm', by rw [hp', hl], ?_⟩
    · show (s.ensureSpaceInCurrentBlock ((v + 1) % 2 ^ 64)).bind _ = _
      rw [Nat.mod_eq_of_lt hv, ensureSpace_stay s _ hs (by omega) hfit]
      exact e
    · intro t E
      obtain ⟨E0, g, k1⟩ := k t E
      rw [hl] at g k1
      obtain ⟨sp, -, -⟩ := k1 (by omega)
      rw [hl1.1, hl1.2] at sp
      refine ⟨E0, fun _ => by rw [hlv.1, hlv.2]; exact sp, ?_⟩
      intro b0 q0 hst
      rcases hst with ⟨rfl, rfl⟩ | ⟨rfl, rfl⟩
      · exact g
      · rw [hlv.1, hlv.2]; exact g
  · have h32 : s._dataBlk + 1 < 2 ^ 32 := by omega
    have hi := inv_moved s hs h32
    obtain ⟨m1, m2, m3, m4, m5⟩ := moved_fields s hs h32
    have hlv : s.landBlk (v + 1) = s._dataBlk + 1 ∧ s.landPos (v + 1) = 0 := by
      unfold landBlk landPos
      rw [if_neg hfit, if_neg hfit]
      exact ⟨rfl, rfl⟩
    have hl1 : s.moved.landBlk 1 = s._dataBlk + 1 ∧ s.moved.landPos 1 = 0 := by
      unfold landBlk landPos
      rw [m1, m2, m3, if_pos (by omega), if_pos (by omega)]
      exact ⟨rfl, rfl⟩
    obtain ⟨s', e, hs', hr', hm', hp', k⟩ := setBits_spec (List.replicate v false ++ [true]) s.moved
      p r hi
      (by
        rw [hl, m1, m2, m3]
        left
        have e0 : 0 + (v + 1) - 1 = v := by omega
        rw [e0]
        generalize v / s._maxBits = a at hdiv
        omega)
      (by
        rw [hl, m2, m3, moved_block s hs h32, if_neg (by omega), if_pos rfl]
        show (s.block s._dataBlk)._bgn + s._dataPos + 0 + (v + 1) + r < 2 ^ 64
        omega)
    refine ⟨s', ?_, hs', hr', by rw [hm', m1], by rw [hp', hl, getPosition_moved s hs h32], ?_⟩
    · show (s.ensureSpaceInCurrentBlock ((v + 1) % 2 ^ 64)).bind _ = _
      rw [Nat.mod_eq_of_lt hv, ensureSpace_move s _ hs (by omega) hfit h32]
      exact e
    · intro t E
      obtain ⟨E0, g, k1⟩ := k t E
      rw [hl, m2, m3] at g
      rw [hl] at k1
      obtain ⟨sp, hlen, -⟩ := k1 (by omega)
      rw [hl1.1, hl1.2, getPosition_moved s hs h32] at sp
      rw [hl1.1, hl1.2] at hlen
      refine ⟨ext_of_moved s t hs h32 E0, fun _ => by rw [hlv.1, hlv.2]; exact sp, ?_⟩
      intro b0 q0 hst
      rcases hst with ⟨rfl, rfl⟩ | ⟨rfl, rfl⟩
      · have gb := getBit_moved s t hs h32 E0 hlen
        have e3 : (t.seek s._dataBlk s._dataPos).getBits (v + 1) =
            (t.seek (s._dataBlk + 1) 0).getBits (v + 1) := by
          unfold getBits
          rw [gb]
        exact e3.trans g
      · rw [hlv.1, hlv.2]; exact g

theorem sound_unary_code (v cap : Nat) (hv : v + 1 < 2 ^ 64) (hc : 1 ≤ cap) :
    Sound (fun s => s.setUnary v) (fun u => u.getBits (v + 1)) (List.replicate v false ++ [true])
      (v + 1) (1 + v / cap) (v + 1) cap := by
  intro s p r hs hr hcap
  obtain ⟨s', a1, a2, a3, a4, -, k⟩ := setUnary_spec v cap hv hc s p r hs hr hcap
  exact ⟨s', a1, a2, a3, a4, k⟩

/-- `setUnary(v)` and `getUnary` round-trip on every block layout. -/
theorem sound_unary_any (v cap : Nat) (hv : v + 1 < 2 ^ 64) (hc : 1 ≤ cap) :
    Sound (fun s => s.setUnary v) (fun u => u.getUnary) v (v + 1) (1 + v / cap) (v + 1) cap := by
  refine sound_conv _ _ _ _ _ _ _ _ _ _ _ _ _ (sound_unary_code v cap hv hc) (fun _ => rfl) ?_
    (le_refl _) (le_refl _) (le_refl _)
  intro u u' e
  unfold getUnary
  exact scanUnary_of_getBits v u u' _ e (by omega)

theorem sound_unary (v : Nat) (hv : v + 1 < 2 ^ 64) :
    Sound (fun s => s.setUnary v) (fun u => u.getUnary) v (v + 1) 1 (v + 1) (v + 1) := by
  refine sound_conv _ _ _ _ _ _ _ _ _ _ _ _ _ (sound_unary_any v (v + 1) hv (by omega))
    (fun _ => rfl) (fun _ _ e => e) ?_ (le_refl _) (le_refl _)
  rw [Nat.div_eq_of_lt (by omega)]

theorem sound_field (k v : Nat) (hk : k ≤ 63) :
    Sound (fun s => s.setField k v) (fun u => u.getField k) (2 ^ k ||| v % 2 ^ k) k 1 k k := by
  have hl := length_toBitsMSB v k
  have hne : ¬ 63 < k := by omega
  have h := sound_piece (toBitsMSB v k) k (by omega) (by
      intro h0; subst h0; rfl)
    (fun u => u.getField k) (2 ^ k ||| v % 2 ^ k) (by
      intro u u1 u2 e1 e2 _
      unfold getField readBits
      rw [hl] at e2
      simp only [hne, if_false, e1, e2]
      rw [ofBitsMSB_toBitsMSB])
  rw [hl] at h
  exact h

theorem sound_gamma (v : Nat) (h1 : 1 ≤ v) (h2 : v < 2 ^ 64) :
    Sound (fun s => s.setEliasGamma v) (fun u => u.getEliasGamma) v (countNumberOfBits64 v) 2
      (2 * (countNumberOfBits64 v - 1) + 1) 64 := by
  obtain ⟨b1, b2, b3, b4⟩ := bits64_pos v h1 h2
  have hu := sound_unary (countNumberOfBits64 v - 1) (by omega)
  have hf := sound_field (countNumberOfBits64 v - 1) v (by omega)
  rw [two_pow_or_mod v _ b3 b4] at hf
  have h := sound_seq _ _ _ (fun a u => u.getField a) _ _ _ _ _ _ _ _ _ _ hu hf
  have e : countNumberOfBits64 v - 1 + 1 = countNumberOfBits64 v := by omega
  rw [e] at h
  refine sound_conv _ _ _ _ _ _ _ _ _ _ _ _ _ h ?_ (fun _ _ e => e) (le_refl _) (by omega) (by
    apply max_le <;> omega)
  intro s
  unfold setEliasGamma
  rw [if_neg (by omega)]

end stuffedBits

theorem fibonacciNumber_zero : fibonacciNumber 0 = 1 := rfl

theorem fibonacciNumber_one : fibonacciNumber 1 = 1 := rfl

theorem fibonacciNumber_add_two (n : Nat) :
    fibonacciNumber (n + 2) = fibonacciNumber (n + 1) + fibonacciNumber n := by
  unfold fibonacciNumber
  simp only [fibonacciPair]
  omega

theorem fibonacciNumber_pos (n : Nat) : 1 ≤ fibonacciNumber n := by
  induction n using Nat.strong_induction_on with
  | _ n ih =>
    match n with
    | 0 => exact le_refl _
    | 1 => exact le_refl _
    | n + 2 =>
      rw [fibonacciNumber_add_two]
      have := ih (n + 1) (by omega)
      omega

theorem fibonacciNumber_le_succ (n : Nat) : fibonacciNumber n ≤ fibonacciNumber (n + 1) := by
  cases n with
  | zero => exact le_refl _
  | succ n => rw [fibonacciNumber_add_two]; omega

theorem fibonacciNumber_mono {m n : Nat} (h : m ≤ n) : fibonacciNumber m ≤ fibonacciNumber n := by
  induction h with
  | refl => exact le_refl _
  | step _ ih => exact le_trans ih (fibonacciNumber_le_succ _)

theorem le_fibonacciNumber (n : Nat) : n ≤ fibonacciNumber n := by
  induction n using Nat.strong_induction_on with
  | _ n ih =>
    match n with
    | 0 => exact Nat.zero_le _
    | 1 => exact le_refl _
    | n + 2 =>
      rw [fibonacciNumber_add_two]
      have := ih (n + 1) (by omega)
      have := fibonacciNumber_pos n
      omega

theorem fibonacciTop_spec (v : Nat) : ∀ (fuel ff : Nat), fibonacciNumber ff ≤ v →
    ff ≤ fibonacciTop v fuel ff ∧ fibonacciNumber (fibonacciTop v fuel ff) ≤ v ∧
    (v < fibonacciNumber (fibonacciTop v fuel ff + 1) ∨ fibonacciTop v fuel ff = ff + fuel) := by
  intro fuel
  induction fuel with
  | zero => intro ff h; exact ⟨le_refl _, h, Or.inr rfl⟩
  | succ fuel ih =>
    intro ff h
    unfold fibonacciTop
    by_cases hc : fibonacciNumber (ff + 1) ≤ v
    · rw [if_pos hc]
      obtain ⟨a, b, c⟩ := ih (ff + 1) hc
      exact ⟨by omega, b, by omega⟩
    · rw [if_neg hc]
      exact ⟨le_refl _, h, Or.inl (by omega)⟩

theorem top_spec (v : Nat) (hv : 1 ≤ v) :
    1 ≤ fibonacciTop v v 0 ∧ fibonacciNumber (fibonacciTop v v 0) ≤ v ∧
    v < fibonacciNumber (fibonacciTop v v 0 + 1) := by
  obtain ⟨-, b, c⟩ := fibonacciTop_spec v v 0 hv
  refine ⟨?_, b, ?_⟩
  · obtain ⟨f, rfl⟩ : ∃ f, v = f + 1 := ⟨v - 1, by omega⟩
    unfold fibonacciTop
    rw [if_pos (by simp [fibonacciNumber_one])]
    exact (fibonacciTop_spec (f + 1) f 1 (by simp [fibonacciNumber_one])).1
  · rcases c with c | c
    · exact c
    · rw [c, Nat.zero_add]
      have := le_fibonacciNumber (v + 1)
      omega

theorem fibonacciNumber_93 : 2 ^ 64 ≤ fibonacciNumber 93 := by decide

theorem top_le (v : Nat) (hv : 1 ≤ v) (h64 : v < 2 ^ 64) : fibonacciTop v v 0 ≤ 92 := by
  obtain ⟨-, b, -⟩ := top_spec v hv
  by_contra hc
  have := fibonacciNumber_mono (show 93 ≤ fibonacciTop v v 0 by omega)
  have := fibonacciNumber_93
  omega

theorem reverse_fibonacciBits : ∀ (n v : Nat), (fibonacciBits n v).reverse = fibonacciLow n v := by
  intro n
  induction n with
  | zero => intro v; rfl
  | succ n ih =>
    intro v
    unfold fibonacciBits fibonacciLow
    split <;> simp [ih]

theorem length_fibonacciLow : ∀ (n v : Nat), (fibonacciLow n v).length = n := by
  intro n
  induction n with
  | zero => intro v; rfl
  | succ n ih =>
    intro v
    unfold fibonacciLow
    split <;> simp [ih]

theorem fibonacciSum_append (b : Bool) : ∀ (l : List Bool) (idx : Nat),
    fibonacciSum idx (l ++ [b]) = fibonacciSum idx l + (if b then fibonacciNumber (idx + l.length) else 0) := by
  intro l
  induction l with
  | nil => intro idx; simp [fibonacciSum]
  | cons a l ih =>
    intro idx
    have e : idx + 1 + l.length = idx + (l.length + 1) := by omega
    show (if a then fibonacciNumber idx else 0) + fibonacciSum (idx + 1) (l ++ [b]) =
      (if a then fibonacciNumber idx else 0) + fibonacciSum (idx + 1) l +
        (if b then fibonacciNumber (idx + (l.length + 1)) else 0)
    rw [ih, e]; omega

theorem fibonacciSum_low : ∀ (n v : Nat), v < fibonacciNumber (n + 1) →
    fibonacciSum 1 (fibonacciLow n v) = v := by
  intro n
  induction n with
  | zero =>
    intro v h
    rw [fibonacciNumber_one] at h
    simp [fibonacciLow, fibonacciSum]; omega
  | succ n ih =>
    intro v h
    rw [fibonacciNumber_add_two] at h
    unfold fibonacciLow
    have hm := fibonacciNumber_le_succ n
    by_cases hc : fibonacciNumber (n + 1) ≤ v
    · rw [if_pos hc, fibonacciSum_append, length_fibonacciLow, ih _ (by omega)]
      simp only [if_true]
      have : 1 + n = n + 1 := by omega
      rw [this]; omega
    · rw [if_neg hc, fibonacciSum_append, ih _ (by omega)]
      simp

theorem getD_append_singleton (l : List Bool) (b : Bool) (i : Nat) :
    (l ++ [b]).getD i false = if i < l.length then l.getD i false else if i = l.length then b else false := by
  simp only [List.getD_eq_getElem?_getD]
  by_cases h : i < l.length
  · rw [List.getElem?_append_left h, if_pos h]
  · rw [List.getElem?_append_right (by omega), if_neg h]
    by_cases h2 : i = l.length
    · subst h2; simp
    · rw [if_neg h2]
      have : i - l.length = (i - l.length - 1) + 1 := by omega
      rw [this]; simp

theorem noAdjacent_append (l : List Bool) (b : Bool) (h : NoAdjacent l)
    (hl : b = true → 1 ≤ l.length → l.getD (l.length - 1) false = false) :
    NoAdjacent (l ++ [b]) := by
  intro i hi
  simp only [List.length_append, List.length_singleton] at hi
  rw [getD_append_singleton, getD_append_singleton]
  by_cases h1 : i + 1 < l.length
  · rw [if_pos (by omega), if_pos h1]; exact h i h1
  · have h2 : i + 1 = l.length := by omega
    rw [if_pos (by omega), if_neg (by omega), if_pos h2]
    rintro ⟨a, rfl⟩
    have := hl rfl (by omega)
    have e : l.length - 1 = i := by omega
    rw [e] at this
    rw [this] at a
    exact Bool.false_ne_true a

theorem fibonacciLow_props : ∀ (n v : Nat), v < fibonacciNumber (n + 1) →
    NoAdjacent (fibonacciLow n v) ∧
    (v < fibonacciNumber n → 1 ≤ n → (fibonacciLow n v).getD (n - 1) false = false) ∧
    (fibonacciNumber n ≤ v → 1 ≤ n → (fibonacciLow n v).getD (n - 1) false = true) := by
  intro n
  induction n with
  | zero =>
    intro v _
    refine ⟨?_, by omega, by omega⟩
    intro i hi; simp [fibonacciLow] at hi
  | succ n ih =>
    intro v h
    rw [fibonacciNumber_add_two] at h
    have hm := fibonacciNumber_le_succ n
    unfold fibonacciLow
    by_cases hc : fibonacciNumber (n + 1) ≤ v
    · rw [if_pos hc]
      obtain ⟨a, b, -⟩ := ih (v - fibonacciNumber (n + 1)) (by omega)
      refine ⟨?_, by omega, ?_⟩
      · apply noAdjacent_append _ _ a
        intro _ hl
        rw [length_fibonacciLow] at hl ⊢
        exact b (by omega) hl
      · intro _ _
        rw [getD_append_singleton, length_fibonacciLow]
        simp
    · rw [if_neg hc]
      obtain ⟨a, -, -⟩ := ih v (by omega)
      refine ⟨?_, ?_, by omega⟩
      · apply noAdjacent_append _ _ a
        intro hf; exact absurd hf (by decide)
      · intro _ _
        rw [getD_append_singleton, length_fibonacciLow]
        simp

theorem zeckendorfCode_eq (v : Nat) :
    zeckendorfCode v = fibonacciLow (fibonacciTop v v 0) v ++ [true] := by
  unfold zeckendorfCode
  rw [reverse_fibonacciBits]

namespace stuffedBits

theorem sound_delta (v : Nat) (h1 : 1 ≤ v) (h2 : v < 2 ^ 64) :
    Sound (fun s => s.setEliasDelta v) (fun u => u.getEliasDelta) v
      (countNumberOfBits64 (countNumberOfBits64 v)) 3
      (2 * (countNumberOfBits64 (countNumberOfBits64 v) - 1) + 1 + (countNumberOfBits64 v - 1)) 64 := by
  obtain ⟨b1, b2, b3, b4⟩ := bits64_pos v h1 h2
  have hg := sound_gamma (countNumberOfBits64 v) b1 (by omega)
  have hf := sound_field (countNumberOfBits64 v - 1) v (by omega)
  rw [two_pow_or_mod v _ b3 b4] at hf
  have h := sound_seq _ _ _ (fun a u => u.getField (a - 1)) _ _ _ _ _ _ _ _ _ _ hg hf
  refine sound_conv _ _ _ _ _ _ _ _ _ _ _ _ _ h ?_ (fun _ _ e => e) (le_refl _) (le_refl _) (by
    apply max_le <;> omega)
  intro s
  unfold setEliasDelta
  rw [if_neg (by omega)]

theorem sound_bit (b : Bool) :
    Sound (fun s => s.setBit b) (fun u => u.getBit) b 1 1 1 1 := by
  have h := sound_piece [b] 1 (le_refl _) (by intro h; omega) (fun u => u.getBit) b (by
    intro u u1 u2 e1 e2 _
    unfold getBit readBits
    simp only [List.length_singleton] at e2
    simp only [e1, e2])
  exact h

theorem sound_bits : ∀ (l : List Bool),
    Sound (fun s => s.setBits l) (fun u => u.getBits l.length) l (min 1 l.length) l.length l.length 1 := by
  intro l
  induction l with
  | nil =>
    intro s p r hs hr _
    refine ⟨s, rfl, hs, by simpa using hr, rfl, ?_⟩
    intro t E
    refine ⟨E, by simp, ?_⟩
    intro b0 q0 hst
    have hl : s.landBlk 0 = s._dataBlk ∧ s.landPos 0 = s._dataPos := by
      have := hs.pos_le
      have := (hs.used _ (le_refl _)).2.1
      unfold landBlk landPos
      simp only [Nat.add_zero]
      rw [if_pos (by omega), if_pos (by omega)]
      exact ⟨rfl, rfl⟩
    rcases hst with ⟨rfl, rfl⟩ | ⟨rfl, rfl⟩
    · rfl
    · simp only [List.length_nil, Nat.min_zero, hl.1, hl.2]
      rfl
  | cons b bs ih =>
    have h := sound_seq _ _ _
      (fun (a : Bool) u => (u.getBits bs.length).bind (fun q => some (a :: q.1, q.2))) _ (b :: bs)
      _ _ _ _ _ _ _ _ (sound_bit b)
      (sound_conv _ _ _ _ _ _ _ _ _ _ _ _ _ ih (fun _ => rfl)
        (by intro u u' e; simp only [e]; rfl) (le_refl _) (le_refl _) (le_refl _))
    have e : min 1 (b :: bs).length = 1 := by simp
    rw [e]
    refine sound_conv _ _ _ _ _ _ _ _ _ _ _ _ _ h (fun _ => rfl) (fun _ _ e => e) ?_ ?_ ?_
    · simp; omega
    · simp; omega
    · simp

theorem scanZeckendorf_of_getBits : ∀ (l : List Bool) (u u' : stuffedBits) (prev : Bool)
    (idx fuel : Nat), u.getBits (l.length + 1) = some (l ++ [true], u') →
    NoAdjacent (prev :: l) → (prev :: l).getD l.length false = true → l.length + 1 ≤ fuel →
    u.scanZeckendorf fuel prev idx = some (fibonacciSum idx l, u') := by
  intro l
  induction l with
  | nil =>
    intro u u' prev idx fuel h _ hlast hf
    obtain ⟨f, rfl⟩ : ∃ f, fuel = f + 1 := ⟨fuel - 1, by omega⟩
    simp only [List.length_nil, List.getD_cons_zero] at hlast
    subst hlast
    simp only [List.length_nil, Nat.zero_add, getBits, List.nil_append] at h
    unfold scanZeckendorf
    cases hg : u.getBit with
    | none => simp [hg] at h
    | some r =>
      obtain ⟨b, u1⟩ := r
      simp only [hg, Option.bind_some, Option.some.injEq, Prod.mk.injEq, List.cons.injEq,
        and_true] at h
      obtain ⟨rfl, rfl⟩ := h
      rfl
  | cons a l ih =>
    intro u u' prev idx fuel h hna hlast hf
    obtain ⟨f, rfl⟩ : ∃ f, fuel = f + 1 := ⟨fuel - 1, by simp at hf; omega⟩
    simp only [List.length_cons] at h hf hlast
    rw [getBits] at h
    unfold scanZeckendorf
    cases hg : u.getBit with
    | none => simp [hg] at h
    | some r =>
      obtain ⟨b, u1⟩ := r
      simp only [hg, Option.bind] at h
      cases hg2 : u1.getBits (l.length + 1) with
      | none => rw [hg2] at h; simp at h
      | some r2 =>
        obtain ⟨bs, u2⟩ := r2
        rw [hg2] at h
        simp only [Option.some.injEq, Prod.mk.injEq, List.cons_append, List.cons.injEq] at h
        obtain ⟨⟨rfl, rfl⟩, rfl⟩ := h
        have h0 := hna 0 (by simp)
        simp only [List.getD_cons_zero, List.getD_cons_succ] at h0
        have hpb : (prev && b) = false := by
          cases prev <;> cases b <;> simp_all
        simp only [hpb, Bool.false_eq_true, if_false]
        have hna' : NoAdjacent (b :: l) := by
          intro i hi
          have := hna (i + 1) (by simp at hi ⊢; omega)
          simpa using this
        rw [ih u1 u2 b (idx + 1) f hg2 hna' (by simpa using hlast) (by omega)]
        rfl

theorem zeckendorf_decodes (v : Nat) (hv : 1 ≤ v) (u u' : stuffedBits)
    (h : u.getBits (zeckendorfCode v).length = some (zeckendorfCode v, u')) (h64 : v < 2 ^ 64) :
    u.getZeckendorf = some (v, u') := by
  obtain ⟨t1, t2, t3⟩ := top_spec v hv
  obtain ⟨p1, -, p3⟩ := fibonacciLow_props _ v t3
  have hlen := length_fibonacciLow (fibonacciTop v v 0) v
  rw [zeckendorfCode_eq] at h
  simp only [List.length_append, List.length_singleton] at h
  have hna : NoAdjacent (false :: fibonacciLow (fibonacciTop v v 0) v) := by
    intro i hi
    cases i with
    | zero => simp
    | succ i =>
      have := p1 i (by simp at hi; omega)
      simpa using this
  have hlast : (false :: fibonacciLow (fibonacciTop v v 0) v).getD
      (fibonacciLow (fibonacciTop v v 0) v).length false = true := by
    rw [hlen]
    obtain ⟨m, hm⟩ : ∃ m, fibonacciTop v v 0 = m + 1 := ⟨fibonacciTop v v 0 - 1, by omega⟩
    have := p3 t2 t1
    rw [hm] at this ⊢
    simpa using this
  have hs := scanZeckendorf_of_getBits _ u u' false 1 (2 ^ 64) h hna hlast (by
    rw [hlen]; have := top_le v hv h64; omega)
  unfold getZeckendorf
  rw [hs, fibonacciSum_low _ v t3]
  simp only [Nat.mod_eq_of_lt h64]

theorem sound_zeckendorf (v : Nat) (hv : 1 ≤ v) (h64 : v < 2 ^ 64) :
    Sound (fun s => s.setZeckendorf v) (fun u => u.getZeckendorf) v 1 94 (zeckendorfCode v).length 64 := by
  have hlen : (zeckendorfCode v).length ≤ 93 := by
    rw [zeckendorfCode_eq]
    simp only [List.length_append, List.length_singleton, length_fibonacciLow]
    have := top_le v hv h64; omega
  have hpos : 1 ≤ (zeckendorfCode v).length := by
    rw [zeckendorfCode_eq]; simp
  have h := sound_bits (zeckendorfCode v)
  rw [min_eq_left hpos] at h
  refine sound_conv _ _ _ _ _ _ _ _ _ _ _ _ _ h ?_ ?_ (by omega) (le_refl _) (by omega)
  · intro s
    unfold setZeckendorf
    rw [if_neg (by omega)]
  · intro u u' e
    exact zeckendorf_decodes v hv u u' e h64

theorem emptyStream_block_succ (m i : Nat) : (emptyStream m).block (i + 1) = {} := by
  unfold block emptyStream
  simp only [List.getD_eq_getElem?_getD, List.getElem?_cons_succ, List.getElem?_replicate]
  split <;> rfl

theorem inv_emptyStream (m : Nat) (h1 : 64 ≤ m) (h2 : m % 64 = 0) (h3 : m < 2 ^ 63) :
    (emptyStream m).Inv := by
  have hb : (emptyStream m)._dataBlk = 0 := rfl
  have hm : (emptyStream m)._blocksMax = 32 := rfl
  refine ⟨rfl, by rw [hb, hm]; decide, by rw [hb]; decide, h1, h2, h3, cur_seek (emptyStream m) 0 0,
    le_refl _, ?_, ?_, rfl, ?_, ?_⟩
  · intro i hi
    have : i = 0 := by simpa [emptyStream] using hi
    subst this
    exact ⟨rfl, Nat.zero_le _, _, rfl, List.length_replicate _ _⟩
  · intro i hi
    obtain ⟨j, rfl⟩ : ∃ j, i = j + 1 := ⟨i - 1, by simp [emptyStream] at hi; omega⟩
    left
    rw [emptyStream_block_succ]
  · intro i hi
    simp [emptyStream] at hi
  · show 0 + 0 < 2 ^ 64
    decide

theorem inv_stream60 : stream60.Inv :=
  inv_wr (emptyStream 64) (toBitsMSB 5 60) (inv_emptyStream 64 (by decide) (by decide) (by decide))
    (by decide) (by decide)

/-- A value whose write and read are `Sound` is read back at the position its write started at,
and the read leaves the stream as the write left it. -/
theorem roundtrip_of_sound {α : Type} (wr : stuffedBits → Option stuffedBits)
    (rd : stuffedBits → Option (α × stuffedBits)) (x : α) (n1 pieces bits cap : Nat)
    (h : Sound wr rd x n1 pieces bits cap) (hn1 : 1 ≤ n1) (s : stuffedBits) (hs : s.Inv)
    (hr : s.Room pieces bits) (hcap : cap ≤ s._maxBits) :
    ∃ s1 s2, wr s = some s1 ∧ s1.setPosition s.getPosition = some s2 ∧ rd s2 = some (x, s1) := by
  obtain ⟨s1, e1, i1, -, -, k⟩ := h s 0 0 hs hr hcap
  obtain ⟨-, sp, g⟩ := k s1 (ext_refl s1 i1)
  refine ⟨s1, _, e1, sp hn1, ?_⟩
  rw [g _ _ (Or.inr ⟨rfl, rfl⟩), ← cur_eq_seek s1 i1.cur]

end stuffedBits

/-- C1: on every valid stream with room for the value, `setBinary(w, v)` with `w` in [1,64] and
`v < 2^w`, then `setPosition` to the position at which the write started, then `getBinary(w)`
returns exactly `v` (and leaves the stream as the write left it). -/
theorem setBinary_getBinary_roundtrip (s : stuffedBits) (w v : Nat) (hs : s.Inv) (hr : s.Room 1 w)
    (hw1 : 1 ≤ w) (hw2 : w ≤ 64) (hv : v < 2 ^ w) :
    ∃ s1 s2, s.setBinary w v = some s1 ∧ s1.setPosition s.getPosition = some s2 ∧
      s2.getBinary w = some (v, s1) :=
  stuffedBits.roundtrip_of_sound _ _ _ _ _ _ _ (stuffedBits.sound_binary w v hw1 hw2 hv) hw1 s hs hr
    (le_trans hw2 hs.max_ge)

theorem setBinary_getBinary_roundtrip_witness :
    ∃ s1 s2, stuffedBits.stream60.setBinary 7 100 = some s1 ∧
      s1.setPosition stuffedBits.stream60.getPosition = some s2 ∧
      s2.getBinary 7 = some (100, s1) :=
  setBinary_getBinary_roundtrip stuffedBits.stream60 7 100 stuffedBits.inv_stream60
    (by unfold stuffedBits.Room; decide) (by decide) (by decide) (by decide)

theorem bits64_bits64_le (v : Nat) (h1 : 1 ≤ v) (h2 : v < 2 ^ 64) :
    1 ≤ countNumberOfBits64 (countNumberOfBits64 v) ∧ countNumberOfBits64 (countNumberOfBits64 v) ≤ 7 := by
  obtain ⟨b1, b2, -, -⟩ := bits64_pos v h1 h2
  obtain ⟨c1, -, -, -⟩ := bits64_pos (countNumberOfBits64 v) b1 (by omega)
  refine ⟨c1, ?_⟩
  rw [countNumberOfBits64_eq _ (by omega)]
  exact bitWidth_le _ 7 (by omega)

/-- C3: on every valid stream with room for the code, for every 64-bit value `v >= 1`,
`setEliasGamma(v)` then `getEliasGamma` from the position at which the write started returns
exactly `v`, and so do `setEliasDelta(v)` and `getEliasDelta`. -/
theorem elias_roundtrip (s : stuffedBits) (v : Nat) (hs : s.Inv) (hr : s.Room 3 127)
    (h1 : 1 ≤ v) (h2 : v < 2 ^ 64) :
    (∃ s1 s2, s.setEliasGamma v = some s1 ∧ s1.setPosition s.getPosition = some s2 ∧
      s2.getEliasGamma = some (v, s1)) ∧
    (∃ s1 s2, s.setEliasDelta v = some s1 ∧ s1.setPosition s.getPosition = some s2 ∧
      s2.getEliasDelta = some (v, s1)) := by
  obtain ⟨b1, b2, -, -⟩ := bits64_pos v h1 h2
  obtain ⟨c1, c2⟩ := bits64_bits64_le v h1 h2
  constructor
  · exact stuffedBits.roundtrip_of_sound _ _ _ _ _ _ _ (stuffedBits.sound_gamma v h1 h2) b1 s hs
      (stuffedBits.room_mono s _ _ _ _ (by omega) (by omega) hr) hs.max_ge
  · exact stuffedBits.roundtrip_of_sound _ _ _ _ _ _ _ (stuffedBits.sound_delta v h1 h2) c1 s hs
      (stuffedBits.room_mono s _ _ _ _ (by omega) (by omega) hr) hs.max_ge

theorem elias_roundtrip_witness :
    (∃ s1 s2, stuffedBits.stream60.setEliasGamma 1000 = some s1 ∧
      s1.setPosition stuffedBits.stream60.getPosition = some s2 ∧
      s2.getEliasGamma = some (1000, s1)) ∧
    (∃ s1 s2, stuffedBits.stream60.setEliasDelta 1000 = some s1 ∧
      s1.setPosition stuffedBits.stream60.getPosition = some s2 ∧
      s2.getEliasDelta = some (1000, s1)) :=
  elias_roundtrip stuffedBits.stream60 1000 stuffedBits.inv_stream60
    (by unfold stuffedBits.Room; decide) (by decide) (by decide)

theorem length_zeckendorfCode (v : Nat) (h1 : 1 ≤ v) (h2 : v < 2 ^ 64) :
    2 ≤ (zeckendorfCode v).length ∧ (zeckendorfCode v).length ≤ 93 := by
  rw [zeckendorfCode_eq]
  simp only [List.length_append, List.length_singleton, length_fibonacciLow]
  have := top_le v h1 h2
  have := (top_spec v h1).1
  omega

/-- C4: on every valid stream with room for the code, for every 64-bit value `v >= 1`,
`setZeckendorf(v)` then `getZeckendorf` from the position at which the write started returns
exactly `v`; the bits of the code before its terminator select Fibonacci numbers
(`F(0) = F(1) = 1`, `F(i+2) = F(i+1) + F(i)`) whose sum is `v`. -/
theorem zeckendorf_roundtrip (s : stuffedBits) (v : Nat) (hs : s.Inv) (hr : s.Room 94 93)
    (h1 : 1 ≤ v) (h2 : v < 2 ^ 64) :
    (∃ s1 s2, s.setZeckendorf v = some s1 ∧ s1.setPosition s.getPosition = some s2 ∧
      s2.getZeckendorf = some (v, s1)) ∧
    fibonacciSum 1 (zeckendorfCode v).dropLast = v ∧
    fibonacciNumber 0 = 1 ∧ fibonacciNumber 1 = 1 ∧
    ∀ i, fibonacciNumber (i + 2) = fibonacciNumber (i + 1) + fibonacciNumber i := by
  refine ⟨?_, ?_, rfl, rfl, fibonacciNumber_add_two⟩
  · exact stuffedBits.roundtrip_of_sound _ _ _ _ _ _ _ (stuffedBits.sound_zeckendorf v h1 h2)
      (le_refl _) s hs
      (stuffedBits.room_mono s _ _ _ _ (le_refl _) (length_zeckendorfCode v h1 h2).2 hr) hs.max_ge
  · rw [zeckendorfCode_eq, List.dropLast_concat]
    exact fibonacciSum_low _ v (top_spec v h1).2.2

theorem zeckendorf_roundtrip_witness :
    (∃ s1 s2, stuffedBits.stream60.setZeckendorf 1000 = some s1 ∧
      s1.setPosition stuffedBits.stream60.getPosition = some s2 ∧
      s2.getZeckendorf = some (1000, s1)) ∧
    fibonacciSum 1 (zeckendorfCode 1000).dropLast = 1000 ∧
    fibonacciNumber 0 = 1 ∧ fibonacciNumber 1 = 1 ∧
    ∀ i, fibonacciNumber (i + 2) = fibonacciNumber (i + 1) + fibonacciNumber i :=
  zeckendorf_roundtrip stuffedBits.stream60 1000 stuffedBits.inv_stream60
    (by unfold stuffedBits.Room; decide) (by decide) (by decide)

/-- C5: for every 64-bit value `v >= 1` the bit sequence that `setZeckendorf(v)` writes, which a
bit-by-bit read from the position at which the write started returns, ends with two adjacent set
bits and has no other pair of adjacent set bits. -/
theorem zeckendorf_code_shape (s : stuffedBits) (v : Nat) (hs : s.Inv) (hr : s.Room 94 93)
    (h1 : 1 ≤ v) (h2 : v < 2 ^ 64) :
    (∃ s1 s2, s.setZeckendorf v = some s1 ∧ s1.setPosition s.getPosition = some s2 ∧
      s2.getBits (zeckendorfCode v).length = some (zeckendorfCode v, s1)) ∧
    2 ≤ (zeckendorfCode v).length ∧
    (zeckendorfCode v).getD ((zeckendorfCode v).length - 2) false = true ∧
    (zeckendorfCode v).getD ((zeckendorfCode v).length - 1) false = true ∧
    ∀ i, i + 1 < (zeckendorfCode v).length → (zeckendorfCode v).getD i false = true →
      (zeckendorfCode v).getD (i + 1) false = true → i + 2 = (zeckendorfCode v).length := by
  obtain ⟨l1, l2⟩ := length_zeckendorfCode v h1 h2
  obtain ⟨t1, t2, t3⟩ := top_spec v h1
  obtain ⟨p1, -, p3⟩ := fibonacciLow_props _ v t3
  have hlen := length_fibonacciLow (fibonacciTop v v 0) v
  refine ⟨?_, l1, ?_, ?_, ?_⟩
  · have hb := stuffedBits.sound_bits (zeckendorfCode v)
    rw [min_eq_left (by omega)] at hb
    have hw : s.setZeckendorf v = s.setBits (zeckendorfCode v) := by
      unfold stuffedBits.setZeckendorf
      rw [if_neg (by omega)]
    have := stuffedBits.roundtrip_of_sound _ _ _ _ _ _ _ hb (le_refl _) s hs
      (stuffedBits.room_mono s _ _ _ _ (by omega) l2 hr) (le_trans (by decide) hs.max_ge)
    rw [hw]
    exact this
  · rw [zeckendorfCode_eq, getD_append_singleton]
    simp only [List.length_append, List.length_singleton, hlen]
    rw [if_pos (by omega)]
    have := p3 t2 t1
    have e : fibonacciTop v v 0 + 1 - 2 = fibonacciTop v v 0 - 1 := by omega
    rw [e]; exact this
  · rw [zeckendorfCode_eq, getD_append_singleton]
    simp only [List.length_append, List.length_singleton, hlen]
    rw [if_neg (by omega), if_pos (by omega)]
  · intro i hi a b
    rw [zeckendorfCode_eq] at hi a b ⊢
    simp only [List.length_append, List.length_singleton, hlen] at hi ⊢
    rw [getD_append_singleton, hlen] at a b
    by_contra hc
    have hi1 : i + 1 < fibonacciTop v v 0 := by omega
    rw [if_pos (by omega)] at a b
    exact p1 i (by rw [hlen]; exact hi1) ⟨a, b⟩

theorem zeckendorf_code_shape_witness :
    (∃ s1 s2, stuffedBits.stream60.setZeckendorf 12 = some s1 ∧
      s1.setPosition stuffedBits.stream60.getPosition = some s2 ∧
      s2.getBits (zeckendorfCode 12).length = some (zeckendorfCode 12, s1)) ∧
    2 ≤ (zeckendorfCode 12).length ∧
    (zeckendorfCode 12).getD ((zeckendorfCode 12).length - 2) false = true ∧
    (zeckendorfCode 12).getD ((zeckendorfCode 12).length - 1) false = true ∧
    ∀ i, i + 1 < (zeckendorfCode 12).length → (zeckendorfCode 12).getD i false = true →
      (zeckendorfCode 12).getD (i + 1) false = true → i + 2 = (zeckendorfCode 12).length :=
  zeckendorf_code_shape stuffedBits.stream60 12 stuffedBits.inv_stream60
    (by unfold stuffedBits.Room; decide) (by decide) (by decide)

theorem setPosition_emptyStream (m : Nat) : (stuffedBits.emptyStream m).setPosition 0 = none := rfl

theorem pack_one_word (x v w sh : Nat) (hw : sh + w ≤ 128) :
    ((((x &&& ((2 ^ 128 - 1) ^^^ ((2 ^ w - 1) <<< sh))) ||| ((v &&& (2 ^ w - 1)) <<< sh)) >>> sh) &&&
      (2 ^ w - 1)) = v % 2 ^ w := by
  apply Nat.eq_of_testBit_eq
  intro j
  simp only [Nat.testBit_and, Nat.testBit_or, Nat.testBit_xor, Nat.testBit_shiftLeft,
    Nat.testBit_shiftRight, Nat.testBit_two_pow_sub_one, Nat.testBit_mod_two_pow]
  by_cases hj : j < w
  · have h1 : sh + j < 128 := by omega
    have h2 : sh + j ≥ sh := by omega
    have h3 : sh + j - sh = j := by omega
    simp [hj, h1, h3]
  · simp [hj]

theorem pack_two_words (x0 x1 v w f : Nat) (hf1 : 1 ≤ f) (hf2 : f < w) (hw : w ≤ 128) :
    ((((((x0 &&& ((2 ^ 128 - 1) ^^^ ((2 ^ w - 1) >>> f))) ||| ((v &&& (2 ^ w - 1)) >>> f)) <<< f) %
        2 ^ 128) |||
      (((x1 &&& ((2 ^ 128 - 1) ^^^ (((2 ^ w - 1) <<< (128 - f)) % 2 ^ 128))) |||
        (((v &&& (2 ^ w - 1)) <<< (128 - f)) % 2 ^ 128)) >>> (128 - f))) &&& (2 ^ w - 1)) =
      v % 2 ^ w := by
  apply Nat.eq_of_testBit_eq
  intro j
  simp only [Nat.testBit_and, Nat.testBit_or, Nat.testBit_xor, Nat.testBit_shiftLeft,
    Nat.testBit_shiftRight, Nat.testBit_two_pow_sub_one, Nat.testBit_mod_two_pow]
  by_cases hj : j < w
  · have hj128 : j < 128 := by omega
    by_cases hjf : j < f
    · have h1 : 128 - f + j < 128 := by omega
      have h2 : 128 - f + j ≥ 128 - f := by omega
      have h3 : 128 - f + j - (128 - f) = j := by omega
      have h4 : ¬ j ≥ f := by omega
      simp [hj, hj128, h1, h3, h4]
    · have h1 : ¬ 128 - f + j < 128 := by omega
      have h4 : j ≥ f := by omega
      have h5 : f + (j - f) = j := by omega
      have h6 : j - f < 128 := by omega
      simp [hj, hj128, h1, h4, h5, h6]
  · simp [hj]

namespace wordArray

theorem inv_create (w size : Nat) (h1 : 1 ≤ w) (h2 : w ≤ 128) (h3 : w ≤ size) (h4 : size < 2 ^ 64) :
    (create w size).Inv := by
  refine ⟨h1, h2, ?_, ?_, ?_, ?_, h4, ?_⟩
  · show buildLowBitMask 128 0 w = 2 ^ w - 1
    rw [buildLowBitMask_eq 128 0 w (by decide), min_eq_left h2]
  · show 1 ≤ size / w
    exact (Nat.one_le_div_iff (by omega)).2 h3
  · show size / w * w ≤ size
    exact Nat.div_mul_le_self _ _
  · show size ≤ 128 * ((size + 127) / 128)
    omega
  · intro i hi
    simp [create] at hi

theorem allocateTo_props (a : wordArray) (seg : Nat) (ha : a.Inv) :
    (a.allocateTo seg).Inv ∧ seg < (a.allocateTo seg)._segments.length ∧
    (a.allocateTo seg)._valueWidth = a._valueWidth ∧ (a.allocateTo seg)._valueMask = a._valueMask ∧
    (a.allocateTo seg)._valuesPerSegment = a._valuesPerSegment := by
  unfold allocateTo
  by_cases h : seg < a._segments.length
  · rw [if_pos h]; exact ⟨ha, h, rfl, rfl, rfl⟩
  · rw [if_neg h]
    refine ⟨⟨ha.width_pos, ha.width_le, ha.mask, ha.vps_pos, ha.vps, ha.wps, ha.size64, ?_⟩, ?_,
      rfl, rfl, rfl⟩
    · intro i hi
      simp only [List.length_append, List.length_replicate] at hi
      simp only [List.getD_eq_getElem?_getD]
      by_cases hl : i < a._segments.length
      · rw [List.getElem?_append_left hl]
        have := ha.segs i hl
        simpa using this
      · rw [List.getElem?_append_right (by omega), List.getElem?_replicate, if_pos (by omega)]
        simp
    · simp only [List.length_append, List.length_replicate]
      omega

theorem word_setWord (a : wordArray) (seg wrd wrd' x : Nat) (h1 : seg < a._segments.length)
    (h2 : wrd < (a._segments.getD seg []).length) :
    (a.setWord seg wrd x).word seg wrd' = if wrd' = wrd then x else a.word seg wrd' := by
  unfold word setWord
  simp only [List.getD_eq_getElem?_getD, List.getElem?_set, h1, if_true, Option.getD_some]
  simp only [List.getD_eq_getElem?_getD] at h2
  by_cases h : wrd' = wrd
  · subst h; simp [h2]
  · have : ¬ wrd = wrd' := fun e => h e.symm
    simp [h, this]

theorem setWord_fields (a : wordArray) (seg wrd x : Nat) :
    (a.setWord seg wrd x)._valueWidth = a._valueWidth ∧
    (a.setWord seg wrd x)._valueMask = a._valueMask ∧
    (a.setWord seg wrd x)._valuesPerSegment = a._valuesPerSegment ∧
    (a.setWord seg wrd x)._segments.length = a._segments.length ∧
    ((a.setWord seg wrd x)._segments.getD seg []).length = (a._segments.getD seg []).length := by
  refine ⟨rfl, rfl, rfl, ?_, ?_⟩
  · simp [setWord]
  · unfold setWord
    simp only [List.getD_eq_getElem?_getD, List.getElem?_set]
    by_cases h : seg < a._segments.length
    · simp [h]
    · simp [h, List.getElem?_eq_none (Nat.le_of_not_lt h)]

theorem offsets (a : wordArray) (ha : a.Inv) (eIdx : Nat) :
    (a._valueWidth * (eIdx % a._valuesPerSegment)) % 2 ^ 64 =
      a._valueWidth * (eIdx % a._valuesPerSegment) ∧
    a._valueWidth * (eIdx % a._valuesPerSegment) + a._valueWidth ≤ 128 * a._wordsPerSegment := by
  have hj : eIdx % a._valuesPerSegment + 1 ≤ a._valuesPerSegment :=
    Nat.mod_lt _ ha.vps_pos
  have h1 : (eIdx % a._valuesPerSegment + 1) * a._valueWidth ≤ a._valuesPerSegment * a._valueWidth :=
    Nat.mul_le_mul_right _ hj
  have h2 : (eIdx % a._valuesPerSegment + 1) * a._valueWidth =
      a._valueWidth * (eIdx % a._valuesPerSegment) + a._valueWidth := by ring
  have := ha.vps; have := ha.wps; have := ha.size64
  exact ⟨Nat.mod_eq_of_lt (by omega), by omega⟩

end wordArray

/-- C7: on every packed array of value width `w` in [1,128] whose segments hold at least one
value, for every index `i` and every value `v`, also `v >= 2^w`, `set(i, v)` succeeds and `get(i)`
then returns `v mod 2^w`. -/
theorem wordArray_set_get (a : wordArray) (i v : Nat) (ha : a.Inv) :
    ∃ a', a.set i v = some a' ∧ a'.get i = some (v % 2 ^ a._valueWidth) := by
  obtain ⟨hb, hseg, e1, e2, e3⟩ := wordArray.allocateTo_props a (i / a._valuesPerSegment) ha
  obtain ⟨o1, o2⟩ := wordArray.offsets a ha i
  have hv := ha.vps_pos
  have hw1 := ha.width_pos
  have hw2 := ha.width_le
  have hlen := hb.segs _ hseg
  have hwps : (a.allocateTo (i / a._valuesPerSegment))._wordsPerSegment = a._wordsPerSegment := by
    unfold wordArray.allocateTo; split <;> rfl
  rw [hwps] at hlen
  generalize hp : a._valueWidth * (i % a._valuesPerSegment) = pos at o1 o2
  have hw : ∀ c : wordArray, c._valuesPerSegment = a._valuesPerSegment → c._valueWidth = a._valueWidth →
      c._valueMask = a._valueMask → i / a._valuesPerSegment < c._segments.length →
      c.get i =
        if pos % 128 + a._valueWidth ≤ 128 then
          some ((c.word (i / a._valuesPerSegment) (pos / 128) >>> (128 - a._valueWidth - pos % 128)) &&&
            (2 ^ a._valueWidth - 1))
        else
          some ((((c.word (i / a._valuesPerSegment) (pos / 128) <<<
              (a._valueWidth - (128 - pos % 128))) % 2 ^ 128) |||
            (c.word (i / a._valuesPerSegment) (pos / 128 + 1) >>>
              (128 - (a._valueWidth - (128 - pos % 128))))) &&& (2 ^ a._valueWidth - 1)) := by
    intro c c1 c2 c3 c4
    unfold wordArray.get
    rw [c1, c2, c3, if_neg (by omega), hp, o1, ha.mask]
    simp only []
    rw [if_neg (by omega)]
  unfold wordArray.set
  rw [if_neg (by omega), hp, o1]
  simp only [e1, e2, ha.mask]
  generalize hB : a.allocateTo (i / a._valuesPerSegment) = b at hb hseg e1 e2 e3 hlen
  by_cases hone : pos % 128 + a._valueWidth ≤ 128
  · rw [if_pos hone]
    refine ⟨_, rfl, ?_⟩
    obtain ⟨f1, f2, f3, f4, f5⟩ := wordArray.setWord_fields b (i / a._valuesPerSegment) (pos / 128)
      ((b.word (i / a._valuesPerSegment) (pos / 128) &&&
        ((2 ^ 128 - 1) ^^^ ((2 ^ a._valueWidth - 1) <<< (128 - a._valueWidth - pos % 128)))) |||
        ((v &&& (2 ^ a._valueWidth - 1)) <<< (128 - a._valueWidth - pos % 128)))
    rw [hw _ (f3.trans e3) (f1.trans e1) (f2.trans e2) (lt_of_lt_of_eq hseg f4.symm), if_pos hone,
      wordArray.word_setWord b _ _ _ _ hseg (by rw [hlen]; omega), if_pos rfl]
    rw [pack_one_word _ v a._valueWidth _ (by omega)]
  · rw [if_neg hone]
    refine ⟨_, rfl, ?_⟩
    generalize hx0 : ((b.word (i / a._valuesPerSegment) (pos / 128) &&&
        ((2 ^ 128 - 1) ^^^ ((2 ^ a._valueWidth - 1) >>> (a._valueWidth - (128 - pos % 128))))) |||
        ((v &&& (2 ^ a._valueWidth - 1)) >>> (a._valueWidth - (128 - pos % 128)))) = y0
    obtain ⟨f1, f2, f3, f4, f5⟩ := wordArray.setWord_fields b (i / a._valuesPerSegment) (pos / 128) y0
    have hseg1 : i / a._valuesPerSegment < (b.setWord (i / a._valuesPerSegment) (pos / 128) y0)._segments.length := by
      rw [f4]; exact hseg
    have hlen1 : pos / 128 + 1 < ((b.setWord (i / a._valuesPerSegment) (pos / 128) y0)._segments.getD
        (i / a._valuesPerSegment) []).length := by
      rw [f5, hlen]; omega
    rw [f2, e2, ha.mask]
    generalize hx1 : (((b.setWord (i / a._valuesPerSegment) (pos / 128) y0).word (i / a._valuesPerSegment)
        (pos / 128 + 1) &&& ((2 ^ 128 - 1) ^^^ (((2 ^ a._valueWidth - 1) <<<
          (128 - (a._valueWidth - (128 - pos % 128)))) % 2 ^ 128))) |||
        (((v &&& (2 ^ a._valueWidth - 1)) <<< (128 - (a._valueWidth - (128 - pos % 128)))) % 2 ^ 128)) = y1
    obtain ⟨g1, g2, g3, g4, g5⟩ := wordArray.setWord_fields
      (b.setWord (i / a._valuesPerSegment) (pos / 128) y0) (i / a._valuesPerSegment) (pos / 128 + 1) y1
    rw [hw _ (g3.trans (f3.trans e3)) (g1.trans (f1.trans e1)) (g2.trans (f2.trans e2))
        (lt_of_lt_of_eq hseg1 g4.symm),
      if_neg hone, wordArray.word_setWord _ _ _ _ _ hseg1 hlen1, if_neg (by omega),
      wordArray.word_setWord _ _ _ _ _ hseg1 hlen1, if_pos rfl,
      wordArray.word_setWord b _ _ _ _ hseg (by rw [hlen]; omega), if_pos rfl]
    rw [← hx1, ← hx0, wordArray.word_setWord b _ _ _ _ hseg (by rw [hlen]; omega), if_neg (by omega)]
    rw [pack_two_words _ _ v a._valueWidth _ (by omega) (by omega) hw2]

theorem wordArray_set_get_witness :
    ∃ a', (wordArray.create 100 256).set 5 (2 ^ 100 + 7) = some a' ∧
      a'.get 5 = some ((2 ^ 100 + 7) % 2 ^ (wordArray.create 100 256)._valueWidth) :=
  wordArray_set_get (wordArray.create 100 256) 5 (2 ^ 100 + 7)
    (wordArray.inv_create 100 256 (by decide) (by decide) (by decide) (by decide))

/-- C8: for every `numBits`, `buildLowBitMask` at a word of 64 bits and at a word of 128 bits
returns `2^min(numBits, W) - 1`, whatever the shift by an undefined count gives: the bits below
`min(numBits, W)` are set and no other, the result is zero for `numBits = 0` and all-ones for every
`numBits >= W`. -/
theorem buildLowBitMask_spec (oob numBits k i : Nat) :
    buildLowBitMask 64 oob numBits = 2 ^ min numBits 64 - 1 ∧
    buildLowBitMask 128 oob numBits = 2 ^ min numBits 128 - 1 ∧
    (buildLowBitMask 64 oob numBits).testBit i = decide (i < min numBits 64) ∧
    (buildLowBitMask 128 oob numBits).testBit i = decide (i < min numBits 128) ∧
    buildLowBitMask 64 oob 0 = 0 ∧ buildLowBitMask 128 oob 0 = 0 ∧
    buildLowBitMask 64 oob (64 + k) = 2 ^ 64 - 1 ∧ buildLowBitMask 128 oob (128 + k) = 2 ^ 128 - 1 := by
  refine ⟨buildLowBitMask_eq 64 oob numBits (by decide), buildLowBitMask_eq 128 oob numBits (by decide),
    testBit_buildLowBitMask 64 oob numBits i (by decide),
    testBit_buildLowBitMask 128 oob numBits i (by decide), ?_, ?_, ?_, ?_⟩
  · rw [buildLowBitMask_eq 64 oob 0 (by decide)]; rfl
  · rw [buildLowBitMask_eq 128 oob 0 (by decide)]; rfl
  · rw [buildLowBitMask_eq 64 oob _ (by decide), min_eq_right (by omega)]
  · rw [buildLowBitMask_eq 128 oob _ (by decide), min_eq_right (by omega)]

/-- C9: for every `numBits`, `buildHighBitMask` at a word of 64 bits and at a word of 128 bits
returns the word whose highest `min(numBits, W)` bits are set and whose lower bits are clear,
`2^W - 2^(W - min(numBits, W))`, whatever the shift by an undefined count gives: zero for
`numBits = 0` and all-ones for every `numBits >= W`. -/
theorem buildHighBitMask_spec (oob numBits k i : Nat) :
    (buildHighBitMask 64 oob numBits).testBit i = decide (64 - min numBits 64 ≤ i ∧ i < 64) ∧
    (buildHighBitMask 128 oob numBits).testBit i = decide (128 - min numBits 128 ≤ i ∧ i < 128) ∧
    buildHighBitMask 64 oob numBits = 2 ^ 64 - 2 ^ (64 - min numBits 64) ∧
    buildHighBitMask 128 oob numBits = 2 ^ 128 - 2 ^ (128 - min numBits 128) ∧
    buildHighBitMask 64 oob 0 = 0 ∧ buildHighBitMask 128 oob 0 = 0 ∧
    buildHighBitMask 64 oob (64 + k) = 2 ^ 64 - 1 ∧ buildHighBitMask 128 oob (128 + k) = 2 ^ 128 - 1 := by
  refine ⟨testBit_buildHighBitMask 64 oob numBits i (by decide),
    testBit_buildHighBitMask 128 oob numBits i (by decide),
    buildHighBitMask_eq 64 oob numBits (by decide), buildHighBitMask_eq 128 oob numBits (by decide),
    ?_, ?_, ?_, ?_⟩
  · rw [buildHighBitMask_eq 64 oob 0 (by decide)]; rfl
  · rw [buildHighBitMask_eq 128 oob 0 (by decide)]; rfl
  · rw [buildHighBitMask_eq 64 oob _ (by decide), min_eq_right (by omega)]; rfl
  · rw [buildHighBitMask_eq 128 oob _ (by decide), min_eq_right (by omega)]; rfl

theorem bitWidth_spec (x : Nat) :
    bitWidth x = (if x = 0 then 0 else Nat.log2 x + 1) ∧ x < 2 ^ bitWidth x ∧
    ∀ n, x < 2 ^ n → bitWidth x ≤ n := by
  refine ⟨rfl, ?_, ?_⟩
  · by_contra hc
    have := (lt_bitWidth_iff x (bitWidth x)).2 (by omega)
    omega
  · intro n hn
    by_contra hc
    have := (lt_bitWidth_iff x n).1 (by omega)
    omega

/-- C10: for every 64-bit `x`, `countNumberOfBits64(x)` is 0 when `x = 0` and
`floor(log2 x) + 1` otherwise, the least `n` with `x < 2^n`; for every 32-bit `y`,
`countNumberOfBits32(y)` satisfies the same. -/
theorem countNumberOfBits_spec (x y : Nat) (hx : x < 2 ^ 64) (hy : y < 2 ^ 32) :
    (countNumberOfBits64 x = (if x = 0 then 0 else Nat.log2 x + 1) ∧
      x < 2 ^ countNumberOfBits64 x ∧ ∀ n, x < 2 ^ n → countNumberOfBits64 x ≤ n) ∧
    (countNumberOfBits32 y = (if y = 0 then 0 else Nat.log2 y + 1) ∧
      y < 2 ^ countNumberOfBits32 y ∧ ∀ n, y < 2 ^ n → countNumberOfBits32 y ≤ n) := by
  rw [countNumberOfBits64_eq x hx, countNumberOfBits32_eq y hy]
  exact ⟨bitWidth_spec x, bitWidth_spec y⟩

theorem countNumberOfBits_spec_witness :
    (countNumberOfBits64 (2 ^ 63 + 5) = (if 2 ^ 63 + 5 = 0 then 0 else Nat.log2 (2 ^ 63 + 5) + 1) ∧
      2 ^ 63 + 5 < 2 ^ countNumberOfBits64 (2 ^ 63 + 5) ∧
      ∀ n, 2 ^ 63 + 5 < 2 ^ n → countNumberOfBits64 (2 ^ 63 + 5) ≤ n) ∧
    (countNumberOfBits32 12345 = (if 12345 = 0 then 0 else Nat.log2 12345 + 1) ∧
      12345 < 2 ^ countNumberOfBits32 12345 ∧ ∀ n, 12345 < 2 ^ n → countNumberOfBits32 12345 ≤ n) :=
  countNumberOfBits_spec (2 ^ 63 + 5) 12345 (by decide) (by decide)

theorem testBit_exchange (W k M N y j : Nat) (hj : j < W)
    (hM : M.testBit j = decide ((j / k) % 2 = 0))
    (hN : N.testBit j = decide ((j / k) % 2 = 1)) :
    (((y >>> k) &&& M) ||| (((y <<< k) % 2 ^ W) &&& N)).testBit j = y.testBit (flipIndex k j) := by
  simp only [Nat.testBit_or, Nat.testBit_and, Nat.testBit_shiftRight, Nat.testBit_shiftLeft,
    Nat.testBit_mod_two_pow, hM, hN, flipIndex]
  by_cases h : (j / k) % 2 = 0
  · have h1 : ¬ ((j / k) % 2 = 1) := by omega
    simp [h, h1, Nat.add_comm]
  · have h1 : (j / k) % 2 = 1 := by omega
    have h2 : k ≤ j := by
      by_contra hc
      have : j / k = 0 := Nat.div_eq_of_lt (by omega)
      omega
    simp [h, h1, h2, hj]

theorem masks64 : ∀ j, j < 64 →
    ((0x5555555555555555 : Nat).testBit j = decide ((j / 1) % 2 = 0) ∧
     (0xaaaaaaaaaaaaaaaa : Nat).testBit j = decide ((j / 1) % 2 = 1)) ∧
    ((0x3333333333333333 : Nat).testBit j = decide ((j / 2) % 2 = 0) ∧
     (0xcccccccccccccccc : Nat).testBit j = decide ((j / 2) % 2 = 1)) ∧
    ((0x0f0f0f0f0f0f0f0f : Nat).testBit j = decide ((j / 4) % 2 = 0) ∧
     (0xf0f0f0f0f0f0f0f0 : Nat).testBit j = decide ((j / 4) % 2 = 1)) ∧
    ((0x00ff00ff00ff00ff : Nat).testBit j = decide ((j / 8) % 2 = 0) ∧
     (0xff00ff00ff00ff00 : Nat).testBit j = decide ((j / 8) % 2 = 1)) ∧
    ((0x0000ffff0000ffff : Nat).testBit j = decide ((j / 16) % 2 = 0) ∧
     (0xffff0000ffff0000 : Nat).testBit j = decide ((j / 16) % 2 = 1)) ∧
    ((0x00000000ffffffff : Nat).testBit j = decide ((j / 32) % 2 = 0) ∧
     (0xffffffff00000000 : Nat).testBit j = decide ((j / 32) % 2 = 1)) := by
  decide

theorem masks32 : ∀ j, j < 32 →
    ((0x55555555 : Nat).testBit j = decide ((j / 1) % 2 = 0) ∧
     (0xaaaaaaaa : Nat).testBit j = decide ((j / 1) % 2 = 1)) ∧
    ((0x33333333 : Nat).testBit j = decide ((j / 2) % 2 = 0) ∧
     (0xcccccccc : Nat).testBit j = decide ((j / 2) % 2 = 1)) ∧
    ((0x0f0f0f0f : Nat).testBit j = decide ((j / 4) % 2 = 0) ∧
     (0xf0f0f0f0 : Nat).testBit j = decide ((j / 4) % 2 = 1)) ∧
    ((0x00ff00ff : Nat).testBit j = decide ((j / 8) % 2 = 0) ∧
     (0xff00ff00 : Nat).testBit j = decide ((j / 8) % 2 = 1)) ∧
    ((0x0000ffff : Nat).testBit j = decide ((j / 16) % 2 = 0) ∧
     (0xffff0000 : Nat).testBit j = decide ((j / 16) % 2 = 1)) := by
  decide

theorem flips64 : ∀ j, j < 64 →
    flipIndex 32 j < 64 ∧ flipIndex 16 (flipIndex 32 j) < 64 ∧
    flipIndex 8 (flipIndex 16 (flipIndex 32 j)) < 64 ∧
    flipIndex 4 (flipIndex 8 (flipIndex 16 (flipIndex 32 j))) < 64 ∧
    flipIndex 2 (flipIndex 4 (flipIndex 8 (flipIndex 16 (flipIndex 32 j)))) < 64 ∧
    flipIndex 1 (flipIndex 2 (flipIndex 4 (flipIndex 8 (flipIndex 16 (flipIndex 32 j))))) = 63 - j ∧
    flipIndex 8 (flipIndex 16 (flipIndex 32 j)) = 8 * (7 - j / 8) + j % 8 := by
  decide

theorem flips32 : ∀ j, j < 32 →
    flipIndex 16 j < 32 ∧ flipIndex 8 (flipIndex 16 j) < 32 ∧
    flipIndex 4 (flipIndex 8 (flipIndex 16 j)) < 32 ∧
    flipIndex 2 (flipIndex 4 (flipIndex 8 (flipIndex 16 j))) < 32 ∧
    flipIndex 1 (flipIndex 2 (flipIndex 4 (flipIndex 8 (flipIndex 16 j)))) = 31 - j ∧
    flipIndex 8 (flipIndex 16 j) = 8 * (3 - j / 8) + j % 8 := by
  decide

theorem testBit_reverseBits64 (x j : Nat) (hj : j < 64) :
    (reverseBits64 x).testBit j = x.testBit (63 - j) := by
  obtain ⟨f1, f2, f3, f4, f5, f6, _⟩ := flips64 j hj
  unfold reverseBits64
  simp only []
  rw [testBit_exchange 64 32 _ _ _ j hj (masks64 j hj).2.2.2.2.2.1 (masks64 j hj).2.2.2.2.2.2,
    testBit_exchange 64 16 _ _ _ _ f1 (masks64 _ f1).2.2.2.2.1.1 (masks64 _ f1).2.2.2.2.1.2,
    testBit_exchange 64 8 _ _ _ _ f2 (masks64 _ f2).2.2.2.1.1 (masks64 _ f2).2.2.2.1.2,
    testBit_exchange 64 4 _ _ _ _ f3 (masks64 _ f3).2.2.1.1 (masks64 _ f3).2.2.1.2,
    testBit_exchange 64 2 _ _ _ _ f4 (masks64 _ f4).2.1.1 (masks64 _ f4).2.1.2,
    testBit_exchange 64 1 _ _ _ _ f5 (masks64 _ f5).1.1 (masks64 _ f5).1.2, f6]

theorem testBit_reverseBits32 (x j : Nat) (hj : j < 32) :
    (reverseBits32 x).testBit j = x.testBit (31 - j) := by
  obtain ⟨f1, f2, f3, f4, f5, _⟩ := flips32 j hj
  unfold reverseBits32
  simp only []
  rw [testBit_exchange 32 16 _ _ _ j hj (masks32 j hj).2.2.2.2.1 (masks32 j hj).2.2.2.2.2,
    testBit_exchange 32 8 _ _ _ _ f1 (masks32 _ f1).2.2.2.1.1 (masks32 _ f1).2.2.2.1.2,
    testBit_exchange 32 4 _ _ _ _ f2 (masks32 _ f2).2.2.1.1 (masks32 _ f2).2.2.1.2,
    testBit_exchange 32 2 _ _ _ _ f3 (masks32 _ f3).2.1.1 (masks32 _ f3).2.1.2,
    testBit_exchange 32 1 _ _ _ _ f4 (masks32 _ f4).1.1 (masks32 _ f4).1.2, f5]

theorem testBit_uint64Swap (x j : Nat) (hj : j < 64) :
    (uint64Swap x).testBit j = x.testBit (8 * (7 - j / 8) + j % 8) := by
  obtain ⟨f1, f2, _, _, _, _, f7⟩ := flips64 j hj
  unfold uint64Swap
  simp only []
  rw [testBit_exchange 64 32 _ _ _ j hj (masks64 j hj).2.2.2.2.2.1 (masks64 j hj).2.2.2.2.2.2,
    testBit_exchange 64 16 _ _ _ _ f1 (masks64 _ f1).2.2.2.2.1.1 (masks64 _ f1).2.2.2.2.1.2,
    testBit_exchange 64 8 _ _ _ _ f2 (masks64 _ f2).2.2.2.1.1 (masks64 _ f2).2.2.2.1.2, f7]

theorem testBit_uint32Swap (x j : Nat) (hj : j < 32) :
    (uint32Swap x).testBit j = x.testBit (8 * (3 - j / 8) + j % 8) := by
  obtain ⟨f1, _, _, _, _, f6⟩ := flips32 j hj
  unfold uint32Swap
  simp only []
  rw [testBit_exchange 32 16 _ _ _ j hj (masks32 j hj).2.2.2.2.1 (masks32 j hj).2.2.2.2.2,
    testBit_exchange 32 8 _ _ _ _ f1 (masks32 _ f1).2.2.2.1.1 (masks32 _ f1).2.2.2.1.2, f6]

theorem testBit_uint16Swap (x j : Nat) (hj : j < 16) :
    (uint16Swap x).testBit j = x.testBit (8 * (1 - j / 8) + j % 8) := by
  have hM : (0x00ff : Nat).testBit j = decide ((j / 8) % 2 = 0) := by
    revert j; decide
  have hN : (0xff00 : Nat).testBit j = decide ((j / 8) % 2 = 1) := by
    revert j; decide
  have hf : flipIndex 8 j = 8 * (1 - j / 8) + j % 8 := by
    revert j; decide
  have e : (x <<< 8) &&& 0xff00 = ((x <<< 8) % 2 ^ 16) &&& 0xff00 := by
    apply Nat.eq_of_testBit_eq
    intro i
    simp only [Nat.testBit_and, Nat.testBit_mod_two_pow]
    by_cases hi : i < 16
    · simp [hi]
    · have : (0xff00 : Nat).testBit i = false :=
        Nat.testBit_lt_two_pow (lt_of_lt_of_le (by decide : (0xff00 : Nat) < 2 ^ 16)
          (Nat.pow_le_pow_right (by decide) (by omega)))
      simp [this]
  unfold uint16Swap
  rw [Nat.testBit_mod_two_pow, e, testBit_exchange 16 8 _ _ _ j hj hM hN, hf]
  simp [hj]

/-- A word below `2 ^ W` is determined by its bits below `W`. -/
theorem eq_of_testBit_lt (W a b : Nat) (ha : a < 2 ^ W) (hb : b < 2 ^ W)
    (h : ∀ j, j < W → a.testBit j = b.testBit j) : a = b := by
  apply Nat.eq_of_testBit_eq
  intro j
  by_cases hj : j < W
  · exact h j hj
  · rw [Nat.testBit_lt_two_pow (lt_of_lt_of_le ha (Nat.pow_le_pow_right (by decide) (by omega))),
      Nat.testBit_lt_two_pow (lt_of_lt_of_le hb (Nat.pow_le_pow_right (by decide) (by omega)))]

theorem or_and_lt (W a b M N : Nat) (hM : M < 2 ^ W) (hN : N < 2 ^ W) :
    (a &&& M) ||| (b &&& N) < 2 ^ W :=
  Nat.or_lt_two_pow (lt_of_le_of_lt Nat.and_le_right hM) (lt_of_le_of_lt Nat.and_le_right hN)

theorem reverseBits64_lt (x : Nat) : reverseBits64 x < 2 ^ 64 :=
  or_and_lt 64 _ _ _ _ (by decide) (by decide)

theorem reverseBits32_lt (x : Nat) : reverseBits32 x < 2 ^ 32 :=
  or_and_lt 32 _ _ _ _ (by decide) (by decide)

theorem uint64Swap_lt (x : Nat) : uint64Swap x < 2 ^ 64 :=
  or_and_lt 64 _ _ _ _ (by decide) (by decide)

theorem uint32Swap_lt (x : Nat) : uint32Swap x < 2 ^ 32 :=
  or_and_lt 32 _ _ _ _ (by decide) (by decide)

theorem uint16Swap_lt (x : Nat) : uint16Swap x < 2 ^ 16 :=
  Nat.mod_lt _ (by decide)

theorem byteOf_swap (n : Nat) (f : Nat → Nat) (x i : Nat) (hi : i < n)
    (h : ∀ j, j < 8 * n → (f x).testBit j = x.testBit (8 * (n - 1 - j / 8) + j % 8)) :
    byteOf (f x) i = byteOf x (n - 1 - i) := by
  unfold byteOf
  apply Nat.eq_of_testBit_eq
  intro m
  simp only [Nat.testBit_mod_two_pow, Nat.testBit_shiftRight]
  by_cases hm : m < 8
  · rw [h (8 * i + m) (by omega)]
    have e1 : (8 * i + m) / 8 = i := by omega
    have e2 : (8 * i + m) % 8 = m := by omega
    rw [e1, e2]
  · simp [hm]

theorem swap_swap (n : Nat) (f : Nat → Nat) (x : Nat) (hx : x < 2 ^ (8 * n))
    (hlt : ∀ y, f y < 2 ^ (8 * n))
    (h : ∀ y j, j < 8 * n → (f y).testBit j = y.testBit (8 * (n - 1 - j / 8) + j % 8)) :
    f (f x) = x := by
  apply eq_of_testBit_lt (8 * n) _ _ (hlt _) hx
  intro j hj
  rw [h _ j hj, h x _ (by omega)]
  congr 1
  omega

/-- C12: for every index `i` in [0,63], bit `i` of `reverseBits64 x` is bit `63 - i` of `x`, and for
every index `j` in [0,31], bit `j` of `reverseBits32 y` is bit `31 - j` of `y`. -/
theorem reverseBits_spec (x y i j : Nat) (hi : i ≤ 63) (hj : j ≤ 31) :
    (reverseBits64 x).testBit i = x.testBit (63 - i) ∧
    (reverseBits32 y).testBit j = y.testBit (31 - j) :=
  ⟨testBit_reverseBits64 x i (by omega), testBit_reverseBits32 y j (by omega)⟩

theorem reverseBits_spec_witness :
    (5 : Nat) ≤ 63 ∧ (3 : Nat) ≤ 31 ∧
    ((reverseBits64 0x0123456789abcdef).testBit 5 = (0x0123456789abcdef : Nat).testBit (63 - 5) ∧
     (reverseBits32 0x89abcdef).testBit 3 = (0x89abcdef : Nat).testBit (31 - 3)) :=
  ⟨by decide, by decide, reverseBits_spec 0x0123456789abcdef 0x89abcdef 5 3 (by decide) (by decide)⟩

/-- C13: bit reversal is an involution on 64-bit words (`reverseBits64`) and on 32-bit words
(`reverseBits32`). -/
theorem reverseBits_involution (x y : Nat) (hx : x < 2 ^ 64) (hy : y < 2 ^ 32) :
    reverseBits64 (reverseBits64 x) = x ∧ reverseBits32 (reverseBits32 y) = y := by
  constructor
  · apply eq_of_testBit_lt 64 _ _ (reverseBits64_lt _) hx
    intro j hj
    rw [testBit_reverseBits64 _ j hj, testBit_reverseBits64 x _ (by omega)]
    congr 1
    omega
  · apply eq_of_testBit_lt 32 _ _ (reverseBits32_lt _) hy
    intro j hj
    rw [testBit_reverseBits32 _ j hj, testBit_reverseBits32 y _ (by omega)]
    congr 1
    omega

theorem reverseBits_involution_witness :
    (0x0123456789abcdef : Nat) < 2 ^ 64 ∧ (0x89abcdef : Nat) < 2 ^ 32 ∧
    (reverseBits64 (reverseBits64 0x0123456789abcdef) = 0x0123456789abcdef ∧
     reverseBits32 (reverseBits32 0x89abcdef) = 0x89abcdef) :=
  ⟨by decide, by decide, reverseBits_involution 0x0123456789abcdef 0x89abcdef (by decide) (by decide)⟩

/-- C14: `uint64Swap`, `uint32Swap` and `uint16Swap` reverse the byte order of a word of 8, 4 and 2
bytes: byte `i` of the result is byte `n - 1 - i` of the argument; and each swap applied twice gives
the argument back. -/
theorem byteSwap_spec (x y z i j k : Nat) (hx : x < 2 ^ 64) (hy : y < 2 ^ 32) (hz : z < 2 ^ 16)
    (hi : i ≤ 7) (hj : j ≤ 3) (hk : k ≤ 1) :
    (byteOf (uint64Swap x) i = byteOf x (7 - i) ∧
     byteOf (uint32Swap y) j = byteOf y (3 - j) ∧
     byteOf (uint16Swap z) k = byteOf z (1 - k)) ∧
    (uint64Swap (uint64Swap x) = x ∧ uint32Swap (uint32Swap y) = y ∧
     uint16Swap (uint16Swap z) = z) :=
  ⟨⟨byteOf_swap 8 uint64Swap x i (by omega) (fun j hj => testBit_uint64Swap x j hj),
    byteOf_swap 4 uint32Swap y j (by omega) (fun j hj => testBit_uint32Swap y j hj),
    byteOf_swap 2 uint16Swap z k (by omega) (fun j hj => testBit_uint16Swap z j hj)⟩,
   swap_swap 8 uint64Swap x hx uint64Swap_lt (fun y j hj => testBit_uint64Swap y j hj),
   swap_swap 4 uint32Swap y hy uint32Swap_lt (fun y j hj => testBit_uint32Swap y j hj),
   swap_swap 2 uint16Swap z hz uint16Swap_lt (fun y j hj => testBit_uint16Swap y j hj)⟩

theorem byteSwap_spec_witness :
    (uint64Swap 0x0123456789abcdef = 0xefcdab8967452301 ∧ uint32Swap 0x01234567 = 0x67452301 ∧
     uint16Swap 0x0123 = 0x2301) ∧
    ((byteOf (uint64Swap 0x0123456789abcdef) 2 = byteOf 0x0123456789abcdef (7 - 2) ∧
      byteOf (uint32Swap 0x01234567) 1 = byteOf 0x01234567 (3 - 1) ∧
      byteOf (uint16Swap 0x0123) 0 = byteOf 0x0123 (1 - 0)) ∧
     (uint64Swap (uint64Swap 0x0123456789abcdef) = 0x0123456789abcdef ∧
      uint32Swap (uint32Swap 0x01234567) = 0x01234567 ∧
      uint16Swap (uint16Swap 0x0123) = 0x0123)) :=
  ⟨by decide, byteSwap_spec 0x0123456789abcdef 0x01234567 0x0123 2 1 0 (by decide) (by decide)
    (by decide) (by decide) (by decide) (by decide)⟩
theorem countNumberOfSetBits64_stages (x : Nat) :
    countNumberOfSetBits64 x = addFieldsAll 64 (popStages 6).2 x := by
  have e : (popStages 6).2 = [(1, 0x5555555555555555), (2, 0x3333333333333333),
      (4, 0x0f0f0f0f0f0f0f0f), (8, 0x00ff00ff00ff00ff), (16, 0x0000ffff0000ffff),
      (32, 0x00000000ffffffff)] := by decide
  rw [e]
  rfl

theorem countNumberOfSetBits32_stages (x : Nat) :
    countNumberOfSetBits32 x = addFieldsAll 32 (popStages 5).2 x := by
  have e : (popStages 5).2 = [(1, 0x55555555), (2, 0x33333333),
      (4, 0x0f0f0f0f), (8, 0x00ff00ff), (16, 0x0000ffff)] := by decide
  rw [e]
  rfl

theorem and_split (n a b c d : Nat) (hb : b < 2 ^ n) (hd : d < 2 ^ n) :
    (2 ^ n * a + b) &&& (2 ^ n * c + d) = 2 ^ n * (a &&& c) + (b &&& d) := by
  apply Nat.eq_of_testBit_eq
  intro j
  rw [Nat.testBit_and, Nat.testBit_mul_pow_two_add _ hb, Nat.testBit_mul_pow_two_add _ hd,
    Nat.testBit_mul_pow_two_add _ (lt_of_le_of_lt Nat.and_le_left hb)]
  split <;> simp [Nat.testBit_and]

theorem shift_and_split (n k a b c d : Nat) (hb : b < 2 ^ n) (hd : d < 2 ^ (n - k)) (hk : k ≤ n) :
    ((2 ^ n * a + b) >>> k) &&& (2 ^ n * c + d) = 2 ^ n * ((a >>> k) &&& c) + ((b >>> k) &&& d) := by
  have hd' : d < 2 ^ n := lt_of_lt_of_le hd (Nat.pow_le_pow_right (by decide) (by omega))
  apply Nat.eq_of_testBit_eq
  intro j
  rw [Nat.testBit_and, Nat.testBit_shiftRight, Nat.testBit_mul_pow_two_add _ hb,
    Nat.testBit_mul_pow_two_add _ hd',
    Nat.testBit_mul_pow_two_add _ (lt_of_le_of_lt Nat.and_le_right hd')]
  by_cases hj : j < n
  · simp only [hj, if_true, Nat.testBit_and, Nat.testBit_shiftRight]
    by_cases hkj : k + j < n
    · simp [hkj]
    · have : d.testBit j = false :=
        Nat.testBit_lt_two_pow (lt_of_lt_of_le hd (Nat.pow_le_pow_right (by decide) (by omega)))
      simp [this]
  · have h1 : ¬ k + j < n := by omega
    simp only [hj, h1, if_false, Nat.testBit_and, Nat.testBit_shiftRight]
    congr 2
    omega
theorem addFields_split (n k M h l : Nat) (hl : l < 2 ^ n) (hM : M < 2 ^ (n - k)) (hk : k ≤ n) :
    addFields k (2 ^ n * M + M) (2 ^ n * h + l) = 2 ^ n * addFields k M h + addFields k M l := by
  have hM' : M < 2 ^ n := lt_of_lt_of_le hM (Nat.pow_le_pow_right (by decide) (by omega))
  unfold addFields
  rw [shift_and_split n k h l M M hl hM hk, and_split n h l M M hl hM']
  ring

theorem addFields_lt (n k M x : Nat) (hM : M < 2 ^ (n - k)) (hk1 : 1 ≤ k) (hk : k ≤ n) :
    addFields k M x < 2 ^ n := by
  unfold addFields
  have h1 : (x >>> k) &&& M ≤ M := Nat.and_le_right
  have h2 : x &&& M ≤ M := Nat.and_le_right
  have h3 : 2 ^ (n - k) * 2 ≤ 2 ^ n := by
    rw [← Nat.pow_succ]
    exact Nat.pow_le_pow_right (by decide) (by omega)
  omega

theorem addFieldsAll_split (n : Nat) : ∀ (stages : List (Nat × Nat)),
    (∀ p ∈ stages, 1 ≤ p.1 ∧ p.1 ≤ n ∧ p.2 < 2 ^ (n - p.1)) → ∀ (h l : Nat), l < 2 ^ n →
    addFieldsAll (n + n) (stages.map (fun p => (p.1, 2 ^ n * p.2 + p.2))) (2 ^ n * h + l) =
      2 ^ n * addFieldsAll n stages h + addFieldsAll n stages l := by
  intro stages
  induction stages with
  | nil => intro _ h l _; rfl
  | cons p ps ih =>
    intro hst h l hl
    obtain ⟨k1, k2, k3⟩ := hst p (List.mem_cons_self _ _)
    have a1 := addFields_lt n p.1 p.2 h k3 k1 k2
    have a2 := addFields_lt n p.1 p.2 l k3 k1 k2
    have e : addFields p.1 (2 ^ n * p.2 + p.2) (2 ^ n * h + l) % 2 ^ (n + n) =
        2 ^ n * addFields p.1 p.2 h + addFields p.1 p.2 l := by
      rw [addFields_split n p.1 p.2 h l hl k3 k2]
      apply Nat.mod_eq_of_lt
      rw [Nat.pow_add]
      calc 2 ^ n * addFields p.1 p.2 h + addFields p.1 p.2 l
          < 2 ^ n * addFields p.1 p.2 h + 2 ^ n := by omega
        _ = 2 ^ n * (addFields p.1 p.2 h + 1) := by ring
        _ ≤ 2 ^ n * 2 ^ n := Nat.mul_le_mul_left _ a1
    show addFieldsAll (n + n) (ps.map _) (addFields p.1 (2 ^ n * p.2 + p.2) (2 ^ n * h + l) % 2 ^ (n + n)) =
      2 ^ n * addFieldsAll n ps (addFields p.1 p.2 h % 2 ^ n) +
        addFieldsAll n ps (addFields p.1 p.2 l % 2 ^ n)
    rw [e, Nat.mod_eq_of_lt a1, Nat.mod_eq_of_lt a2]
    exact ih (fun q hq => hst q (List.mem_cons_of_mem _ hq)) _ _ a2

theorem addFields_halves (n H L : Nat) (hn : 1 ≤ n) (hH : H < 2 ^ n) (hL : L < 2 ^ n) :
    addFields n (2 ^ n - 1) (2 ^ n * H + L) % 2 ^ (n + n) = H + L := by
  have e1 : (2 ^ n * H + L) >>> n = H := by
    rw [Nat.shiftRight_eq_div_pow, Nat.mul_add_div (Nat.two_pow_pos n), Nat.div_eq_of_lt hL]
    rfl
  have e2 : (2 ^ n * H + L) % 2 ^ n = L := by
    rw [Nat.mul_add_mod, Nat.mod_eq_of_lt hL]
  unfold addFields
  rw [e1, Nat.and_pow_two_sub_one_eq_mod, Nat.and_pow_two_sub_one_eq_mod, e2, Nat.mod_eq_of_lt hH]
  apply Nat.mod_eq_of_lt
  have : 2 ^ n * 2 ≤ 2 ^ n * 2 ^ n := Nat.mul_le_mul_left _ (by
    calc 2 = 2 ^ 1 := rfl
      _ ≤ 2 ^ n := Nat.pow_le_pow_right (by decide) hn)
  rw [Nat.pow_add]
  omega

theorem numberOfSetBits_split (n m h l : Nat) (hl : l < 2 ^ n) :
    numberOfSetBits (n + m) (2 ^ n * h + l) = numberOfSetBits n l + numberOfSetBits m h := by
  unfold numberOfSetBits
  rw [List.range_add, List.countP_append, List.countP_map]
  congr 1
  · apply List.countP_congr
    intro i hi
    rw [Nat.testBit_mul_pow_two_add _ hl, if_pos (List.mem_range.1 hi)]
  · apply List.countP_congr
    intro i _
    simp only [Function.comp]
    rw [Nat.testBit_mul_pow_two_add _ hl, if_neg (by omega)]
    simp

theorem numberOfSetBits_le (W x : Nat) : numberOfSetBits W x ≤ W := by
  unfold numberOfSetBits
  have := List.countP_le_length (fun i => x.testBit i) (l := List.range W)
  simpa using this
theorem addFieldsAll_append (W : Nat) (a b : List (Nat × Nat)) (x : Nat) :
    addFieldsAll W (a ++ b) x = addFieldsAll W b (addFieldsAll W a x) := by
  unfold addFieldsAll
  rw [List.foldl_append]

theorem popStages_bounds : ∀ j, 1 ≤ (popStages j).1 ∧
    ∀ p ∈ (popStages j).2, 1 ≤ p.1 ∧ p.1 ≤ (popStages j).1 ∧ p.2 < 2 ^ ((popStages j).1 - p.1) := by
  intro j
  induction j with
  | zero => exact ⟨le_refl _, fun p hp => by cases hp⟩
  | succ j ih =>
    obtain ⟨hn, hst⟩ := ih
    refine ⟨by show 1 ≤ (popStages j).1 + (popStages j).1; omega, ?_⟩
    intro p hp
    show 1 ≤ p.1 ∧ p.1 ≤ (popStages j).1 + (popStages j).1 ∧
      p.2 < 2 ^ ((popStages j).1 + (popStages j).1 - p.1)
    have hp' : p ∈ (popStages j).2.map (fun p => (p.1, 2 ^ (popStages j).1 * p.2 + p.2)) ++
        [((popStages j).1, 2 ^ (popStages j).1 - 1)] := hp
    generalize (popStages j).1 = m at hn hst hp' ⊢
    rcases List.mem_append.1 hp' with h | h
    · obtain ⟨q, hq, rfl⟩ := List.mem_map.1 h
      obtain ⟨k1, k2, k3⟩ := hst q hq
      refine ⟨k1, by show q.1 ≤ m + m; omega, ?_⟩
      show 2 ^ m * q.2 + q.2 < 2 ^ (m + m - q.1)
      have e : m + m - q.1 = m + (m - q.1) := by omega
      have h1 : 2 ^ (m - q.1) ≤ 2 ^ m := Nat.pow_le_pow_right (by decide) (by omega)
      have h2 : 2 ^ m * (q.2 + 1) ≤ 2 ^ m * 2 ^ (m - q.1) := Nat.mul_le_mul_left _ k3
      rw [e, Nat.pow_add]
      rw [Nat.mul_add, Nat.mul_one] at h2
      omega
    · rw [List.mem_singleton] at h
      subst h
      refine ⟨hn, by show m ≤ m + m; omega, ?_⟩
      show 2 ^ m - 1 < 2 ^ (m + m - m)
      rw [Nat.add_sub_cancel]
      have := Nat.two_pow_pos m
      omega

theorem addFieldsAll_popStages : ∀ j x, x < 2 ^ (popStages j).1 →
    addFieldsAll (popStages j).1 (popStages j).2 x = numberOfSetBits (popStages j).1 x := by
  intro j
  induction j with
  | zero =>
    intro x hx
    have hx' : x < 2 := hx
    interval_cases x <;> decide
  | succ j ih =>
    intro x hx
    obtain ⟨hn, hst⟩ := popStages_bounds j
    show addFieldsAll ((popStages j).1 + (popStages j).1)
      ((popStages j).2.map (fun p => (p.1, 2 ^ (popStages j).1 * p.2 + p.2)) ++
        [((popStages j).1, 2 ^ (popStages j).1 - 1)]) x =
      numberOfSetBits ((popStages j).1 + (popStages j).1) x
    have hx' : x < 2 ^ ((popStages j).1 + (popStages j).1) := hx
    generalize (popStages j).1 = m at hn hst ih hx' ⊢
    generalize (popStages j).2 = st at hst ih ⊢
    have hl : x % 2 ^ m < 2 ^ m := Nat.mod_lt _ (Nat.two_pow_pos m)
    have hh : x / 2 ^ m < 2 ^ m := by
      rw [Nat.div_lt_iff_lt_mul (Nat.two_pow_pos m), ← Nat.pow_add]
      exact hx'
    have ex : x = 2 ^ m * (x / 2 ^ m) + x % 2 ^ m := (Nat.div_add_mod x (2 ^ m)).symm
    generalize x / 2 ^ m = h at hh ex
    generalize x % 2 ^ m = l at hl ex
    subst ex
    rw [addFieldsAll_append, addFieldsAll_split m st hst h l hl, ih h hh, ih l hl,
      numberOfSetBits_split m m h l hl]
    have b1 : numberOfSetBits m h < 2 ^ m := lt_of_le_of_lt (numberOfSetBits_le m h) (Nat.lt_two_pow m)
    have b2 : numberOfSetBits m l < 2 ^ m := lt_of_le_of_lt (numberOfSetBits_le m l) (Nat.lt_two_pow m)
    show addFields m (2 ^ m - 1) (2 ^ m * numberOfSetBits m h + numberOfSetBits m l) % 2 ^ (m + m) = _
    rw [addFields_halves m _ _ hn b1 b2, Nat.add_comm]

/-- C11: for every 64-bit `x`, `countNumberOfSetBits64 x` is the number of set bits of `x`, and for
every 32-bit `y`, `countNumberOfSetBits32 y` is the number of set bits of `y`; both give 0 at 0. -/
theorem countNumberOfSetBits_spec (x y : Nat) (hx : x < 2 ^ 64) (hy : y < 2 ^ 32) :
    countNumberOfSetBits64 x = numberOfSetBits 64 x ∧
    countNumberOfSetBits32 y = numberOfSetBits 32 y ∧
    countNumberOfSetBits64 0 = 0 ∧ countNumberOfSetBits32 0 = 0 := by
  refine ⟨?_, ?_, by decide, by decide⟩
  · rw [countNumberOfSetBits64_stages]
    exact addFieldsAll_popStages 6 x hx
  · rw [countNumberOfSetBits32_stages]
    exact addFieldsAll_popStages 5 y hy

theorem countNumberOfSetBits_spec_witness :
    (numberOfSetBits 64 0xf0f0000000000001 = 9 ∧ numberOfSetBits 32 0x80000003 = 3) ∧
    (countNumberOfSetBits64 0xf0f0000000000001 = numberOfSetBits 64 0xf0f0000000000001 ∧
     countNumberOfSetBits32 0x80000003 = numberOfSetBits 32 0x80000003 ∧
     countNumberOfSetBits64 0 = 0 ∧ countNumberOfSetBits32 0 = 0) :=
  ⟨by decide, countNumberOfSetBits_spec 0xf0f0000000000001 0x80000003 (by decide) (by decide)⟩
theorem expandTo3_eq (v : Nat) :
    expandTo3 v = if v &&& 0xffffc0000000000 = 0 then some (expandWord v) else none := rfl

theorem compressTo2_eq (v : Nat) :
    compressTo2 v = if compressWord v &&& 0xffffc0000000000 = 0 then some (compressWord v) else none := rfl

theorem testBit_foldl_or (f : Nat × Nat → Nat) (j : Nat) : ∀ (l : List (Nat × Nat)) (a : Nat),
    (l.foldl (fun o p => o ||| f p) a).testBit j = (a.testBit j || l.any (fun p => (f p).testBit j)) := by
  intro l
  induction l with
  | nil => intro a; simp
  | cons p ps ih =>
    intro a
    rw [List.foldl_cons, ih, Nat.testBit_or, List.any_cons, Bool.or_assoc]

theorem any_filter_snd (c : Nat × Nat → Bool) (g : Nat → Bool) : ∀ (l : List (Nat × Nat)),
    l.any (fun p => c p && g p.2) = ((l.filter c).map Prod.snd).any g := by
  intro l
  induction l with
  | nil => rfl
  | cons p ps ih =>
    rw [List.any_cons, ih, List.filter_cons]
    cases h : c p <;> simp

theorem expandTable : ∀ j, j < 64 →
    (expandTerms.filter (fun p => decide (p.2 ≤ j) && p.1.testBit (j - p.2))).map Prod.snd =
      if j < 63 ∧ j % 3 ≠ 2 then [j / 3] else [] := by
  decide

theorem compressTable : ∀ j, j < 64 →
    (compressTerms.filter (fun p => p.1.testBit (j + p.2))).map Prod.snd =
      if j < 42 then [j / 2] else [] := by
  decide

theorem testBit_expandWord (v j : Nat) :
    (expandWord v).testBit j = (decide (j < 63 ∧ j % 3 ≠ 2) && v.testBit (j - j / 3)) := by
  have e : (expandWord v).testBit j = expandTerms.any (fun p =>
      (((v &&& p.1) <<< p.2) % 2 ^ 64).testBit j) := by
    unfold expandWord
    rw [testBit_foldl_or (fun p => ((v &&& p.1) <<< p.2) % 2 ^ 64)]
    rfl
  rw [e]
  by_cases hj : j < 64
  · have e2 : (fun (p : Nat × Nat) => (((v &&& p.1) <<< p.2) % 2 ^ 64).testBit j) =
        (fun p => (decide (p.2 ≤ j) && p.1.testBit (j - p.2)) &&
          (fun s => v.testBit (j - s)) p.2) := by
      funext p
      simp only [Nat.testBit_mod_two_pow, Nat.testBit_shiftLeft, Nat.testBit_and, hj, decide_True,
        Bool.true_and, ge_iff_le]
      cases v.testBit (j - p.2) <;> cases p.1.testBit (j - p.2) <;> simp
    rw [e2]
    refine (any_filter_snd (fun p => decide (p.2 ≤ j) && p.1.testBit (j - p.2))
      (fun s => v.testBit (j - s)) expandTerms).trans ?_
    rw [expandTable j hj]
    split <;> simp_all
  · have e2 : (fun (p : Nat × Nat) => (((v &&& p.1) <<< p.2) % 2 ^ 64).testBit j) =
        (fun _ => false) := by
      funext p
      rw [Nat.testBit_mod_two_pow]
      simp [hj]
    rw [e2]
    have : ¬ (j < 63 ∧ j % 3 ≠ 2) := by omega
    simp [this]

theorem compressTerms_lt : ∀ p ∈ compressTerms, p.1 < 2 ^ 64 := by decide

theorem testBit_compressWord (v j : Nat) :
    (compressWord v).testBit j = (decide (j < 42) && v.testBit (j + j / 2)) := by
  have e : (compressWord v).testBit j = compressTerms.any (fun p =>
      ((v &&& p.1) >>> p.2).testBit j) := by
    unfold compressWord
    rw [testBit_foldl_or (fun p => (v &&& p.1) >>> p.2)]
    rfl
  rw [e]
  by_cases hj : j < 64
  · have e2 : (fun (p : Nat × Nat) => ((v &&& p.1) >>> p.2).testBit j) =
        (fun p => (p.1.testBit (j + p.2)) && (fun s => v.testBit (j + s)) p.2) := by
      funext p
      simp only [Nat.testBit_shiftRight, Nat.testBit_and, Nat.add_comm p.2 j]
      cases v.testBit (j + p.2) <;> cases p.1.testBit (j + p.2) <;> simp
    rw [e2]
    refine (any_filter_snd (fun p => p.1.testBit (j + p.2))
      (fun s => v.testBit (j + s)) compressTerms).trans ?_
    rw [compressTable j hj]
    split <;> simp_all
  · have h42 : ¬ j < 42 := by omega
    simp only [h42, decide_False, Bool.false_and]
    rw [List.any_eq_false]
    intro p hp
    simp only [Nat.testBit_shiftRight, Nat.testBit_and, Bool.and_eq_true, not_and, Bool.not_eq_true]
    intro _
    exact Nat.testBit_lt_two_pow (lt_of_lt_of_le (compressTerms_lt p hp)
      (Nat.pow_le_pow_right (by decide) (by omega)))
theorem assertMask_zero (a : Nat) (ha : a < 2 ^ 42) : a &&& 0xffffc0000000000 = 0 := by
  apply Nat.eq_of_testBit_eq
  intro j
  rw [Nat.testBit_and, Nat.zero_testBit]
  by_cases hj : j < 42
  · have : (0xffffc0000000000 : Nat).testBit j = false := by
      revert j; decide
    rw [this, Bool.and_false]
  · rw [Nat.testBit_lt_two_pow (lt_of_lt_of_le ha (Nat.pow_le_pow_right (by decide) (by omega))),
      Bool.false_and]

theorem compressWord_lt (v : Nat) : compressWord v < 2 ^ 42 := by
  apply Nat.lt_pow_two_of_testBit
  intro j hj
  rw [testBit_compressWord]
  have : ¬ j < 42 := by omega
  simp [this]

theorem expandTo3_some (v : Nat) (hv : v < 2 ^ 42) : expandTo3 v = some (expandWord v) := by
  rw [expandTo3_eq, if_pos (assertMask_zero v hv)]

theorem compressTo2_some (v : Nat) : compressTo2 v = some (compressWord v) := by
  rw [compressTo2_eq, if_pos (assertMask_zero _ (compressWord_lt v))]

/-- C15: for every `v < 2^42`, `expandTo3 v` passes its assertion, `compressTo2` of the result
passes its assertion too, and gives back `v`. -/
theorem compressTo2_expandTo3 (v : Nat) (hv : v < 2 ^ 42) :
    ∃ o, expandTo3 v = some o ∧ compressTo2 o = some v := by
  refine ⟨expandWord v, expandTo3_some v hv, ?_⟩
  rw [compressTo2_some]
  congr 1
  apply Nat.eq_of_testBit_eq
  intro j
  rw [testBit_compressWord, testBit_expandWord]
  by_cases hj : j < 42
  · have h1 : j + j / 2 < 63 ∧ (j + j / 2) % 3 ≠ 2 := by omega
    have h2 : j + j / 2 - (j + j / 2) / 3 = j := by omega
    simp [hj, h1, h2]
  · have hb := Nat.testBit_lt_two_pow
      (lt_of_lt_of_le hv (Nat.pow_le_pow_right (by decide) (by omega) : 2 ^ 42 ≤ 2 ^ j))
    simp [hj, hb]

theorem compressTo2_expandTo3_witness :
    expandTo3 0x2e4 = some 0x2688 ∧ ∃ o, expandTo3 0x2e4 = some o ∧ compressTo2 o = some 0x2e4 :=
  ⟨by decide, compressTo2_expandTo3 0x2e4 (by decide)⟩

/-- C16: for every `v < 2^42`, `expandTo3 v` returns a word `o` in which, for every `i` in [0,20],
the octal digit `i` is the base-4 digit `i` of `v` (the 3-bit field at bits `3i..3i+2` is the 2-bit
field at bits `2i..2i+1` of `v`, its top bit being zero), and bit 63 is zero. -/
theorem expandTo3_fields (v i : Nat) (hv : v < 2 ^ 42) (hi : i ≤ 20) :
    ∃ o, expandTo3 v = some o ∧ o / 8 ^ i % 8 = v / 4 ^ i % 4 ∧
      o.testBit (3 * i) = v.testBit (2 * i) ∧ o.testBit (3 * i + 1) = v.testBit (2 * i + 1) ∧
      o.testBit (3 * i + 2) = false ∧ o.testBit 63 = false := by
  refine ⟨expandWord v, expandTo3_some v hv, ?_, ?_, ?_, ?_, ?_⟩
  · have e8 : (8 : Nat) ^ i = 2 ^ (3 * i) := by rw [Nat.pow_mul]
    have e4 : (4 : Nat) ^ i = 2 ^ (2 * i) := by rw [Nat.pow_mul]
    rw [e8, e4, ← Nat.shiftRight_eq_div_pow, ← Nat.shiftRight_eq_div_pow]
    show expandWord v >>> (3 * i) % 2 ^ 3 = v >>> (2 * i) % 2 ^ 2
    apply Nat.eq_of_testBit_eq
    intro m
    simp only [Nat.testBit_mod_two_pow, Nat.testBit_shiftRight, testBit_expandWord]
    by_cases h0 : m < 2
    · have h1 : 3 * i + m < 63 ∧ (3 * i + m) % 3 ≠ 2 := by omega
      have h2 : 3 * i + m - (3 * i + m) / 3 = 2 * i + m := by omega
      have h3 : m < 3 := by omega
      simp [h0, h1, h2, h3]
    · have h1 : ¬ (3 * i + m < 63 ∧ (3 * i + m) % 3 ≠ 2) ∨ ¬ m < 3 := by omega
      rcases h1 with h1 | h1 <;> simp [h0, h1]
  · rw [testBit_expandWord]
    have h1 : 3 * i < 63 ∧ (3 * i) % 3 ≠ 2 := by omega
    have h2 : 3 * i - 3 * i / 3 = 2 * i := by omega
    rw [decide_eq_true h1, Bool.true_and, h2]
  · rw [testBit_expandWord]
    have h1 : 3 * i + 1 < 63 ∧ (3 * i + 1) % 3 ≠ 2 := by omega
    have h2 : 3 * i + 1 - (3 * i + 1) / 3 = 2 * i + 1 := by omega
    rw [decide_eq_true h1, Bool.true_and, h2]
  · rw [testBit_expandWord]
    have h1 : ¬ (3 * i + 2 < 63 ∧ (3 * i + 2) % 3 ≠ 2) := by omega
    simp [h1]
  · rw [testBit_expandWord]
    simp

theorem expandTo3_fields_witness :
    ∃ o, expandTo3 0x2e4 = some o ∧ o / 8 ^ 3 % 8 = 0x2e4 / 4 ^ 3 % 4 ∧
      o.testBit (3 * 3) = (0x2e4 : Nat).testBit (2 * 3) ∧
      o.testBit (3 * 3 + 1) = (0x2e4 : Nat).testBit (2 * 3 + 1) ∧
      o.testBit (3 * 3 + 2) = false ∧ o.testBit 63 = false :=
  expandTo3_fields 0x2e4 3 (by decide) (by decide)
theorem shiftCount32 (W n : Nat) (hW : W < 2 ^ 32) (hn : 0 < n) (hnW : n ≤ W) :
    (W + 2 ^ 32 - n) % 2 ^ 32 = W - n := by
  have : W + 2 ^ 32 - n = (W - n) + 2 ^ 32 := by omega
  rw [this, Nat.add_mod_right]
  exact Nat.mod_eq_of_lt (by omega)

theorem testBit_clearLeftBits (W oob v n i : Nat) :
    (clearLeftBits W oob v n).testBit i = (v.testBit i && decide (i + n < W)) := by
  unfold clearLeftBits
  split
  · next h =>
    have : ¬ i + n < W := by omega
    simp [this]
  · next h =>
    rw [Nat.testBit_and, testBit_shrW_ones W oob n i (by omega), Nat.add_comm]

theorem testBit_clearRightBits (W oob v n i : Nat) :
    (clearRightBits W oob v n).testBit i = (v.testBit i && decide (n ≤ i ∧ i < W)) := by
  unfold clearRightBits
  split
  · next h =>
    have : ¬ (n ≤ i ∧ i < W) := by omega
    simp [this]
  · next h =>
    rw [Nat.testBit_and, testBit_shlW_ones W oob n i (by omega)]

theorem testBit_saveRightBits (W oob v n i : Nat) (hW : W < 2 ^ 32) (hn : n ≤ W) :
    (saveRightBits W oob v n).testBit i = (v.testBit i && decide (i < n)) := by
  unfold saveRightBits
  split
  · next h => subst h; simp
  · next h =>
    rw [shiftCount32 W n hW (by omega) hn, Nat.testBit_and, testBit_shrW_ones W oob _ i (by omega)]
    congr 1
    rw [Bool.eq_iff_iff]
    simp
    omega

theorem testBit_saveLeftBits (W oob v n i : Nat) (hW : W < 2 ^ 32) (hn : n ≤ W) :
    (saveLeftBits W oob v n).testBit i = (v.testBit i && decide (W ≤ i + n ∧ i < W)) := by
  unfold saveLeftBits
  split
  · next h =>
    subst h
    have : ¬ (W ≤ i + 0 ∧ i < W) := by omega
    simp [this]
  · next h =>
    rw [shiftCount32 W n hW (by omega) hn, Nat.testBit_and, testBit_shlW_ones W oob _ i (by omega)]
    congr 1
    rw [Bool.eq_iff_iff]
    simp only [decide_eq_true_iff]
    omega

theorem testBit_sub_mod (v k i : Nat) :
    (v - v % 2 ^ k).testBit i = (v.testBit i && decide (k ≤ i)) := by
  have e : v - v % 2 ^ k = (v >>> k) <<< k := by
    rw [Nat.shiftLeft_eq, Nat.shiftRight_eq_div_pow]
    have := Nat.div_add_mod v (2 ^ k)
    rw [Nat.mul_comm] at this
    omega
  rw [e, Nat.testBit_shiftLeft, Nat.testBit_shiftRight]
  by_cases h : k ≤ i
  · have : k + (i - k) = i := by omega
    simp [h, this]
  · simp [h]

theorem testBit_high (W v i : Nat) (hv : v < 2 ^ W) (hi : W ≤ i) : v.testBit i = false :=
  Nat.testBit_lt_two_pow (lt_of_lt_of_le hv (Nat.pow_le_pow_right (by decide) hi))

theorem clearSaveBits_eq (W oob v n : Nat) (hW : W < 2 ^ 32) (hv : v < 2 ^ W) (hn : n ≤ W) :
    clearLeftBits W oob v n = v % 2 ^ (W - n) ∧ saveRightBits W oob v n = v % 2 ^ n ∧
    clearRightBits W oob v n = v - v % 2 ^ n ∧ saveLeftBits W oob v n = v - v % 2 ^ (W - n) := by
  refine ⟨?_, ?_, ?_, ?_⟩ <;> apply Nat.eq_of_testBit_eq <;> intro i
  · rw [testBit_clearLeftBits, Nat.testBit_mod_two_pow, Bool.and_comm]
    congr 1
    rw [Bool.eq_iff_iff]
    simp
    omega
  · rw [testBit_saveRightBits W oob v n i hW hn, Nat.testBit_mod_two_pow, Bool.and_comm]
  · rw [testBit_clearRightBits, testBit_sub_mod]
    by_cases hi : i < W
    · congr 1
      rw [Bool.eq_iff_iff]
      simp
      omega
    · rw [testBit_high W v i hv (by omega)]
      simp
  · rw [testBit_saveLeftBits W oob v n i hW hn, testBit_sub_mod]
    by_cases hi : i < W
    · congr 1
      rw [Bool.eq_iff_iff]
      simp
      omega
    · rw [testBit_high W v i hv (by omega)]
      simp

/-- C17: for the 64-bit and the 128-bit overloads (width `W`), every word `v` and every `n` in
[0, W]: `clearLeftBits(v, n) = v mod 2^(W-n)`, `saveRightBits(v, n) = v mod 2^n`,
`clearRightBits(v, n) = v - (v mod 2^n)` and `saveLeftBits(v, n) = v - (v mod 2^(W-n))`. -/
theorem clearSaveBits_spec (oob v w n m : Nat) (hv : v < 2 ^ 64) (hw : w < 2 ^ 128)
    (hn : n ≤ 64) (hm : m ≤ 128) :
    (clearLeftBits 64 oob v n = v % 2 ^ (64 - n) ∧ saveRightBits 64 oob v n = v % 2 ^ n ∧
     clearRightBits 64 oob v n = v - v % 2 ^ n ∧ saveLeftBits 64 oob v n = v - v % 2 ^ (64 - n)) ∧
    (clearLeftBits 128 oob w m = w % 2 ^ (128 - m) ∧ saveRightBits 128 oob w m = w % 2 ^ m ∧
     clearRightBits 128 oob w m = w - w % 2 ^ m ∧ saveLeftBits 128 oob w m = w - w % 2 ^ (128 - m)) :=
  ⟨clearSaveBits_eq 64 oob v n (by decide) hv hn, clearSaveBits_eq 128 oob w m (by decide) hw hm⟩

theorem clearSaveBits_spec_witness :
    (clearLeftBits 64 0 0xfedcba9876543210 8 = 0xdcba9876543210 ∧
     saveLeftBits 64 0 0xfedcba9876543210 8 = 0xfe00000000000000) ∧
    ((clearLeftBits 64 0 0xfedcba9876543210 8 = 0xfedcba9876543210 % 2 ^ (64 - 8) ∧
      saveRightBits 64 0 0xfedcba9876543210 8 = 0xfedcba9876543210 % 2 ^ 8 ∧
      clearRightBits 64 0 0xfedcba9876543210 8 = 0xfedcba9876543210 - 0xfedcba9876543210 % 2 ^ 8 ∧
      saveLeftBits 64 0 0xfedcba9876543210 8 =
        0xfedcba9876543210 - 0xfedcba9876543210 % 2 ^ (64 - 8)) ∧
     (clearLeftBits 128 0 (2 ^ 127 + 5) 128 = (2 ^ 127 + 5) % 2 ^ (128 - 128) ∧
      saveRightBits 128 0 (2 ^ 127 + 5) 128 = (2 ^ 127 + 5) % 2 ^ 128 ∧
      clearRightBits 128 0 (2 ^ 127 + 5) 128 = (2 ^ 127 + 5) - (2 ^ 127 + 5) % 2 ^ 128 ∧
      saveLeftBits 128 0 (2 ^ 127 + 5) 128 = (2 ^ 127 + 5) - (2 ^ 127 + 5) % 2 ^ (128 - 128))) :=
  ⟨by decide, clearSaveBits_spec 0 0xfedcba9876543210 (2 ^ 127 + 5) 8 128 (by decide) (by decide)
    (by decide) (by decide)⟩

theorem middleBits_eq (W oob v l r : Nat) (hW : W < 2 ^ 32) (hv : v < 2 ^ W) (hl : l ≤ W)
    (hr : r ≤ W) :
    (∀ i, (saveMiddleBits W oob v l r).testBit i = (decide (r ≤ i ∧ i + l < W) && v.testBit i)) ∧
    (∀ i, (clearMiddleBits W oob v l r).testBit i =
      (decide (i < r ∨ W ≤ i + l) && v.testBit i)) ∧
    saveMiddleBits W oob v l r ||| clearMiddleBits W oob v l r = v ∧
    saveMiddleBits W oob v l r &&& clearMiddleBits W oob v l r = 0 := by
  have hs : ∀ i, (saveMiddleBits W oob v l r).testBit i =
      (decide (r ≤ i ∧ i + l < W) && v.testBit i) := by
    intro i
    unfold saveMiddleBits
    rw [Nat.testBit_and, testBit_clearRightBits, testBit_clearLeftBits]
    cases v.testBit i
    · simp
    · simp only [Bool.true_and, Bool.and_true, ← Bool.decide_and]
      congr 1
      apply propext
      constructor <;> intro h <;> omega
  have hc : ∀ i, (clearMiddleBits W oob v l r).testBit i =
      (decide (i < r ∨ W ≤ i + l) && v.testBit i) := by
    intro i
    unfold clearMiddleBits
    rw [Nat.testBit_or, testBit_saveRightBits W oob v r i hW hr,
      testBit_saveLeftBits W oob v l i hW hl]
    by_cases hi : i < W
    · cases v.testBit i
      · simp
      · simp only [Bool.true_and, Bool.and_true, ← Bool.decide_or]
        congr 1
        apply propext
        constructor <;> intro h <;> omega
    · rw [testBit_high W v i hv (by omega)]
      simp
  refine ⟨hs, hc, ?_, ?_⟩ <;> apply Nat.eq_of_testBit_eq <;> intro i
  · rw [Nat.testBit_or, hs, hc]
    cases v.testBit i
    · simp
    · simp only [Bool.and_true, ← Bool.decide_or]
      rw [decide_eq_true]
      omega
  · rw [Nat.testBit_and, hs, hc, Nat.zero_testBit]
    cases v.testBit i
    · simp
    · simp only [Bool.and_true, ← Bool.decide_and]
      rw [decide_eq_false]
      omega
/-- C18: for every 64-bit `v` and `l`, `r` in [0,64], `saveMiddleBits(v, l, r)` has exactly the bits
of `v` at the positions `r..63-l`, `clearMiddleBits(v, l, r)` has exactly the bits of `v` among the
leftmost `l` and the rightmost `r` positions, their OR is `v` and their AND is 0; the 128-bit
overloads satisfy the same with 128 in place of 64. -/
theorem middleBits_spec (oob v w l r l2 r2 : Nat) (hv : v < 2 ^ 64) (hw : w < 2 ^ 128)
    (hl : l ≤ 64) (hr : r ≤ 64) (hl2 : l2 ≤ 128) (hr2 : r2 ≤ 128) :
    ((∀ i, (saveMiddleBits 64 oob v l r).testBit i = (decide (r ≤ i ∧ i + l < 64) && v.testBit i)) ∧
     (∀ i, (clearMiddleBits 64 oob v l r).testBit i =
       (decide (i < r ∨ 64 ≤ i + l) && v.testBit i)) ∧
     saveMiddleBits 64 oob v l r ||| clearMiddleBits 64 oob v l r = v ∧
     saveMiddleBits 64 oob v l r &&& clearMiddleBits 64 oob v l r = 0) ∧
    ((∀ i, (saveMiddleBits 128 oob w l2 r2).testBit i =
       (decide (r2 ≤ i ∧ i + l2 < 128) && w.testBit i)) ∧
     (∀ i, (clearMiddleBits 128 oob w l2 r2).testBit i =
       (decide (i < r2 ∨ 128 ≤ i + l2) && w.testBit i)) ∧
     saveMiddleBits 128 oob w l2 r2 ||| clearMiddleBits 128 oob w l2 r2 = w ∧
     saveMiddleBits 128 oob w l2 r2 &&& clearMiddleBits 128 oob w l2 r2 = 0) :=
  ⟨middleBits_eq 64 oob v l r (by decide) hv hl hr,
   middleBits_eq 128 oob w l2 r2 (by decide) hw hl2 hr2⟩

theorem middleBits_spec_witness :
    (saveMiddleBits 64 0 0xfedcba9876543217 8 4 = 0x00dcba9876543210 ∧
     clearMiddleBits 64 0 0xfedcba9876543217 8 4 = 0xfe00000000000007 ∧
     saveMiddleBits 128 0 (2 ^ 127 + 0xff) 100 60 = 0 ∧
     clearMiddleBits 128 0 (2 ^ 127 + 0xff) 100 60 = 2 ^ 127 + 0xff) ∧
    (((∀ i, (saveMiddleBits 64 0 0xfedcba9876543217 8 4).testBit i =
        (decide (4 ≤ i ∧ i + 8 < 64) && (0xfedcba9876543217 : Nat).testBit i)) ∧
      (∀ i, (clearMiddleBits 64 0 0xfedcba9876543217 8 4).testBit i =
        (decide (i < 4 ∨ 64 ≤ i + 8) && (0xfedcba9876543217 : Nat).testBit i)) ∧
      saveMiddleBits 64 0 0xfedcba9876543217 8 4 ||| clearMiddleBits 64 0 0xfedcba9876543217 8 4 =
        0xfedcba9876543217 ∧
      saveMiddleBits 64 0 0xfedcba9876543217 8 4 &&& clearMiddleBits 64 0 0xfedcba9876543217 8 4 =
        0) ∧
     ((∀ i, (saveMiddleBits 128 0 (2 ^ 127 + 0xff) 100 60).testBit i =
        (decide (60 ≤ i ∧ i + 100 < 128) && (2 ^ 127 + 0xff : Nat).testBit i)) ∧
      (∀ i, (clearMiddleBits 128 0 (2 ^ 127 + 0xff) 100 60).testBit i =
        (decide (i < 60 ∨ 128 ≤ i + 100) && (2 ^ 127 + 0xff : Nat).testBit i)) ∧
      saveMiddleBits 128 0 (2 ^ 127 + 0xff) 100 60 ||| clearMiddleBits 128 0 (2 ^ 127 + 0xff) 100 60 =
        2 ^ 127 + 0xff ∧
      saveMiddleBits 128 0 (2 ^ 127 + 0xff) 100 60 &&& clearMiddleBits 128 0 (2 ^ 127 + 0xff) 100 60 =
        0)) :=
  ⟨by decide, middleBits_spec 0 0xfedcba9876543217 (2 ^ 127 + 0xff) 8 4 100 60 (by decide)
    (by decide) (by decide) (by decide) (by decide) (by decide)⟩

/-- C19: `encode2bitBase` maps A, C, T, G, N, in upper or lower case, to 0, 1, 2, 3, 4; decoding an
encoded base gives its uppercase letter; and encoding a decoded code in [0,4] gives the code back. -/
theorem encode2bitBase_spec :
    ['A', 'C', 'T', 'G', 'N'].map (fun b => encode2bitBase b.toNat) = [0, 1, 2, 3, 4] ∧
    ['a', 'c', 't', 'g', 'n'].map (fun b => encode2bitBase b.toNat) = [0, 1, 2, 3, 4] ∧
    ['A', 'C', 'G', 'T', 'N', 'a', 'c', 'g', 't', 'n'].map
        (fun b => decode2bitBase (encode2bitBase b.toNat)) =
      ['A', 'C', 'G', 'T', 'N', 'a', 'c', 'g', 't', 'n'].map Char.toUpper ∧
    ['A', 'C', 'G', 'T', 'N', 'a', 'c', 'g', 't', 'n'].map Char.toUpper =
      ['A', 'C', 'G', 'T', 'N', 'A', 'C', 'G', 'T', 'N'] ∧
    [0, 1, 2, 3, 4].map (fun c => encode2bitBase (decode2bitBase c).toNat) = [0, 1, 2, 3, 4] := by
  decide
namespace stuffedBits

theorem ready_of_moveToNextBlock (u u1 : stuffedBits) (w : Nat)
    (h : u.moveToNextBlock w = some u1) : u1.Ready := by
  unfold moveToNextBlock at h
  simp only [] at h
  split_ifs at h with c1 c2 c3 c4 c5 c6
  · cases h
    unfold Ready
    omega
  · cases h
    unfold Ready
    simp only []
    omega

theorem ready_stepBit (u : stuffedBits) (h : u.Ready) :
    u.stepBit.Ready ∧ u.stepBit._dataPos ≤ u._dataPos + 1 ∧
    u.stepBit._dataBlk = u._dataBlk ∧ u.stepBit._blocks = u._blocks := by
  obtain ⟨h1, h2, h3, h4⟩ := h
  unfold stepBit updateBit Ready
  simp only []
  split
  · refine ⟨⟨by simp, by simp, h3, h4⟩, ?_, rfl, rfl⟩
    exact Nat.mod_le _ _
  · next hb =>
    refine ⟨⟨?_, ?_, h3, h4⟩, ?_, rfl, rfl⟩
    · simp only [] at hb ⊢; omega
    · simp only []; omega
    · exact Nat.mod_le _ _

theorem getBit_of_takeBit (u u1 : stuffedBits) (b : Bool) (hu : u.Ready)
    (hpos : u._dataPos + 1 ≤ (u.block u._dataBlk)._len) (h : u.takeBit = some (b, u1)) :
    u.getBit = some (b, u1) := by
  obtain ⟨h1, h2, h3, h4⟩ := hu
  have hm : u.moveToNextBlock 1 = some u := by
    unfold moveToNextBlock
    rw [if_neg (by omega), if_pos (le_trans (Nat.mod_le _ _) hpos)]
  unfold getBit readBits
  simp only [hm, takeList, h]

theorem getBits_of_takeList : ∀ (n : Nat) (u u2 : stuffedBits) (bits : List Bool), u.Ready →
    u.takeList n = some (bits, u2) → u._dataPos + n ≤ (u.block u._dataBlk)._len →
    u.getBits n = some (bits, u2) := by
  intro n
  induction n with
  | zero =>
    intro u u2 bits _ h _
    exact h
  | succ n ih =>
    intro u u2 bits hu h hpos
    unfold takeList at h
    cases hb : u.takeBit with
    | none => rw [hb] at h; cases h
    | some r =>
      obtain ⟨b, u1⟩ := r
      rw [hb] at h
      simp only [] at h
      cases hl : u1.takeList n with
      | none => rw [hl] at h; cases h
      | some q =>
        obtain ⟨bs, u3⟩ := q
        rw [hl] at h
        simp only [Option.some.injEq, Prod.mk.injEq] at h
        obtain ⟨rfl, rfl⟩ := h
        have e1 : u1 = u.stepBit := by
          unfold takeBit at hb
          split at hb
          · cases hb
          · cases hb; rfl
        obtain ⟨r1, r2, r3, r4⟩ := ready_stepBit u hu
        have hblock : u1.block u1._dataBlk = u.block u._dataBlk := by
          rw [e1]; unfold block; rw [r3, r4]
        have g := ih u1 u3 bs (e1 ▸ r1) hl (by rw [hblock]; rw [e1]; omega)
        unfold getBits
        rw [getBit_of_takeBit u u1 b hu (by omega) hb]
        simp only [Option.bind, g]

theorem getBits_of_piece (n : Nat) (u u1 u2 : stuffedBits) (bits : List Bool)
    (hm : u.moveToNextBlock (min 1 n) = some u1) (ht : u1.takeList n = some (bits, u2))
    (hpos : u1._dataPos + n ≤ (u1.block u1._dataBlk)._len) :
    u.getBits n = some (bits, u2) := by
  cases n with
  | zero =>
    have e : u1 = u := by
      unfold moveToNextBlock at hm
      simp only [Nat.min_zero, Nat.add_zero] at hm
      split_ifs at hm with c1 c2 c3 c4 c5 c6
      · cases hm; rfl
      · exfalso
        have := Nat.mod_le u._dataPos (2 ^ 64)
        omega
    subst e
    exact ht
  | succ n =>
    have e : min 1 (n + 1) = 1 := by omega
    rw [e] at hm
    have hr := ready_of_moveToNextBlock u u1 1 hm
    have g := getBits_of_takeList (n + 1) u1 u2 bits hr ht hpos
    unfold getBits at g ⊢
    have e2 : u.getBit = u1.getBit := by
      have hm1 : u1.moveToNextBlock 1 = some u1 := by
        obtain ⟨h1, h2, h3, h4⟩ := hr
        unfold moveToNextBlock
        rw [if_neg (by omega), if_pos (le_trans (Nat.mod_le _ _) (by omega))]
      unfold getBit readBits
      rw [hm, hm1]
    rw [e2]
    exact g

end stuffedBits
namespace stuffedBits

theorem sound_piece_bits (bits : List Bool) :
    Sound (fun s => s.writeBits bits.length bits) (fun u => u.getBits bits.length) bits
      bits.length 1 bits.length bits.length :=
  sound_piece bits (min 1 bits.length) (Nat.min_le_right _ _)
    (by
      intro h
      cases bits with
      | nil => rfl
      | cons b bs => simp at h)
    (fun u => u.getBits bits.length) bits
    (fun u u1 u2 e1 e2 hf => getBits_of_piece bits.length u u1 u2 bits e1 e2 hf)

theorem getBits_add : ∀ (n m : Nat) (u : stuffedBits),
    u.getBits (n + m) = (u.getBits n).bind (fun a => (a.2.getBits m).bind
      (fun q => some (a.1 ++ q.1, q.2))) := by
  intro n
  induction n with
  | zero =>
    intro m u
    rw [Nat.zero_add]
    show u.getBits m = (u.getBits m).bind (fun q => some ([] ++ q.1, q.2))
    cases u.getBits m <;> rfl
  | succ n ih =>
    intro m u
    have e : n + 1 + m = (n + m) + 1 := by omega
    rw [e]
    show u.getBit.bind (fun r => (getBits r.2 (n + m)).bind (fun q => some (r.1 :: q.1, q.2))) =
      (u.getBit.bind (fun r => (getBits r.2 n).bind (fun q => some (r.1 :: q.1, q.2)))).bind
        (fun a => (a.2.getBits m).bind (fun q => some (a.1 ++ q.1, q.2)))
    cases u.getBit with
    | none => rfl
    | some r =>
      simp only [Option.bind]
      rw [ih m r.2]
      cases getBits r.2 n with
      | none => rfl
      | some a =>
        simp only [Option.bind]
        cases getBits a.2 m <;> rfl

theorem sound_append (wr1 wr2 : stuffedBits → Option stuffedBits) (l1 l2 : List Bool)
    (n1 n2 p1 p2 b1 b2 c1 c2 : Nat)
    (h1 : Sound wr1 (fun u => u.getBits l1.length) l1 n1 p1 b1 c1)
    (h2 : Sound wr2 (fun u => u.getBits l2.length) l2 n2 p2 b2 c2) :
    Sound (fun s => (wr1 s).bind wr2) (fun u => u.getBits (l1 ++ l2).length) (l1 ++ l2) n1
      (p1 + p2) (b1 + b2) (max c1 c2) := by
  have h := sound_seq wr1 wr2 _
    (fun (a : List Bool) u => (u.getBits l2.length).bind (fun q => some (a ++ q.1, q.2))) l1
    (l1 ++ l2) n1 n2 p1 p2 b1 b2 c1 c2 h1
    (sound_conv _ _ _ _ _ _ _ _ _ _ _ _ _ h2 (fun _ => rfl)
      (by intro u u' e; simp only [e]; rfl) (le_refl _) (le_refl _) (le_refl _))
  refine sound_conv _ _ _ _ _ _ _ _ _ _ _ _ _ h (fun _ => rfl) ?_ (le_refl _) (le_refl _) (le_refl _)
  intro u u' e
  rw [List.length_append, getBits_add]
  exact e

end stuffedBits
theorem bits64_log2 (v : Nat) (h1 : 1 ≤ v) (h2 : v < 2 ^ 64) :
    countNumberOfBits64 v = Nat.log2 v + 1 ∧ Nat.log2 v ≤ 63 := by
  obtain ⟨b1, b2, -, -⟩ := bits64_pos v h1 h2
  have e : countNumberOfBits64 v = Nat.log2 v + 1 := by
    rw [countNumberOfBits64_eq v h2]
    unfold bitWidth
    rw [if_neg (by omega)]
  exact ⟨e, by omega⟩

namespace stuffedBits

theorem sound_unary_bits (v : Nat) (hv : v + 1 < 2 ^ 64) :
    Sound (fun s => s.setUnary v) (fun u => u.getBits (List.replicate v false ++ [true]).length)
      (List.replicate v false ++ [true]) (List.replicate v false ++ [true]).length 1
      (List.replicate v false ++ [true]).length (List.replicate v false ++ [true]).length := by
  have hl : (List.replicate v false ++ [true]).length = v + 1 := by simp
  rw [hl]
  refine sound_conv _ _ _ _ _ _ _ _ _ _ _ _ _ (sound_unary_code v (v + 1) hv (by omega))
    (fun _ => rfl) (fun _ _ e => e) ?_ (le_refl _) (le_refl _)
  rw [Nat.div_eq_of_lt (by omega)]

theorem sound_field_bits (k v : Nat) :
    Sound (fun s => s.setField k v) (fun u => u.getBits (toBitsMSB v k).length) (toBitsMSB v k)
      (toBitsMSB v k).length 1 (toBitsMSB v k).length (toBitsMSB v k).length := by
  refine sound_conv _ _ _ _ _ _ _ _ _ _ _ _ _ (sound_piece_bits (toBitsMSB v k))
    ?_ (fun _ _ e => e) (le_refl _) (le_refl _) (le_refl _)
  intro s
  unfold setField
  rw [length_toBitsMSB]

theorem sound_gamma_bits (n : Nat) (h1 : 1 ≤ n) (h2 : n < 2 ^ 64) :
    Sound (fun s => s.setEliasGamma n) (fun u => u.getBits (eliasGammaCode n).length)
      (eliasGammaCode n) (List.replicate (Nat.log2 n) false ++ [true]).length 2
      (2 * Nat.log2 n + 1) 64 := by
  obtain ⟨e, hk⟩ := bits64_log2 n h1 h2
  have hl : (List.replicate (Nat.log2 n) false ++ [true]).length = Nat.log2 n + 1 := by simp
  have h := sound_append _ _ _ _ _ _ _ _ _ _ _ _
    (sound_unary_bits (Nat.log2 n) (by omega)) (sound_field_bits (Nat.log2 n) n)
  refine sound_conv _ _ _ _ _ _ _ _ _ _ _ _ _ h ?_ (fun _ _ e => e) (le_refl _) ?_ ?_
  · intro s
    unfold setEliasGamma
    rw [if_neg (by omega), e, Nat.add_sub_cancel]
  · rw [hl, length_toBitsMSB]; omega
  · rw [hl, length_toBitsMSB]
    apply max_le <;> omega

theorem sound_delta_bits (v : Nat) (h1 : 1 ≤ v) (h2 : v < 2 ^ 64) :
    Sound (fun s => s.setEliasDelta v) (fun u => u.getBits (eliasDeltaCode v).length)
      (eliasDeltaCode v) (List.replicate (Nat.log2 (Nat.log2 v + 1)) false ++ [true]).length 3
      (2 * Nat.log2 (Nat.log2 v + 1) + 1 + Nat.log2 v) 64 := by
  obtain ⟨e, hk⟩ := bits64_log2 v h1 h2
  have h := sound_append _ _ _ _ _ _ _ _ _ _ _ _
    (sound_gamma_bits (Nat.log2 v + 1) (by omega) (by omega)) (sound_field_bits (Nat.log2 v) v)
  refine sound_conv _ _ _ _ _ _ _ _ _ _ _ _ _ h ?_ (fun _ _ e => e) (le_refl _) ?_ ?_
  · intro s
    unfold setEliasDelta
    rw [if_neg (by omega), e, Nat.add_sub_cancel]
  · rw [length_toBitsMSB]
  · rw [length_toBitsMSB]
    apply max_le <;> omega

theorem writeBits_position (s : stuffedBits) (bits : List Bool) (p rest : Nat) (hs : s.Inv)
    (hr : s.Room (p + 1) (bits.length + rest)) (hn : bits.length ≤ s._maxBits) :
    ∃ s', s.writeBits bits.length bits = some s' ∧ s'.Inv ∧ s'.Room p rest ∧
      s'._maxBits = s._maxBits ∧ s'.getPosition = s.getPosition + bits.length := by
  obtain ⟨s', e, W, hs', hr'⟩ := writeBits_spec s bits p rest hs hr hn
  exact ⟨s', e, hs', hr', wrote_maxBits s s' bits W, wrote_position s s' bits W hs'⟩

theorem setUnary_position (s : stuffedBits) (v p rest : Nat) (hs : s.Inv)
    (hr : s.Room (p + 1) (v + 1 + rest)) (hn : v + 1 ≤ s._maxBits) :
    ∃ s', s.setUnary v = some s' ∧ s'.Inv ∧ s'.Room p rest ∧
      s'._maxBits = s._maxBits ∧ s'.getPosition = s.getPosition + (v + 1) := by
  have hv : v + 1 < 2 ^ 64 := by have := hs.max_lt; omega
  obtain ⟨s', a1, a2, a3, a4, a5, -⟩ := setUnary_spec v (v + 1) hv (by omega) s p rest hs
    (by rw [Nat.div_eq_of_lt (by omega)]; exact room_mono s _ _ _ _ (by omega) (le_refl _) hr) hn
  exact ⟨s', a1, a2, a3, a4, a5⟩

theorem setField_position (s : stuffedBits) (k v p rest : Nat) (hs : s.Inv)
    (hr : s.Room (p + 1) (k + rest)) (hn : k ≤ s._maxBits) :
    ∃ s', s.setField k v = some s' ∧ s'.Inv ∧ s'.Room p rest ∧
      s'._maxBits = s._maxBits ∧ s'.getPosition = s.getPosition + k := by
  have hl := length_toBitsMSB v k
  have h := writeBits_position s (toBitsMSB v k) p rest hs
    (by rw [hl]; exact hr) (by rw [hl]; exact hn)
  rw [hl] at h
  exact h

theorem setEliasGamma_position (s : stuffedBits) (n p rest : Nat) (hs : s.Inv)
    (h1 : 1 ≤ n) (h2 : n < 2 ^ 64)
    (hr : s.Room (p + 2) (2 * Nat.log2 n + 1 + rest)) :
    ∃ s', s.setEliasGamma n = some s' ∧ s'.Inv ∧ s'.Room p rest ∧
      s'._maxBits = s._maxBits ∧ s'.getPosition = s.getPosition + (2 * Nat.log2 n + 1) := by
  obtain ⟨e, hk⟩ := bits64_log2 n h1 h2
  have hm := hs.max_ge
  obtain ⟨a, ea, ia, ra, ma, pa⟩ := setUnary_position s (Nat.log2 n) (p + 1) (Nat.log2 n + rest) hs
    (room_mono s _ _ _ _ (by omega) (by omega) hr) (by omega)
  obtain ⟨b, eb, ib, rb, mb, pb⟩ := setField_position a (Nat.log2 n) n p rest ia ra (by omega)
  refine ⟨b, ?_, ib, rb, by rw [mb, ma], by rw [pb, pa]; omega⟩
  unfold setEliasGamma
  rw [if_neg (by omega), e, Nat.add_sub_cancel, ea]
  exact eb

theorem setEliasDelta_position (s : stuffedBits) (v p rest : Nat) (hs : s.Inv)
    (h1 : 1 ≤ v) (h2 : v < 2 ^ 64)
    (hr : s.Room (p + 3) (2 * Nat.log2 (Nat.log2 v + 1) + 1 + Nat.log2 v + rest)) :
    ∃ s', s.setEliasDelta v = some s' ∧ s'.Inv ∧ s'.Room p rest ∧ s'._maxBits = s._maxBits ∧
      s'.getPosition = s.getPosition + (2 * Nat.log2 (Nat.log2 v + 1) + 1 + Nat.log2 v) := by
  obtain ⟨e, hk⟩ := bits64_log2 v h1 h2
  have hm := hs.max_ge
  obtain ⟨a, ea, ia, ra, ma, pa⟩ := setEliasGamma_position s (Nat.log2 v + 1) (p + 1)
    (Nat.log2 v + rest) hs (by omega) (by omega) (room_mono s _ _ _ _ (by omega) (by omega) hr)
  obtain ⟨b, eb, ib, rb, mb, pb⟩ := setField_position a (Nat.log2 v) v p rest ia ra (by omega)
  refine ⟨b, ?_, ib, rb, by rw [mb, ma], by rw [pb, pa, Nat.add_assoc]⟩
  unfold setEliasDelta
  rw [if_neg (by omega), e, Nat.add_sub_cancel, ea]
  exact eb

end stuffedBits
/-- C20: on every valid stream with room for the code, for every 64-bit `v >= 1` with
`k = floor(log2 v)`, `setEliasDelta(v)` writes the bits of the Elias-gamma code of `k + 1` (the bits
that `setEliasGamma(k + 1)` writes) followed by exactly the low `k` bits of `v`, without the leading
set bit of `v`: a bit-by-bit read from the position at which the write started returns them, and
the code occupies `2 * floor(log2 (k + 1)) + 1 + k` bits. -/
theorem setEliasDelta_shape (s : stuffedBits) (v : Nat) (hs : s.Inv) (hr : s.Room 3 127)
    (h1 : 1 ≤ v) (h2 : v < 2 ^ 64) :
    (∃ s1 s2, s.setEliasDelta v = some s1 ∧ s1.setPosition s.getPosition = some s2 ∧
      s2.getBits (eliasDeltaCode v).length = some (eliasDeltaCode v, s1) ∧
      s1.getPosition = s.getPosition + (2 * Nat.log2 (Nat.log2 v + 1) + 1 + Nat.log2 v)) ∧
    (∃ g1 g2, s.setEliasGamma (Nat.log2 v + 1) = some g1 ∧
      g1.setPosition s.getPosition = some g2 ∧
      g2.getBits (eliasGammaCode (Nat.log2 v + 1)).length =
        some (eliasGammaCode (Nat.log2 v + 1), g1)) ∧
    eliasDeltaCode v = eliasGammaCode (Nat.log2 v + 1) ++ toBitsMSB v (Nat.log2 v) ∧
    (eliasGammaCode (Nat.log2 v + 1)).length = 2 * Nat.log2 (Nat.log2 v + 1) + 1 ∧
    (toBitsMSB v (Nat.log2 v)).length = Nat.log2 v ∧
    ofBitsMSB (toBitsMSB v (Nat.log2 v)) = v - 2 ^ Nat.log2 v ∧
    (eliasDeltaCode v).length = 2 * Nat.log2 (Nat.log2 v + 1) + 1 + Nat.log2 v := by
  obtain ⟨e, hk⟩ := bits64_log2 v h1 h2
  have hg : (eliasGammaCode (Nat.log2 v + 1)).length = 2 * Nat.log2 (Nat.log2 v + 1) + 1 := by
    unfold eliasGammaCode
    simp only [List.length_append, List.length_replicate, List.length_singleton, length_toBitsMSB]
    omega
  have hd : (eliasDeltaCode v).length = 2 * Nat.log2 (Nat.log2 v + 1) + 1 + Nat.log2 v := by
    unfold eliasDeltaCode
    rw [List.length_append, hg, length_toBitsMSB]
  have hj : Nat.log2 (Nat.log2 v + 1) ≤ 6 := by
    have := (Nat.log2_lt (by omega : Nat.log2 v + 1 ≠ 0)).2 (by omega : Nat.log2 v + 1 < 2 ^ 7)
    omega
  have hlow : v % 2 ^ Nat.log2 v = v - 2 ^ Nat.log2 v := by
    have c1 : 2 ^ Nat.log2 v ≤ v := Nat.log2_self_le (by omega)
    have c2 : v < 2 ^ (Nat.log2 v + 1) := Nat.lt_log2_self
    rw [Nat.pow_succ] at c2
    rw [Nat.mod_eq_sub_mod c1, Nat.mod_eq_of_lt (by omega)]
  refine ⟨?_, ?_, rfl, hg, length_toBitsMSB _ _, by rw [ofBitsMSB_toBitsMSB, hlow], hd⟩
  · obtain ⟨s1, s2, w1, w2, w3⟩ := stuffedBits.roundtrip_of_sound _ _ _ _ _ _ _
      (stuffedBits.sound_delta_bits v h1 h2) (by simp) s hs
      (stuffedBits.room_mono s _ _ _ _ (le_refl _) (by omega) hr) hs.max_ge
    obtain ⟨c, ec, -, -, -, pc⟩ := stuffedBits.setEliasDelta_position s v 0 0 hs h1 h2
      (stuffedBits.room_mono s _ _ _ _ (le_refl _) (by omega) hr)
    have e1 : s1 = c := by
      have := w1.symm.trans ec
      exact Option.some.inj this
    exact ⟨s1, s2, w1, w2, w3, e1 ▸ pc⟩
  · exact stuffedBits.roundtrip_of_sound _ _ _ _ _ _ _
      (stuffedBits.sound_gamma_bits (Nat.log2 v + 1) (by omega) (by omega)) (by simp) s hs
      (stuffedBits.room_mono s _ _ _ _ (by omega) (by omega) hr) hs.max_ge

theorem setEliasDelta_shape_witness :
    ((stuffedBits.stream60.setEliasDelta 1000).bind (fun s1 => (s1.setPosition 60).bind
        (fun s2 => (s2.getBits 16).map Prod.fst)) =
      some [false, false, false, true, false, true, false,
        true, true, true, true, false, true, false, false, false] ∧
     (stuffedBits.stream60.setEliasDelta 1000).map (fun s1 => (s1._dataBlk, s1.getPosition)) =
      some (1, 76)) ∧
    ((∃ s1 s2, stuffedBits.stream60.setEliasDelta 1000 = some s1 ∧
        s1.setPosition stuffedBits.stream60.getPosition = some s2 ∧
        s2.getBits (eliasDeltaCode 1000).length = some (eliasDeltaCode 1000, s1) ∧
        s1.getPosition = stuffedBits.stream60.getPosition +
          (2 * Nat.log2 (Nat.log2 1000 + 1) + 1 + Nat.log2 1000)) ∧
     (∃ g1 g2, stuffedBits.stream60.setEliasGamma (Nat.log2 1000 + 1) = some g1 ∧
        g1.setPosition stuffedBits.stream60.getPosition = some g2 ∧
        g2.getBits (eliasGammaCode (Nat.log2 1000 + 1)).length =
          some (eliasGammaCode (Nat.log2 1000 + 1), g1)) ∧
     eliasDeltaCode 1000 = eliasGammaCode (Nat.log2 1000 + 1) ++ toBitsMSB 1000 (Nat.log2 1000) ∧
     (eliasGammaCode (Nat.log2 1000 + 1)).length = 2 * Nat.log2 (Nat.log2 1000 + 1) + 1 ∧
     (toBitsMSB 1000 (Nat.log2 1000)).length = Nat.log2 1000 ∧
     ofBitsMSB (toBitsMSB 1000 (Nat.log2 1000)) = 1000 - 2 ^ Nat.log2 1000 ∧
     (eliasDeltaCode 1000).length = 2 * Nat.log2 (Nat.log2 1000 + 1) + 1 + Nat.log2 1000) :=
  ⟨by decide, setEliasDelta_shape stuffedBits.stream60 1000 stuffedBits.inv_stream60
    (by unfold stuffedBits.Room; decide) (by decide) (by decide)⟩

namespace stuffedBits

theorem ensureSpace_advanced (s : stuffedBits) (n : Nat) (hr : s.Ready) (hl : s.Layout)
    (hfit : ¬ s.wordEnd n ≤ (s.block s._dataBlk)._max) :
    s.ensureSpaceInCurrentBlock n = some s.advanced := by
  obtain ⟨r1, r2, r3, r4⟩ := hr
  unfold ensureSpaceInCurrentBlock
  have h1 : ¬ (s._dataBit = 0 ∨ 64 < s._dataBit ∨ s._blocksMax = 0 ∨ s._blocksMax ≤ s._dataBlk) := by
    omega
  have h2 : ¬ (s._dataPos + n) % 2 ^ 64 ≤ (s.block s._dataBlk)._max := hfit
  simp only [h1, if_false, h2]
  change s.sealed.allocateBlock = some s.advanced
  have hlen : s._dataBlk < s._blocks.length := by rw [hl.len_blocks]; exact r4
  have h32 := hl.max32
  have hblk : s.sealed._dataBlk = s._dataBlk + 1 := by
    show (s._dataBlk + 1) % 2 ^ 32 = _
    exact Nat.mod_eq_of_lt (by omega)
  have hsl : s.sealed._blocks.length = s.sealed._blocksMax := by
    show (s._blocks.set _ _).length = s._blocksMax
    rw [List.length_set]; exact hl.len_blocks
  have hsm : s.sealed._blocksMax = s._blocksMax := rfl
  obtain ⟨p1, p2, p3, p4, p5, p6⟩ := increaseArray_props s.sealed hsl (by rw [hblk, hsm]; omega)
  have hmx : s.sealed._maxBits = s._maxBits := rfl
  unfold allocateBlock
  simp only [p4, hblk, p3, hmx, block_increaseArray, Nat.add_sub_cancel]
  have hne : s._dataBlk + 1 ≠ 0 := by omega
  rw [sealed_block s hlen s._dataBlk, sealed_block s hlen (s._dataBlk + 1)]
  have hne2 : ¬ s._dataBlk + 1 = s._dataBlk := by omega
  simp only [hne, hne2, if_false, if_true]
  cases hd : (s.block (s._dataBlk + 1))._dat with
  | none =>
    simp only [hl.max_dvd]
    simp only [ne_eq, not_true_eq_false, if_false, Option.map_some', List.drop_replicate,
      Nat.sub_self, List.replicate_zero, List.append_nil, reduceCtorEq]
    unfold advanced seek nextBlock setBlock
    simp [p4, hblk, hd]
  | some d =>
    obtain ⟨a1, a2⟩ := hl.alloc _ d hd
    simp only [a1]
    simp only [ne_eq, not_true_eq_false, if_false, Option.map_some', reduceCtorEq]
    have : List.drop ((s.block (s._dataBlk + 1))._max / 64) d = [] := by
      apply List.drop_eq_nil_of_le; omega
    rw [this, List.append_nil]
    unfold advanced seek nextBlock setBlock
    simp [p4, hblk, hd]

end stuffedBits
namespace stuffedBits

theorem advanced_fields (s : stuffedBits) (hr : s.Ready) (hl : s.Layout) :
    s.advanced._dataBlk = s._dataBlk + 1 ∧ s.advanced._dataPos = 0 ∧ s.advanced._dataWrd = 0 ∧
    s.advanced._dataBit = 64 ∧ s.advanced._maxBits = s._maxBits ∧
    s.advanced._blocks.length = s.advanced._blocksMax ∧ s._dataBlk + 1 < s.advanced._blocksMax ∧
    s._blocksMax ≤ s.advanced._blocksMax := by
  obtain ⟨r1, r2, r3, r4⟩ := hr
  have h32 := hl.max32
  have hblk : s.sealed._dataBlk = s._dataBlk + 1 := by
    show (s._dataBlk + 1) % 2 ^ 32 = _
    exact Nat.mod_eq_of_lt (by omega)
  have hsl : s.sealed._blocks.length = s.sealed._blocksMax := by
    show (s._blocks.set _ _).length = s._blocksMax
    rw [List.length_set]; exact hl.len_blocks
  have hsm : s.sealed._blocksMax = s._blocksMax := rfl
  obtain ⟨p1, p2, p3, -, -, p6⟩ := increaseArray_props s.sealed hsl (by rw [hblk, hsm]; omega)
  rw [hblk] at p2
  refine ⟨rfl, rfl, rfl, rfl, p3, ?_, p2, p6⟩
  show (s.sealed.increaseArray._blocks.set _ _).length = s.sealed.increaseArray._blocksMax
  rw [List.length_set]; exact p1

theorem advanced_block (s : stuffedBits) (hr : s.Ready) (hl : s.Layout) (i : Nat) :
    s.advanced.block i =
      if i = s._dataBlk then { s.block s._dataBlk with _len := s._dataPos }
      else if i = s._dataBlk + 1 then s.nextBlock else s.block i := by
  obtain ⟨r1, r2, r3, r4⟩ := hr
  have h32 := hl.max32
  have hlen : s._dataBlk < s._blocks.length := by rw [hl.len_blocks]; exact r4
  have hblk : s.sealed._dataBlk = s._dataBlk + 1 := by
    show (s._dataBlk + 1) % 2 ^ 32 = _
    exact Nat.mod_eq_of_lt (by omega)
  have hsl : s.sealed._blocks.length = s.sealed._blocksMax := by
    show (s._blocks.set _ _).length = s._blocksMax
    rw [List.length_set]; exact hl.len_blocks
  have hsm : s.sealed._blocksMax = s._blocksMax := rfl
  obtain ⟨p1, p2, -, -, -, -⟩ := increaseArray_props s.sealed hsl (by rw [hblk, hsm]; omega)
  unfold advanced
  rw [seek_block, block_setBlock, block_increaseArray, sealed_block s hlen]
  rw [p1]; rw [hblk] at p2
  by_cases h1 : i = s._dataBlk
  · subst h1
    rw [if_neg (by omega), if_pos rfl, if_pos rfl]
  · by_cases h2 : i = s._dataBlk + 1
    · subst h2
      rw [if_pos ⟨rfl, p2⟩, if_neg h1, if_pos rfl]
    · rw [if_neg (by omega), if_neg h1, if_neg h1, if_neg h2]

theorem nextBlock_fields (s : stuffedBits) :
    s.nextBlock._bgn = ((s.block s._dataBlk)._bgn + s._dataPos) % 2 ^ 64 ∧ s.nextBlock._len = 0 ∧
    s.nextBlock._dat = some (List.replicate (s.nextBlock._max / 64) 0) ∧
    s.nextBlock._max =
      (if (s.block (s._dataBlk + 1))._dat = none then s._maxBits
       else (s.block (s._dataBlk + 1))._max) := by
  unfold nextBlock
  cases (s.block (s._dataBlk + 1))._dat <;> simp

theorem ensureSpace_keep (s : stuffedBits) (n : Nat) (hr : s.Ready)
    (hfit : s.wordEnd n ≤ (s.block s._dataBlk)._max) :
    s.ensureSpaceInCurrentBlock n = some s := by
  obtain ⟨r1, r2, r3, r4⟩ := hr
  unfold ensureSpaceInCurrentBlock
  have h1 : ¬ (s._dataBit = 0 ∨ 64 < s._dataBit ∨ s._blocksMax = 0 ∨ s._blocksMax ≤ s._dataBlk) := by
    omega
  have h2 : (s._dataPos + n) % 2 ^ 64 ≤ (s.block s._dataBlk)._max := hfit
  simp only [h1, if_false, h2, if_true]

theorem wordEnd_eq (s : stuffedBits) (n : Nat) (h : s._dataPos + n < 2 ^ 64) :
    s.wordEnd n = s._dataPos + n := Nat.mod_eq_of_lt h

theorem ready_of_inv (s : stuffedBits) (hs : s.Inv) : s.Ready := by
  have hc := (cur_iff s).1 hs.cur
  have := hs.blk_lt
  unfold Ready
  omega

theorem layout_of_inv (s : stuffedBits) (hs : s.Inv) (h32 : s._blocksMax < 2 ^ 32) : s.Layout := by
  refine ⟨hs.len_blocks, h32, hs.max_dvd, ?_⟩
  intro i d hd
  by_cases hi : i ≤ s._dataBlk
  · obtain ⟨u1, -, d', u3, u4⟩ := hs.used i hi
    rw [hd] at u3
    cases u3
    rw [u1]
    exact ⟨hs.max_dvd, u4⟩
  · rcases hs.spare i (by omega) with h | ⟨u1, d', u3, u4⟩
    · rw [hd] at h; cases h
    · rw [hd] at u3
      cases u3
      rw [u1]
      exact ⟨hs.max_dvd, u4⟩

end stuffedBits

/-- C23: for every stream state that meets the assertions of `ensureSpaceInCurrentBlock` (and has
the memory layout of the class) and every `wordLen`: if `_dataPos + wordLen` (the 64-bit sum of the
code, which is the exact sum whenever that is below 2^64) is at most the capacity of the active
block, the call leaves the state unchanged; otherwise it returns a state in which the old active
block has length exactly the old `_dataPos` and is otherwise as before, the active block index is
one more, the new active block has length 0 and all-zero words, and the cursor is at position 0,
word 0, with 64 bits left in the word. -/
theorem ensureSpaceInCurrentBlock_step (s : stuffedBits) (wordLen : Nat) (hr : s.Ready)
    (hl : s.Layout) :
    (s._dataPos + wordLen < 2 ^ 64 → s.wordEnd wordLen = s._dataPos + wordLen) ∧
    (s.wordEnd wordLen ≤ (s.block s._dataBlk)._max →
      s.ensureSpaceInCurrentBlock wordLen = some s) ∧
    (¬ s.wordEnd wordLen ≤ (s.block s._dataBlk)._max →
      ∃ s', s.ensureSpaceInCurrentBlock wordLen = some s' ∧
        s'.block s._dataBlk = { s.block s._dataBlk with _len := s._dataPos } ∧
        s'._dataBlk = s._dataBlk + 1 ∧
        (s'.block s'._dataBlk)._len = 0 ∧
        (∃ d, (s'.block s'._dataBlk)._dat = some d ∧
          d = List.replicate ((s'.block s'._dataBlk)._max / 64) 0 ∧ ∀ x ∈ d, x = 0) ∧
        s'._dataPos = 0 ∧ s'._dataWrd = 0 ∧ s'._dataBit = 64) := by
  refine ⟨stuffedBits.wordEnd_eq s wordLen, stuffedBits.ensureSpace_keep s wordLen hr, ?_⟩
  intro hfit
  obtain ⟨f1, f2, f3, f4, -, -, -, -⟩ := stuffedBits.advanced_fields s hr hl
  obtain ⟨n1, n2, n3, -⟩ := stuffedBits.nextBlock_fields s
  have b1 := stuffedBits.advanced_block s hr hl s._dataBlk
  have b2 := stuffedBits.advanced_block s hr hl (s._dataBlk + 1)
  rw [if_pos rfl] at b1
  rw [if_neg (by omega), if_pos rfl] at b2
  refine ⟨s.advanced, stuffedBits.ensureSpace_advanced s wordLen hr hl hfit, b1, f1, ?_, ?_,
    f2, f3, f4⟩
  · rw [f1, b2]; exact n2
  · rw [f1, b2]
    exact ⟨_, n3, rfl, fun x hx => (List.mem_replicate.1 hx).2⟩

theorem ensureSpaceInCurrentBlock_step_witness :
    (stuffedBits.stream60.wordEnd 4 ≤ (stuffedBits.stream60.block 0)._max ∧
     ¬ stuffedBits.stream60.wordEnd 7 ≤ (stuffedBits.stream60.block 0)._max) ∧
    ((stuffedBits.stream60._dataPos + 7 < 2 ^ 64 →
        stuffedBits.stream60.wordEnd 7 = stuffedBits.stream60._dataPos + 7) ∧
     (stuffedBits.stream60.wordEnd 7 ≤
        (stuffedBits.stream60.block stuffedBits.stream60._dataBlk)._max →
      stuffedBits.stream60.ensureSpaceInCurrentBlock 7 = some stuffedBits.stream60) ∧
     (¬ stuffedBits.stream60.wordEnd 7 ≤
        (stuffedBits.stream60.block stuffedBits.stream60._dataBlk)._max →
      ∃ s', stuffedBits.stream60.ensureSpaceInCurrentBlock 7 = some s' ∧
        s'.block stuffedBits.stream60._dataBlk =
          { stuffedBits.stream60.block stuffedBits.stream60._dataBlk with
            _len := stuffedBits.stream60._dataPos } ∧
        s'._dataBlk = stuffedBits.stream60._dataBlk + 1 ∧
        (s'.block s'._dataBlk)._len = 0 ∧
        (∃ d, (s'.block s'._dataBlk)._dat = some d ∧
          d = List.replicate ((s'.block s'._dataBlk)._max / 64) 0 ∧ ∀ x ∈ d, x = 0) ∧
        s'._dataPos = 0 ∧ s'._dataWrd = 0 ∧ s'._dataBit = 64)) :=
  ⟨by decide, ensureSpaceInCurrentBlock_step stuffedBits.stream60 7
    (stuffedBits.ready_of_inv _ stuffedBits.inv_stream60)
    (stuffedBits.layout_of_inv _ stuffedBits.inv_stream60 (by decide))⟩
namespace stuffedBits

theorem ready_of_ensureSpace (s s' : stuffedBits) (n : Nat)
    (h : s.ensureSpaceInCurrentBlock n = some s') : s.Ready := by
  unfold ensureSpaceInCurrentBlock at h
  by_cases h1 : s._dataBit = 0 ∨ 64 < s._dataBit ∨ s._blocksMax = 0 ∨ s._blocksMax ≤ s._dataBlk
  · rw [if_pos h1] at h; cases h
  · unfold Ready; omega

theorem ensureSpace_cases (s s' : stuffedBits) (n : Nat) (hl : s.Layout)
    (h : s.ensureSpaceInCurrentBlock n = some s') :
    s.Ready ∧ ((s.wordEnd n ≤ (s.block s._dataBlk)._max ∧ s' = s) ∨
      (¬ s.wordEnd n ≤ (s.block s._dataBlk)._max ∧ s' = s.advanced)) := by
  have hr := ready_of_ensureSpace s s' n h
  refine ⟨hr, ?_⟩
  by_cases hfit : s.wordEnd n ≤ (s.block s._dataBlk)._max
  · rw [ensureSpace_keep s n hr hfit] at h
    exact Or.inl ⟨hfit, (Option.some.inj h).symm⟩
  · rw [ensureSpace_advanced s n hr hl hfit] at h
    exact Or.inr ⟨hfit, (Option.some.inj h).symm⟩

theorem ensureSpace_some (s : stuffedBits) (n : Nat) (hr : s.Ready) (hl : s.Layout) :
    ∃ s', s.ensureSpaceInCurrentBlock n = some s' := by
  by_cases hfit : s.wordEnd n ≤ (s.block s._dataBlk)._max
  · exact ⟨s, ensureSpace_keep s n hr hfit⟩
  · exact ⟨s.advanced, ensureSpace_advanced s n hr hl hfit⟩

end stuffedBits

/-- C24: a written value is never split across two blocks.  For every stream state (with the
memory layout of the class) in which every allocated block has capacity `_maxBits`, and every
`wordLen <= _maxBits`: `ensureSpaceInCurrentBlock(wordLen)` returns when its assertions hold, and
whenever it returns, `_dataPos + wordLen` is at most the capacity of the active block, as the 64-bit
sum of the code and, when the sum at the call was below 2^64, as the exact sum. -/
theorem ensureSpaceInCurrentBlock_fits (s : stuffedBits) (wordLen : Nat) (hl : s.Layout)
    (hcap : ∀ i, (s.block i)._dat ≠ none → (s.block i)._max = s._maxBits)
    (hw : wordLen ≤ s._maxBits) :
    (s.Ready → ∃ s', s.ensureSpaceInCurrentBlock wordLen = some s') ∧
    ∀ s', s.ensureSpaceInCurrentBlock wordLen = some s' →
      s'.wordEnd wordLen ≤ (s'.block s'._dataBlk)._max ∧
      (s._dataPos + wordLen < 2 ^ 64 → s'._dataPos + wordLen ≤ (s'.block s'._dataBlk)._max) := by
  refine ⟨fun hr => stuffedBits.ensureSpace_some s wordLen hr hl, ?_⟩
  intro s' h
  obtain ⟨hr, ⟨hfit, e⟩ | ⟨hfit, e⟩⟩ := stuffedBits.ensureSpace_cases s s' wordLen hl h
  · rw [e]
    refine ⟨hfit, fun hlt => ?_⟩
    rw [stuffedBits.wordEnd_eq s wordLen hlt] at hfit
    exact hfit
  · rw [e]
    obtain ⟨f1, f2, -, -, -, -, -, -⟩ := stuffedBits.advanced_fields s hr hl
    obtain ⟨-, -, -, n4⟩ := stuffedBits.nextBlock_fields s
    have b2 := stuffedBits.advanced_block s hr hl (s._dataBlk + 1)
    rw [if_neg (by omega), if_pos rfl] at b2
    have hmax : (s.advanced.block s.advanced._dataBlk)._max = s._maxBits := by
      rw [f1, b2, n4]
      split
      · rfl
      · next hne => exact hcap _ hne
    have hle : s.advanced._dataPos + wordLen ≤ (s.advanced.block s.advanced._dataBlk)._max := by
      rw [hmax, f2]; omega
    refine ⟨le_trans (Nat.mod_le _ _) hle, fun _ => hle⟩

theorem ensureSpaceInCurrentBlock_fits_witness :
    (stuffedBits.stream60.ensureSpaceInCurrentBlock 7).map
        (fun s' => (s'._dataBlk, s'._dataPos, (s'.block s'._dataBlk)._max)) = some (1, 0, 64) ∧
    ((stuffedBits.stream60.Ready → ∃ s', stuffedBits.stream60.ensureSpaceInCurrentBlock 7 = some s') ∧
     ∀ s', stuffedBits.stream60.ensureSpaceInCurrentBlock 7 = some s' →
      s'.wordEnd 7 ≤ (s'.block s'._dataBlk)._max ∧
      (stuffedBits.stream60._dataPos + 7 < 2 ^ 64 →
        s'._dataPos + 7 ≤ (s'.block s'._dataBlk)._max)) :=
  ⟨by decide, ensureSpaceInCurrentBlock_fits stuffedBits.stream60 7
    (stuffedBits.layout_of_inv _ stuffedBits.inv_stream60 (by decide))
    (by
      intro i hi
      by_cases h : i ≤ stuffedBits.stream60._dataBlk
      · exact (stuffedBits.inv_stream60.used i h).1
      · rcases stuffedBits.inv_stream60.spare i (by omega) with h1 | h1
        · exact absurd h1 hi
        · exact h1.1)
    (by decide)⟩
namespace stuffedBits

theorem allocateBlock_first (t t' : stuffedBits) (h0 : t._dataBlk = 0)
    (hlen : t._blocks.length = t._blocksMax) (h : t.allocateBlock = some t') :
    t'._dataBlk = 0 ∧ (t'.block 0)._bgn = 0 ∧ (t'.block 0)._len = 0 := by
  obtain ⟨p1, p2, -, p4, -, -⟩ := increaseArray_props t hlen (by omega)
  rw [h0] at p2
  unfold allocateBlock at h
  simp only [p4, h0, if_true] at h
  split_ifs at h with c1 c2
  cases h
  refine ⟨p4.trans h0, ?_, ?_⟩
  · show ((t.increaseArray.setBlock 0 _).block 0)._bgn = 0
    rw [block_setBlock, if_pos ⟨rfl, by rw [p1]; exact p2⟩]
    cases (t.increaseArray.block 0)._dat <;> rfl
  · show ((t.increaseArray.setBlock 0 _).block 0)._len = 0
    rw [block_setBlock, if_pos ⟨rfl, by rw [p1]; exact p2⟩]
    cases (t.increaseArray.block 0)._dat <;> rfl

theorem chained_advanced (s : stuffedBits) (hr : s.Ready) (hl : s.Layout)
    (hend : (s.block s._dataBlk)._bgn + s._dataPos < 2 ^ 64) (hc : s.Chained) :
    s.advanced.Chained := by
  obtain ⟨f1, -, -, -, -, -, -, -⟩ := advanced_fields s hr hl
  obtain ⟨n1, -, -, -⟩ := nextBlock_fields s
  have hb := advanced_block s hr hl
  obtain ⟨c0, c1⟩ := hc
  constructor
  · rw [hb 0]
    by_cases h0 : 0 = s._dataBlk
    · rw [if_pos h0, ← h0]; exact c0
    · rw [if_neg h0, if_neg (by omega)]; exact c0
  · intro i hi1 hi2
    rw [f1] at hi2
    rw [hb i, hb (i - 1)]
    by_cases h1 : i = s._dataBlk + 1
    · have e : i - 1 = s._dataBlk := by omega
      rw [if_neg (by omega), if_pos h1, if_pos e, n1, Nat.mod_eq_of_lt hend]
    · rw [if_neg (by omega : ¬ i - 1 = s._dataBlk), if_neg (by omega : ¬ i - 1 = s._dataBlk + 1)]
      by_cases h2 : i = s._dataBlk
      · rw [if_pos h2]
        have := c1 i hi1 (by omega)
        rw [h2] at this ⊢
        exact this
      · rw [if_neg h2, if_neg h1]
        exact c1 i hi1 (by omega)

end stuffedBits

/-- C27: block chaining.  `allocateBlock` gives the first block the begin 0; and for every stream
state (with the memory layout of the class, the position of the cursor in the stream being a 64-bit
number) in which the first block begins at 0 and every block `i` with `1 <= i <= _dataBlk` begins at
`begin[i-1] + length[i-1]`, `ensureSpaceInCurrentBlock` returns when its assertions hold, and
whenever it returns, in either branch, the same holds for every `i` up to the new active block. -/
theorem ensureSpaceInCurrentBlock_chain (s : stuffedBits) (wordLen : Nat) (hl : s.Layout)
    (hend : (s.block s._dataBlk)._bgn + s._dataPos < 2 ^ 64) (hc : s.Chained) :
    (∀ t t' : stuffedBits, t._dataBlk = 0 → t._blocks.length = t._blocksMax → t.allocateBlock = some t' →
      (t'.block 0)._bgn = 0) ∧
    (s.Ready → ∃ s', s.ensureSpaceInCurrentBlock wordLen = some s') ∧
    ∀ s', s.ensureSpaceInCurrentBlock wordLen = some s' →
      (s'.block 0)._bgn = 0 ∧
      ∀ i, 1 ≤ i → i ≤ s'._dataBlk →
        (s'.block i)._bgn = (s'.block (i - 1))._bgn + (s'.block (i - 1))._len := by
  refine ⟨fun t t' h0 hlen h => (stuffedBits.allocateBlock_first t t' h0 hlen h).2.1,
    fun hr => stuffedBits.ensureSpace_some s wordLen hr hl, ?_⟩
  intro s' h
  obtain ⟨hr, ⟨-, e⟩ | ⟨-, e⟩⟩ := stuffedBits.ensureSpace_cases s s' wordLen hl h
  · rw [e]; exact hc
  · rw [e]; exact stuffedBits.chained_advanced s hr hl hend hc

theorem ensureSpaceInCurrentBlock_chain_witness :
    (stuffedBits.stream60.ensureSpaceInCurrentBlock 7).map
        (fun s' => (s'._dataBlk, (s'.block 0)._bgn, (s'.block 0)._len, (s'.block 1)._bgn)) =
      some (1, 0, 60, 60) ∧
    ((∀ t t' : stuffedBits, t._dataBlk = 0 → t._blocks.length = t._blocksMax → t.allocateBlock = some t' →
      (t'.block 0)._bgn = 0) ∧
     (stuffedBits.stream60.Ready →
       ∃ s', stuffedBits.stream60.ensureSpaceInCurrentBlock 7 = some s') ∧
     ∀ s', stuffedBits.stream60.ensureSpaceInCurrentBlock 7 = some s' →
      (s'.block 0)._bgn = 0 ∧
      ∀ i, 1 ≤ i → i ≤ s'._dataBlk →
        (s'.block i)._bgn = (s'.block (i - 1))._bgn + (s'.block (i - 1))._len) :=
  ⟨by decide, ensureSpaceInCurrentBlock_chain stuffedBits.stream60 7
    (stuffedBits.layout_of_inv _ stuffedBits.inv_stream60 (by decide)) (by decide)
    ⟨stuffedBits.inv_stream60.bgn_zero, fun i h1 h2 => by
      have := stuffedBits.inv_stream60.chain (i - 1) (by omega)
      rw [Nat.sub_add_cancel h1] at this
      exact this⟩⟩
/-- C25: for every stream state (the block count being a 32-bit number) and every `wordLen`,
`moveToNextBlock(wordLen)` fails when one of its asserted preconditions does not hold; when they
hold and `_dataPos + wordLen` (the 64-bit sum of the code, the exact sum when that is below 2^64) is
at most the length of the active block, it leaves the state unchanged; otherwise it fails unless
the cursor is at the end of the block, a next block exists, and that block has a non-zero length and
an allocated buffer, and when it does not fail the active block index is one more and the cursor is
at position 0, word 0, with 64 bits left, nothing else being changed. -/
theorem moveToNextBlock_step (s : stuffedBits) (wordLen : Nat) (h32 : s._blocksMax < 2 ^ 32) :
    (s._dataPos + wordLen < 2 ^ 64 → s.wordEnd wordLen = s._dataPos + wordLen) ∧
    (¬ s.Ready → s.moveToNextBlock wordLen = none) ∧
    (s.Ready → s.wordEnd wordLen ≤ (s.block s._dataBlk)._len →
      s.moveToNextBlock wordLen = some s) ∧
    (s.Ready → ¬ s.wordEnd wordLen ≤ (s.block s._dataBlk)._len →
      (s._dataPos = (s.block s._dataBlk)._len ∧ s._dataBlk + 1 < s._blocksMax ∧
        (s.block (s._dataBlk + 1))._len ≠ 0 ∧ (s.block (s._dataBlk + 1))._dat ≠ none →
        s.moveToNextBlock wordLen =
          some { s with _dataBlk := s._dataBlk + 1, _dataPos := 0, _dataWrd := 0, _dataBit := 64 }) ∧
      (¬ (s._dataPos = (s.block s._dataBlk)._len ∧ s._dataBlk + 1 < s._blocksMax ∧
        (s.block (s._dataBlk + 1))._len ≠ 0 ∧ (s.block (s._dataBlk + 1))._dat ≠ none) →
        s.moveToNextBlock wordLen = none)) := by
  refine ⟨stuffedBits.wordEnd_eq s wordLen, ?_, ?_, ?_⟩
  · intro hn
    unfold stuffedBits.moveToNextBlock
    rw [if_pos]
    unfold stuffedBits.Ready at hn
    omega
  · rintro ⟨r1, r2, r3, r4⟩ hfit
    have hfit1 : (s._dataPos + wordLen) % 2 ^ 64 ≤ (s.block s._dataBlk)._len := hfit
    unfold stuffedBits.moveToNextBlock
    rw [if_neg (by omega), if_pos hfit1]
  · rintro ⟨r1, r2, r3, r4⟩ hfit
    have e : (s._dataBlk + 1) % 2 ^ 32 = s._dataBlk + 1 := Nat.mod_eq_of_lt (by omega)
    have hfit2 : ¬ (s._dataPos + wordLen) % 2 ^ 64 ≤ (s.block s._dataBlk)._len := hfit
    constructor
    · rintro ⟨c1, c2, c3, c4⟩
      unfold stuffedBits.moveToNextBlock
      simp only [e]
      rw [if_neg (by omega), if_neg hfit2, if_neg (by simpa using c1), if_neg (by omega),
        if_neg c3, if_neg c4]
    · intro hc
      unfold stuffedBits.moveToNextBlock
      simp only [e]
      rw [if_neg (by omega), if_neg hfit2]
      by_cases c1 : s._dataPos = (s.block s._dataBlk)._len
      · rw [if_neg (by simpa using c1)]
        by_cases c2 : s._dataBlk + 1 < s._blocksMax
        · rw [if_neg (by omega)]
          by_cases c3 : (s.block (s._dataBlk + 1))._len = 0
          · rw [if_pos c3]
          · rw [if_neg c3]
            by_cases c4 : (s.block (s._dataBlk + 1))._dat = none
            · rw [if_pos c4]
            · exact absurd ⟨c1, c2, c3, c4⟩ hc
        · rw [if_pos (by omega)]
      · rw [if_pos c1]
theorem moveToNextBlock_step_witness :
    stuffedBits.stream60.moveToNextBlock 4 = none ∧
    ((stuffedBits.stream60._dataPos + 4 < 2 ^ 64 →
        stuffedBits.stream60.wordEnd 4 = stuffedBits.stream60._dataPos + 4) ∧
     (¬ stuffedBits.stream60.Ready → stuffedBits.stream60.moveToNextBlock 4 = none) ∧
     (stuffedBits.stream60.Ready →
        stuffedBits.stream60.wordEnd 4 ≤
          (stuffedBits.stream60.block stuffedBits.stream60._dataBlk)._len →
        stuffedBits.stream60.moveToNextBlock 4 = some stuffedBits.stream60) ∧
     (stuffedBits.stream60.Ready →
        ¬ stuffedBits.stream60.wordEnd 4 ≤
          (stuffedBits.stream60.block stuffedBits.stream60._dataBlk)._len →
      (stuffedBits.stream60._dataPos =
          (stuffedBits.stream60.block stuffedBits.stream60._dataBlk)._len ∧
        stuffedBits.stream60._dataBlk + 1 < stuffedBits.stream60._blocksMax ∧
        (stuffedBits.stream60.block (stuffedBits.stream60._dataBlk + 1))._len ≠ 0 ∧
        (stuffedBits.stream60.block (stuffedBits.stream60._dataBlk + 1))._dat ≠ none →
        stuffedBits.stream60.moveToNextBlock 4 =
          some { stuffedBits.stream60 with
            _dataBlk := stuffedBits.stream60._dataBlk + 1, _dataPos := 0, _dataWrd := 0,
            _dataBit := 64 }) ∧
      (¬ (stuffedBits.stream60._dataPos =
          (stuffedBits.stream60.block stuffedBits.stream60._dataBlk)._len ∧
        stuffedBits.stream60._dataBlk + 1 < stuffedBits.stream60._blocksMax ∧
        (stuffedBits.stream60.block (stuffedBits.stream60._dataBlk + 1))._len ≠ 0 ∧
        (stuffedBits.stream60.block (stuffedBits.stream60._dataBlk + 1))._dat ≠ none) →
        stuffedBits.stream60.moveToNextBlock 4 = none))) :=
  ⟨by decide, moveToNextBlock_step stuffedBits.stream60 4 (by decide)⟩

/-- C26: `moveToNextBlock` does not ensure what its comment says.  On the stream `shortTail` (a
64-bit value and a 3-bit value written with block capacity 64, the cursor at the end of block 0)
`moveToNextBlock(10)` returns without failing, with the cursor at the start of block 1, whose length
is 3: the 10 bits are not present in the active block, and `getBinary(10)` reads 10 bits there. -/
theorem moveToNextBlock_short_block :
    stuffedBits.shortTail.map
        (fun s => (s._dataBlk, s._dataPos, (s.block 0)._len, (s.block 1)._len)) =
      some (0, 64, 64, 3) ∧
    (stuffedBits.shortTail.bind (fun s => s.moveToNextBlock 10)).map
        (fun s' => (s'._dataBlk, s'._dataPos, (s'.block s'._dataBlk)._len,
          decide (s'._dataPos + 10 ≤ (s'.block s'._dataBlk)._len))) =
      some (1, 0, 3, false) ∧
    (stuffedBits.shortTail.bind (fun s => s.getBinary 10)).map Prod.fst = some 640 := by
  decide
/-- C28: for every cursor state, after `updateBit` the number of bits left in the active word is not
0; if it was 0 before the call, `_dataWrd` is increased by one (in 64-bit arithmetic, which is the
exact successor for every word index below 2^64 - 1), `_dataBit` becomes 64 and nothing else
changes; if it was not 0, the state is unchanged. -/
theorem updateBit_spec (s : stuffedBits) :
    s.updateBit._dataBit ≠ 0 ∧
    (s._dataBit = 0 →
      s.updateBit = { s with _dataWrd := (s._dataWrd + 1) % 2 ^ 64, _dataBit := 64 } ∧
      s.updateBit._dataWrd = (s._dataWrd + 1) % 2 ^ 64 ∧
      (s._dataWrd + 1 < 2 ^ 64 → s.updateBit._dataWrd = s._dataWrd + 1) ∧
      s.updateBit._dataBit = 64) ∧
    (s._dataBit ≠ 0 → s.updateBit = s) := by
  unfold stuffedBits.updateBit
  refine ⟨?_, ?_, ?_⟩
  · split
    · simp
    · assumption
  · intro h
    rw [if_pos h]
    exact ⟨rfl, rfl, fun hlt => Nat.mod_eq_of_lt hlt, rfl⟩
  · intro h
    rw [if_neg h]

theorem or_63 (n : Nat) : n ||| 0x3f = 2 ^ 6 * (n / 2 ^ 6) + 63 := by
  apply Nat.eq_of_testBit_eq
  intro i
  rw [Nat.testBit_or, Nat.testBit_mul_pow_two_add _ (by decide : 63 < 2 ^ 6)]
  have h63 : (63 : Nat) = 2 ^ 6 - 1 := rfl
  rw [h63, Nat.testBit_two_pow_sub_one]
  by_cases hi : i < 6
  · simp [hi]
  · have e : 6 + (i - 6) = i := by omega
    rw [← Nat.shiftRight_eq_div_pow, Nat.testBit_shiftRight, e]
    simp [hi]

theorem and_63 (n : Nat) : n &&& 0x3f = n % 64 := by
  have h63 : (0x3f : Nat) = 2 ^ 6 - 1 := rfl
  rw [h63, Nat.and_pow_two_sub_one_eq_mod]

theorem roundUp_step (n : Nat) :
    (if n &&& 0x3f ≠ 0 then ((n ||| 0x3f) + 1) % 2 ^ 64 else n) % 64 = 0 ∧
    (1 ≤ n → n ≤ 2 ^ 64 - 64 →
      (if n &&& 0x3f ≠ 0 then ((n ||| 0x3f) + 1) % 2 ^ 64 else n) = (n + 63) / 64 * 64) := by
  rw [and_63, or_63]
  have e : (2 : Nat) ^ 6 = 64 := rfl
  rw [e]
  constructor
  · split
    · omega
    · omega
  · intro h1 h2
    split
    · rw [Nat.mod_eq_of_lt (by omega)]
      omega
    · omega

/-- C29: for every input and every page size `roundMaxSizeUp` returns (its final assertion holds)
and the result is a multiple of 64; for every `numbits` with `1 <= numbits <= 2^64 - 64` the result
is the least multiple of 64 that is at least `numbits`, and `roundMaxSizeUp` maps it to itself. -/
theorem roundMaxSizeUp_spec (pageSize numbits : Nat) :
    (∃ r, stuffedBits.roundMaxSizeUp pageSize numbits = some r ∧ r % 64 = 0) ∧
    (1 ≤ numbits → numbits ≤ 2 ^ 64 - 64 →
      ∃ r, stuffedBits.roundMaxSizeUp pageSize numbits = some r ∧ r % 64 = 0 ∧ numbits ≤ r ∧
        (∀ m, m % 64 = 0 → numbits ≤ m → r ≤ m) ∧ r = (numbits + 63) / 64 * 64 ∧
        stuffedBits.roundMaxSizeUp pageSize r = some r) := by
  have key : ∀ n, 1 ≤ n → n ≤ 2 ^ 64 - 64 →
      stuffedBits.roundMaxSizeUp pageSize n = some ((n + 63) / 64 * 64) := by
    intro n h1 h2
    obtain ⟨a1, a2⟩ := roundUp_step n
    unfold stuffedBits.roundMaxSizeUp
    simp only []
    rw [if_neg (by omega : ¬ n = 0), a2 h1 h2, if_neg (by omega)]
  constructor
  · obtain ⟨a1, -⟩ := roundUp_step
      (if numbits = 0 then ((8 * pageSize + 2 ^ 64 - 32) * 8) % 2 ^ 64 else numbits)
    refine ⟨_, ?_, a1⟩
    unfold stuffedBits.roundMaxSizeUp
    simp only []
    rw [if_neg (by rw [a1]; simp)]
  · intro h1 h2
    refine ⟨_, key numbits h1 h2, by omega, by omega, fun m hm hle => by omega, rfl, ?_⟩
    have e := key ((numbits + 63) / 64 * 64) (by omega) (by omega)
    rw [e]
    congr 1
    omega
theorem updateBit_spec_witness :
    ({ _dataWrd := 7, _dataBit := 0 } : stuffedBits).updateBit._dataWrd = 8 ∧
    (({ _dataWrd := 7, _dataBit := 0 } : stuffedBits).updateBit._dataBit ≠ 0 ∧
     (({ _dataWrd := 7, _dataBit := 0 } : stuffedBits)._dataBit = 0 →
      ({ _dataWrd := 7, _dataBit := 0 } : stuffedBits).updateBit =
        { ({ _dataWrd := 7, _dataBit := 0 } : stuffedBits) with
          _dataWrd := (({ _dataWrd := 7, _dataBit := 0 } : stuffedBits)._dataWrd + 1) % 2 ^ 64,
          _dataBit := 64 } ∧
      ({ _dataWrd := 7, _dataBit := 0 } : stuffedBits).updateBit._dataWrd =
        (({ _dataWrd := 7, _dataBit := 0 } : stuffedBits)._dataWrd + 1) % 2 ^ 64 ∧
      (({ _dataWrd := 7, _dataBit := 0 } : stuffedBits)._dataWrd + 1 < 2 ^ 64 →
        ({ _dataWrd := 7, _dataBit := 0 } : stuffedBits).updateBit._dataWrd =
          ({ _dataWrd := 7, _dataBit := 0 } : stuffedBits)._dataWrd + 1) ∧
      ({ _dataWrd := 7, _dataBit := 0 } : stuffedBits).updateBit._dataBit = 64) ∧
     (({ _dataWrd := 7, _dataBit := 0 } : stuffedBits)._dataBit ≠ 0 →
      ({ _dataWrd := 7, _dataBit := 0 } : stuffedBits).updateBit =
        ({ _dataWrd := 7, _dataBit := 0 } : stuffedBits))) :=
  ⟨by decide, updateBit_spec _⟩

theorem roundMaxSizeUp_spec_witness :
    (stuffedBits.roundMaxSizeUp 4096 0 = some 261888 ∧
     stuffedBits.roundMaxSizeUp 4096 100 = some 128 ∧
     stuffedBits.roundMaxSizeUp 4096 (2 ^ 64 - 1) = some 0) ∧
    ((∃ r, stuffedBits.roundMaxSizeUp 4096 100 = some r ∧ r % 64 = 0) ∧
     (1 ≤ 100 → 100 ≤ 2 ^ 64 - 64 →
      ∃ r, stuffedBits.roundMaxSizeUp 4096 100 = some r ∧ r % 64 = 0 ∧ 100 ≤ r ∧
        (∀ m, m % 64 = 0 → 100 ≤ m → r ≤ m) ∧ r = (100 + 63) / 64 * 64 ∧
        stuffedBits.roundMaxSizeUp 4096 r = some r)) :=
  ⟨by decide, roundMaxSizeUp_spec 4096 100⟩

/-- C30: the assertion of `expandTo3` does not reject every input with a bit at position 42 or
above: its mask `0xffffc0000000000` has 15 hexadecimal digits and covers the bits 42..59 only, so
the assertion holds exactly when these bits are clear.  For `v = 2^60` it holds and the result is 0:
the 31st two-bit value is dropped without an error. -/
theorem expandTo3_assert_gap :
    expandTo3 (2 ^ 60) = some 0 ∧ ¬ (2 ^ 60 < 2 ^ 42) ∧
    expandTo3 (2 ^ 60 + 0x2e4) = expandTo3 0x2e4 ∧ expandTo3 0x2e4 = some 0x2688 ∧
    expandTo3 (2 ^ 42) = none ∧
    (0xffffc0000000000 : Nat) = 2 ^ 60 - 2 ^ 42 ∧
    ∀ v, expandTo3 v ≠ none ↔ v &&& (2 ^ 60 - 2 ^ 42) = 0 := by
  refine ⟨by decide, by decide, by decide, by decide, by decide, by decide, ?_⟩
  intro v
  rw [expandTo3_eq]
  have e : (0xffffc0000000000 : Nat) = 2 ^ 60 - 2 ^ 42 := by decide
  rw [e]
  split <;> simp_all

/-- C21: in every packed array of value width `w` in [1,128], the `w` bits of the value at the
in-segment index `j` (bit offsets `j*w .. j*w + w - 1`) lie in at most two adjacent 128-bit words of
the segment: the word of the last bit is the word of the first bit when `(j*w) mod 128 + w <= 128`
(the test of `get` and `set`) and the word after it otherwise, and for `j` below the number of values
of a segment it is a word of the segment. -/
theorem wordArray_two_words (a : wordArray) (j : Nat) (ha : a.Inv) :
    (j * a._valueWidth + a._valueWidth - 1) / 128 - (j * a._valueWidth) / 128 ≤ 1 ∧
    ((j * a._valueWidth) % 128 + a._valueWidth ≤ 128 →
      (j * a._valueWidth + a._valueWidth - 1) / 128 = (j * a._valueWidth) / 128) ∧
    (¬ (j * a._valueWidth) % 128 + a._valueWidth ≤ 128 →
      (j * a._valueWidth + a._valueWidth - 1) / 128 = (j * a._valueWidth) / 128 + 1) ∧
    (j < a._valuesPerSegment →
      (j * a._valueWidth + a._valueWidth - 1) / 128 < a._wordsPerSegment) := by
  have h1 := ha.width_pos
  have h2 := ha.width_le
  refine ⟨?_, ?_, ?_, ?_⟩
  · generalize j * a._valueWidth = p
    omega
  · generalize j * a._valueWidth = p
    omega
  · generalize j * a._valueWidth = p
    omega
  · intro hj
    have h3 : (j + 1) * a._valueWidth ≤ a._valuesPerSegment * a._valueWidth :=
      Nat.mul_le_mul_right _ hj
    have h4 : (j + 1) * a._valueWidth = j * a._valueWidth + a._valueWidth := by ring
    have := ha.vps
    have := ha.wps
    generalize j * a._valueWidth = p at *
    omega

theorem wordArray_two_words_witness :
    ((wordArray.create 100 256)._valueWidth = 100 ∧
     (wordArray.create 100 256)._valuesPerSegment = 2 ∧
     (wordArray.create 100 256)._wordsPerSegment = 2) ∧
    ((1 * (wordArray.create 100 256)._valueWidth + (wordArray.create 100 256)._valueWidth - 1) /
        128 - (1 * (wordArray.create 100 256)._valueWidth) / 128 ≤ 1 ∧
     ((1 * (wordArray.create 100 256)._valueWidth) % 128 +
        (wordArray.create 100 256)._valueWidth ≤ 128 →
      (1 * (wordArray.create 100 256)._valueWidth + (wordArray.create 100 256)._valueWidth - 1) /
        128 = (1 * (wordArray.create 100 256)._valueWidth) / 128) ∧
     (¬ (1 * (wordArray.create 100 256)._valueWidth) % 128 +
        (wordArray.create 100 256)._valueWidth ≤ 128 →
      (1 * (wordArray.create 100 256)._valueWidth + (wordArray.create 100 256)._valueWidth - 1) /
        128 = (1 * (wordArray.create 100 256)._valueWidth) / 128 + 1) ∧
     (1 < (wordArray.create 100 256)._valuesPerSegment →
      (1 * (wordArray.create 100 256)._valueWidth + (wordArray.create 100 256)._valueWidth - 1) /
        128 < (wordArray.create 100 256)._wordsPerSegment)) :=
  ⟨by decide, wordArray_two_words (wordArray.create 100 256) 1
    (wordArray.inv_create 100 256 (by decide) (by decide) (by decide) (by decide))⟩

/-- C31: when the active block exists, `updateLen` sets its length to the maximum of its previous
length and `_dataPos`, so the length does not decrease and covers the cursor; the other fields of
the block, the other blocks and every other field of the stream are unchanged. -/
theorem updateLen_spec (s : stuffedBits) (h : s._dataBlk < s._blocks.length) :
    s.updateLen.block s._dataBlk =
      { s.block s._dataBlk with _len := max s._dataPos (s.block s._dataBlk)._len } ∧
    (s.updateLen.block s._dataBlk)._len = max (s.block s._dataBlk)._len s._dataPos ∧
    (s.block s._dataBlk)._len ≤ (s.updateLen.block s._dataBlk)._len ∧
    s._dataPos ≤ (s.updateLen.block s._dataBlk)._len ∧
    (∀ i, i ≠ s._dataBlk → s.updateLen.block i = s.block i) ∧
    s.updateLen._blocks.length = s._blocks.length ∧
    s.updateLen = { s with _blocks := s.updateLen._blocks } ∧
    s.updateLen._maxBits = s._maxBits ∧ s.updateLen._blocksMax = s._blocksMax ∧
    s.updateLen._dataPos = s._dataPos ∧ s.updateLen._dataBlk = s._dataBlk ∧
    s.updateLen._dataWrd = s._dataWrd ∧ s.updateLen._dataBit = s._dataBit := by
  have hb : s.updateLen.block s._dataBlk =
      { s.block s._dataBlk with _len := max s._dataPos (s.block s._dataBlk)._len } := by
    unfold stuffedBits.updateLen
    rw [stuffedBits.block_setBlock, if_pos ⟨rfl, h⟩]
  refine ⟨hb, ?_, ?_, ?_, ?_, ?_, rfl, rfl, rfl, rfl, rfl, rfl, rfl⟩
  · rw [hb]; exact max_comm _ _
  · rw [hb]; exact le_max_right _ _
  · rw [hb]; exact le_max_left _ _
  · intro i hi
    unfold stuffedBits.updateLen
    rw [stuffedBits.block_setBlock, if_neg (fun c => hi c.1.symm)]
  · unfold stuffedBits.updateLen stuffedBits.setBlock
    simp

theorem updateLen_spec_witness :
    ((stuffedBits.stream60.seek 0 10).updateLen.block 0)._len = 60 ∧
    ((stuffedBits.stream60.seek 0 10).updateLen.block (stuffedBits.stream60.seek 0 10)._dataBlk)._len =
      max ((stuffedBits.stream60.seek 0 10).block (stuffedBits.stream60.seek 0 10)._dataBlk)._len
        (stuffedBits.stream60.seek 0 10)._dataPos :=
  ⟨by decide, (updateLen_spec (stuffedBits.stream60.seek 0 10) (by decide)).2.1⟩
/-- C32: `encode2bitBase` is not the expression of its comment: at `N` (index 7 of the table) the
function gives 4 and the expression `(0x0706050403020100 >> (((base >> 1) & 0x07) << 3)) & 0x0f`
gives 7. -/
theorem encode2bitBase_doc_counterexample :
    encode2bitBase 'N'.toNat = 4 ∧ encode2bitBaseDoc 'N'.toNat = 7 ∧
    encode2bitBase 'N'.toNat ≠ encode2bitBaseDoc 'N'.toNat := by
  decide

/-- C32, amended: for every character, `encode2bitBase(base)` is the shift-and-mask expression with
the constant `0x0404040403020100`; the expression of the comment, with `0x0706050403020100`, gives
the same value exactly when the index `(base >> 1) & 0x07` is at most 4. -/
theorem encode2bitBase_shift_mask (base : Nat) :
    encode2bitBase base =
      (0x0404040403020100 >>> (((base >>> 1) &&& 0x07) <<< 3)) &&& 0x0f ∧
    ((base >>> 1) &&& 0x07 ≤ 4 ↔ encode2bitBase base = encode2bitBaseDoc base) := by
  unfold encode2bitBase encode2bitBaseDoc
  have h : (base >>> 1) &&& 0x07 < 8 := lt_of_le_of_lt Nat.and_le_right (by decide)
  generalize (base >>> 1) &&& 0x07 = i at h
  interval_cases i <;> decide

/-- C33: at end of file `readuntil(stop)` returns 0, not `stop` as its comment says, whatever
`stop` is; the state, and so the file position, is unchanged. -/
theorem readuntil_eof (fillBuffer : readBuffer → readBuffer) (fuel : Nat) (b : readBuffer)
    (stop : Nat) (h : b._eof = true) :
    readBuffer.readuntil fillBuffer (fuel + 1) b stop = some (0, b) := by
  unfold readBuffer.readuntil
  simp [h]

theorem readuntil_eof_witness :
    readBuffer.readuntil (fun b => b) 1 { _eof := true, _filePos := 7 } 'x'.toNat =
      some (0, { _eof := true, _filePos := 7 }) ∧ (0 : Nat) ≠ 'x'.toNat :=
  ⟨readuntil_eof (fun b => b) 0 { _eof := true, _filePos := 7 } 'x'.toNat rfl, by decide⟩

/-- C34: `median()` does not return a median.  After the single value 5 is added it returns 0 (the
threshold `_numObjs / 2` is 0, reached at the value 0), and after 1, 5 and 9 are added it returns 1,
not 5: only one of the three objects is at most 1. -/
theorem median_counterexample :
    (histogramStatistics.create.add 5 1).median = 0 ∧
    (histogramStatistics.create.add 5 1).numberOfObjects = 1 ∧
    (((histogramStatistics.create.add 1 1).add 5 1).add 9 1).median = 1 ∧
    (((histogramStatistics.create.add 1 1).add 5 1).add 9 1).numberOfObjects = 3 ∧
    (((histogramStatistics.create.add 9 1).add 1 1).add 5 1).median = 1 := by
  decide
theorem modeWeight_snoc (p : List Int) (x v : Int) (hp : p ≠ []) :
    modeWeight (p ++ [x]) v = modeWeight p v + (if x = v then 1 else 0) := by
  unfold modeWeight
  have hh : (p ++ [x]).head? = p.head? := by
    cases p with
    | nil => exact absurd rfl hp
    | cons a t => rfl
  rw [hh, List.count_append, List.count_singleton]
  by_cases h : x = v
  · simp [h]; omega
  · have h2 : ¬ (x == v) = true := by simpa using h
    simp [h, h2]

theorem modeWeight_le (p : List Int) (v : Int) : modeWeight p v ≤ p.length + 1 := by
  unfold modeWeight
  have := List.count_le_length v p
  split <;> omega

theorem head_mem (p : List Int) (h : Int) (hh : p.head? = some h) : h ∈ p := by
  cases p with
  | nil => cases hh
  | cons a t =>
    simp only [List.head?_cons, Option.some.injEq] at hh
    subst hh
    exact List.mem_cons_self _ _

theorem modeInv_base (a : Int) : ModeInv [a] (modeScan.step {} a) := by
  by_cases ha : a = 0
  · subst ha
    refine ⟨?_, ?_, ?_, ?_, Or.inl rfl, ?_, ?_⟩
    · exact List.mem_singleton.2 rfl
    · intro v hv; rw [List.mem_singleton.1 hv]; exact le_refl _
    · intro h hh v hv
      simp only [List.head?_cons, Option.some.injEq] at hh
      rw [List.mem_singleton.1 hv, ← hh]
    · decide
    · intro v hv hne
      exact absurd (List.mem_singleton.1 hv) hne
    · intro _ _ h; exact absurd rfl h
  · have e : modeScan.step {} a = { modeCnt := 0, modeVal := 0, modeTmpCnt := 2, modeTmpVal := a } := by
      unfold modeScan.step modeScan.keep
      simp [ha]
    rw [e]
    refine ⟨?_, ?_, ?_, ?_, Or.inl rfl, ?_, ?_⟩
    · exact List.mem_singleton.2 rfl
    · intro v hv; rw [List.mem_singleton.1 hv]
    · intro h hh v hv
      simp only [List.head?_cons, Option.some.injEq] at hh
      rw [List.mem_singleton.1 hv, ← hh]
    · unfold modeWeight
      simp [ha]
    · intro v hv hne
      exact absurd (List.mem_singleton.1 hv) hne
    · intro h
      simp only [List.head?_cons, Option.some.injEq] at h
      exact absurd h ha
theorem modeInv_step (p : List Int) (st : modeScan) (x : Int) (hp : p ≠ [])
    (hx : ∀ v ∈ p, v ≤ x) (hlen : p.length + 2 < 2 ^ 32) (I : ModeInv p st) :
    ModeInv (p ++ [x]) (st.step x) := by
  have hhead : (p ++ [x]).head? = p.head? := by
    cases p with
    | nil => exact absurd rfl hp
    | cons a t => rfl
  have hmem : ∀ v, v ∈ p ++ [x] ↔ v ∈ p ∨ v = x := by
    intro v; simp
  have hcnt : st.modeTmpCnt ≤ p.length + 1 := by rw [I.tmp]; exact modeWeight_le p _
  by_cases hxt : x = st.modeTmpVal
  · -- the same value again
    have e : st.step x = { st with modeTmpCnt := st.modeTmpCnt + 1 } := by
      unfold modeScan.step
      simp only [hxt, ne_eq, not_true_eq_false, if_false]
      rw [Nat.mod_eq_of_lt (by omega)]
    rw [e]
    refine ⟨?_, ?_, ?_, ?_, ?_, ?_, ?_⟩
    · exact (hmem _).2 (Or.inl I.mem)
    · intro v hv
      rcases (hmem v).1 hv with h | h
      · exact I.le_last v h
      · rw [h, hxt]
    · intro h hh v hv
      rw [hhead] at hh
      rcases (hmem v).1 hv with h1 | h1
      · exact I.ge_head h hh v h1
      · rw [h1]; exact hx h (head_mem p h hh)
    · show st.modeTmpCnt + 1 = modeWeight (p ++ [x]) st.modeTmpVal
      rw [modeWeight_snoc p x _ hp, if_pos hxt, I.tmp]
    · rcases I.mode with h | ⟨h1, h2, h3⟩
      · exact Or.inl h
      · refine Or.inr ⟨(hmem _).2 (Or.inl h1), h2, ?_⟩
        show st.modeCnt = modeWeight (p ++ [x]) st.modeVal
        rw [modeWeight_snoc p x _ hp, if_neg (by rw [hxt]; exact fun c => h2 c.symm), h3]
        rfl
    · intro v hv hne
      have hne' : v ≠ st.modeTmpVal := hne
      have hvp : v ∈ p := by
        rcases (hmem v).1 hv with h | h
        · exact h
        · exact absurd (h.trans hxt) hne'
      rw [modeWeight_snoc p x _ hp, if_neg (by rw [hxt]; exact fun c => hne' c.symm)]
      exact I.max v hvp hne'
    · intro h0 hm hc
      rw [hhead] at h0
      have hm' : st.modeVal ≠ 0 := hm
      have hc' : st.modeCnt ≠ 0 := hc
      show (p ++ [x]).count 0 < st.modeCnt
      by_cases hx0 : x = 0
      · exfalso
        rcases I.mode with h | ⟨h1, -, -⟩
        · exact hc' h
        · have a1 := I.ge_head 0 h0 _ h1
          have a2 := hx _ h1
          omega
      · rw [List.count_append, List.count_singleton]
        have hb : ¬ (x == 0) = true := by simpa using hx0
        simp only [hb, if_false, Nat.add_zero]
        exact I.zero h0 hm' hc'
  · -- a new value
    have hxp : x ∉ p := by
      intro hin
      have a1 := I.le_last x hin
      have a2 := hx _ I.mem
      exact hxt (le_antisymm a1 a2)
    have e : st.step x = { st.keep with modeTmpCnt := 2, modeTmpVal := x } := by
      unfold modeScan.step
      simp only [ne_eq, hxt, not_false_eq_true, if_true]
      rfl
    have hk1 : st.keep.modeCnt = max st.modeCnt st.modeTmpCnt ∧
        (st.modeCnt < st.modeTmpCnt → st.keep.modeVal = st.modeTmpVal) ∧
        (¬ st.modeCnt < st.modeTmpCnt → st.keep.modeVal = st.modeVal) := by
      unfold modeScan.keep
      split
      · next h => exact ⟨by simp only []; omega, fun _ => rfl, fun c => absurd h c⟩
      · next h => exact ⟨by omega, fun c => absurd c h, fun _ => rfl⟩
    obtain ⟨k1, k2, k3⟩ := hk1
    have hw : ∀ v, v ≠ x → modeWeight (p ++ [x]) v = modeWeight p v := by
      intro v hv
      rw [modeWeight_snoc p x _ hp, if_neg (fun c => hv c.symm)]
      rfl
    rw [e]
    refine ⟨?_, ?_, ?_, ?_, ?_, ?_, ?_⟩
    · exact (hmem _).2 (Or.inr rfl)
    · intro v hv
      rcases (hmem v).1 hv with h | h
      · exact hx v h
      · rw [h]
    · intro h hh v hv
      rw [hhead] at hh
      rcases (hmem v).1 hv with h1 | h1
      · exact I.ge_head h hh v h1
      · rw [h1]; exact hx h (head_mem p h hh)
    · show 2 = modeWeight (p ++ [x]) x
      rw [modeWeight_snoc p x _ hp, if_pos rfl]
      unfold modeWeight
      rw [List.count_eq_zero_of_not_mem hxp]
      have : ¬ (p.head? = some 0 ∧ x = 0) := by
        rintro ⟨a1, a2⟩
        exact hxp (a2 ▸ head_mem p 0 a1)
      rw [if_neg this]
    · show st.keep.modeCnt = 0 ∨ (st.keep.modeVal ∈ p ++ [x] ∧ st.keep.modeVal ≠ x ∧
        st.keep.modeCnt = modeWeight (p ++ [x]) st.keep.modeVal)
      by_cases hlt : st.modeCnt < st.modeTmpCnt
      · rw [k2 hlt, k1]
        refine Or.inr ⟨(hmem _).2 (Or.inl I.mem), fun c => hxt c.symm, ?_⟩
        rw [hw _ (fun c => hxt c.symm), ← I.tmp]
        omega
      · rw [k3 hlt, k1]
        rcases I.mode with h | ⟨h1, h2, h3⟩
        · exact Or.inl (by omega)
        · have hne : st.modeVal ≠ x := fun c => hxp (c ▸ h1)
          refine Or.inr ⟨(hmem _).2 (Or.inl h1), hne, ?_⟩
          rw [hw _ hne, ← h3]
          omega
    · intro v hv hne
      have hne' : v ≠ x := hne
      have hvp : v ∈ p := by
        rcases (hmem v).1 hv with h | h
        · exact h
        · exact absurd h hne'
      show modeWeight (p ++ [x]) v ≤ st.keep.modeCnt
      rw [hw v hne', k1]
      by_cases hvt : v = st.modeTmpVal
      · rw [hvt, ← I.tmp]; exact le_max_right _ _
      · exact le_trans (I.max v hvp hvt) (le_max_left _ _)
    · intro h0 hm hc
      rw [hhead] at h0
      have hm' : st.keep.modeVal ≠ 0 := hm
      have hc' : st.keep.modeCnt ≠ 0 := hc
      have h0p := head_mem p 0 h0
      have hx0 : x ≠ 0 := fun c => hxp (c ▸ h0p)
      show (p ++ [x]).count 0 < st.keep.modeCnt
      have hc0 : (p ++ [x]).count 0 = p.count 0 := by
        rw [List.count_append, List.count_singleton]
        simp [hx0]
      rw [hc0, k1]
      by_cases hlt : st.modeCnt < st.modeTmpCnt
      · rw [k2 hlt] at hm'
        have a1 := I.max 0 h0p (fun c => hm' c.symm)
        have a2 : modeWeight p 0 = p.count 0 := by
          unfold modeWeight
          rw [if_pos ⟨h0, rfl⟩]
          rfl
        rw [a2] at a1
        omega
      · rw [k3 hlt] at hm'
        rw [k1] at hc'
        have a1 := I.zero h0 hm' (by omega)
        omega
theorem modeInv_foldl : ∀ (q p : List Int) (st : modeScan), p ≠ [] →
    (p ++ q).Pairwise (· ≤ ·) → (p ++ q).length + 1 < 2 ^ 32 → ModeInv p st →
    ModeInv (p ++ q) (q.foldl modeScan.step st) := by
  intro q
  induction q with
  | nil =>
    intro p st _ _ _ I
    rw [List.append_nil]
    exact I
  | cons x q ih =>
    intro p st hp hs hlen I
    have e : p ++ x :: q = (p ++ [x]) ++ q := by simp
    rw [e] at hs hlen ⊢
    have hs1 : (p ++ [x]).Pairwise (· ≤ ·) := (List.pairwise_append.1 hs).1
    have hx : ∀ v ∈ p, v ≤ x := fun v hv =>
      (List.pairwise_append.1 hs1).2.2 v hv x (List.mem_singleton.2 rfl)
    have hl : p.length + 2 < 2 ^ 32 := by
      simp only [List.length_append, List.length_singleton] at hlen
      omega
    exact ih (p ++ [x]) (st.step x) (by simp) hs hlen (modeInv_step p st x hp hx hl I)

theorem modeInv_result (l : List Int) (st : modeScan) (I : ModeInv l st) :
    st.keep.modeVal ∈ l ∧ ∀ v, l.count v ≤ l.count st.keep.modeVal := by
  have wle : ∀ v, modeWeight l v ≤ l.count v + 1 := by
    intro v; unfold modeWeight; split <;> omega
  have wge : ∀ v, l.count v ≤ modeWeight l v := by
    intro v; unfold modeWeight; omega
  have wone : ∀ v, ¬ (l.head? = some 0 ∧ v = 0) → modeWeight l v = l.count v + 1 := by
    intro v h; unfold modeWeight; rw [if_neg h]
  have htpos : 1 ≤ st.modeTmpCnt := by
    rw [I.tmp]
    exact le_trans (List.count_pos_iff.2 I.mem) (wge _)
  by_cases hlt : st.modeCnt < st.modeTmpCnt
  · have e : st.keep.modeVal = st.modeTmpVal := by
      unfold modeScan.keep; rw [if_pos hlt]
    rw [e]
    refine ⟨I.mem, fun v => ?_⟩
    by_cases hv : v ∈ l
    · by_cases hvt : v = st.modeTmpVal
      · rw [hvt]
      · have a1 := I.max v hv hvt
        have a2 := wge v
        have a3 := wle st.modeTmpVal
        have a4 := I.tmp
        omega
    · rw [List.count_eq_zero_of_not_mem hv]
      exact Nat.zero_le _
  · have e : st.keep.modeVal = st.modeVal := by
      unfold modeScan.keep; rw [if_neg hlt]
    rw [e]
    rcases I.mode with h | ⟨h1, h2, h3⟩
    · omega
    · refine ⟨h1, fun v => ?_⟩
      by_cases hv : v ∈ l
      · have hW : modeWeight l v ≤ modeWeight l st.modeVal := by
          rw [← h3]
          by_cases hvt : v = st.modeTmpVal
          · rw [hvt, ← I.tmp]; omega
          · exact I.max v hv hvt
        by_cases hz : l.head? = some 0 ∧ v = 0
        · by_cases hm : st.modeVal = 0
          · rw [hz.2, hm]
          · have a1 := I.zero hz.1 hm (by omega)
            have a2 := wle st.modeVal
            rw [hz.2]
            omega
        · have a1 := wone v hz
          have a2 := wle st.modeVal
          omega
      · rw [List.count_eq_zero_of_not_mem hv]
        exact Nat.zero_le _

/-- Below the range of its 32-bit counters, that is for every non-empty sorted array of fewer than
2^32 - 1 integers, `computeMode` returns a value of the array that occurs at least as often as every
other value, also when the array starts with zeros or has negative values; `std::sort`, called when
`isSorted` is false, leaves a sorted array as it is. -/
theorem computeMode_bounded (sort : List Int → List Int) (dist : List Int) (isSorted : Bool)
    (hne : dist ≠ []) (hs : dist.Pairwise (· ≤ ·)) (hlen : dist.length + 1 < 2 ^ 32)
    (hsort : isSorted = false → sort dist = dist) :
    computeMode sort dist isSorted ∈ dist ∧
    ∀ v, dist.count v ≤ dist.count (computeMode sort dist isSorted) := by
  have e : computeMode sort dist isSorted = ((dist.foldl modeScan.step {}).keep).modeVal := by
    unfold computeMode
    rw [if_neg (by simpa using hne)]
    simp only []
    by_cases h : isSorted = false
    · rw [if_pos h, hsort h]
    · rw [if_neg h]
  rw [e]
  cases dist with
  | nil => exact absurd rfl hne
  | cons a t =>
    have I := modeInv_foldl t [a] (modeScan.step {} a) (by simp) hs hlen (modeInv_base a)
    exact modeInv_result (a :: t) _ I

theorem computeMode_bounded_witness :
    (computeMode id [0, 0, 3, 3, 3, 7] true = 3 ∧ computeMode id [-3, -3, 0, 5] false = -3 ∧
     computeMode id [0, 0, 1, 1] true = 1) ∧
    (computeMode id [0, 0, 0, 1, 1] true ∈ [(0 : Int), 0, 0, 1, 1] ∧
     ∀ v, [(0 : Int), 0, 0, 1, 1].count v ≤
       [(0 : Int), 0, 0, 1, 1].count (computeMode id [0, 0, 0, 1, 1] true)) :=
  ⟨by decide, computeMode_bounded id [0, 0, 0, 1, 1] true (by decide) (by decide) (by decide)
    (fun _ => rfl)⟩

/-- The loop of `computeMode` over a run of the value at hand only counts, modulo 2^32. -/
theorem modeScan_foldl_replicate : ∀ (n : Nat) (st : modeScan), st.modeTmpCnt < 2 ^ 32 →
    (List.replicate n st.modeTmpVal).foldl modeScan.step st =
      { st with modeTmpCnt := (st.modeTmpCnt + n) % 2 ^ 32 } := by
  intro n
  induction n with
  | zero =>
    intro st h
    show st = { st with modeTmpCnt := (st.modeTmpCnt + 0) % 2 ^ 32 }
    rw [Nat.add_zero, Nat.mod_eq_of_lt h]
  | succ n ih =>
    intro st _
    have e1 : st.step st.modeTmpVal = { st with modeTmpCnt := (st.modeTmpCnt + 1) % 2 ^ 32 } := by
      unfold modeScan.step
      simp
    rw [List.replicate_succ, List.foldl_cons, e1]
    rw [ih { st with modeTmpCnt := (st.modeTmpCnt + 1) % 2 ^ 32 } (Nat.mod_lt _ (by norm_num))]
    show ({ st with modeTmpCnt := ((st.modeTmpCnt + 1) % 2 ^ 32 + n) % 2 ^ 32 } : modeScan) = _
    have : ((st.modeTmpCnt + 1) % 2 ^ 32 + n) % 2 ^ 32 = (st.modeTmpCnt + (n + 1)) % 2 ^ 32 := by
      omega
    rw [this]

/-- C35: `computeMode` does not return the most common value of every non-empty sorted array.  Its
counters `modeCnt` and `modeTmpCnt` are `uint32` while the length `distLen` is `uint64`: on the
sorted array of 2^32 - 1 elements that are all 7 the counter of the run, which starts at 2, wraps
to 0, no run is recorded, and the function returns 0, a value that does not occur in the array. -/
theorem computeMode_wraps :
    (List.replicate (2 ^ 32 - 1) (7 : Int)) ≠ [] ∧
    (List.replicate (2 ^ 32 - 1) (7 : Int)).Pairwise (· ≤ ·) ∧
    computeMode id (List.replicate (2 ^ 32 - 1) 7) true = 0 ∧
    (0 : Int) ∉ List.replicate (2 ^ 32 - 1) (7 : Int) ∧
    (List.replicate (2 ^ 32 - 1) (7 : Int)).count 0 <
      (List.replicate (2 ^ 32 - 1) (7 : Int)).count 7 := by
  have hn : (2 : Nat) ^ 32 - 1 = (2 ^ 32 - 2) + 1 := by norm_num
  refine ⟨?_, ?_, ?_, ?_, ?_⟩
  · rw [hn, List.replicate_succ]
    exact List.cons_ne_nil _ _
  · rw [List.pairwise_replicate]
    right; exact le_refl _
  · unfold computeMode
    rw [List.length_replicate, if_neg (by norm_num)]
    simp only [Bool.true_eq_false, if_false]
    rw [hn, List.replicate_succ, List.foldl_cons]
    have e1 : modeScan.step {} 7 = { modeCnt := 0, modeVal := 0, modeTmpCnt := 2, modeTmpVal := 7 } := by
      decide
    rw [e1]
    rw [modeScan_foldl_replicate (2 ^ 32 - 2)
      { modeCnt := 0, modeVal := 0, modeTmpCnt := 2, modeTmpVal := 7 } (by norm_num)]
    have e2 : (2 + (2 ^ 32 - 2)) % 2 ^ 32 = 0 := by norm_num
    simp only [e2]
    rfl
  · intro h
    have := List.eq_of_mem_replicate h
    norm_num at this
  · rw [List.count_replicate]
    simp only [show ((7 : Int) == 0) = false by decide, List.count_replicate_self]
    norm_num
namespace stuffedBits

theorem consistent_reset (s : stuffedBits) (h1 : s._dataPos = 0) (h2 : s._dataWrd = 0)
    (h3 : s._dataBit = 64) : s.Consistent := by
  unfold Consistent
  rw [h1, h2, h3]

theorem allocateBlock_cursor (s s' : stuffedBits) (h : s.allocateBlock = some s') :
    s'._dataPos = 0 ∧ s'._dataWrd = 0 ∧ s'._dataBit = 64 := by
  unfold allocateBlock at h
  simp only [] at h
  split_ifs at h <;> cases h <;> exact ⟨rfl, rfl, rfl⟩

theorem moveToNextBlock_cursor (s s' : stuffedBits) (w : Nat) (h : s.moveToNextBlock w = some s')
    (hb : s'._dataBlk ≠ s._dataBlk) :
    s' = { s with _dataBlk := (s._dataBlk + 1) % 2 ^ 32, _dataPos := 0, _dataWrd := 0,
                  _dataBit := 64 } ∧
    s._dataPos = (s.block s._dataBlk)._len := by
  unfold moveToNextBlock at h
  simp only [] at h
  split_ifs at h with c1 c2 c3 c4 c5 c6
  · cases h; exact absurd rfl hb
  · cases h
    exact ⟨rfl, by simpa using c3⟩

theorem eraseBlocks_cursor (s s' : stuffedBits) (h : s.eraseBlocks = some s') :
    (s._blocksMax = 0 → s' = s) ∧
    (s._blocksMax ≠ 0 → s'._dataPos = 0 ∧ s'._dataWrd = 0 ∧ s'._dataBit = 64) := by
  unfold eraseBlocks at h
  simp only [] at h
  split_ifs at h with c1 c2
  · cases h; exact ⟨fun _ => rfl, fun c => absurd c1 c⟩
  · cases h; exact ⟨fun c => absurd c c1, fun _ => ⟨rfl, rfl, rfl⟩⟩

theorem updateBit_consistent (s : stuffedBits) (hp : s._dataPos < 2 ^ 64) (h : s.Consistent) :
    s.updateBit.Consistent := by
  unfold Consistent at h ⊢
  unfold updateBit
  split
  · next hb =>
    rw [hb] at h
    show s._dataPos = 64 * ((s._dataWrd + 1) % 2 ^ 64) + (64 - 64)
    rw [Nat.mod_eq_of_lt (by omega)]
    omega
  · exact h

end stuffedBits

/-- C36: cursor consistency.  The relation `_dataPos = 64 * _dataWrd + (64 - _dataBit)` holds in
the state left by `allocateBlock` and by a block-advancing `moveToNextBlock`, with position 0,
word 0 and 64 bits left; it holds in the state left by `eraseBlocks`, with position 0, word 0 and
64 bits left, for every state of an object: `eraseBlocks` returns at once when `_blocksMax` is 0,
and while `_blocksMax` is 0 the cursor has the values of its initialisers (`Unmoved`), which holds
for the initialisers and is kept by every helper of the header; `eraseBlocks` keeps the relation
wherever it held; and `updateBit` preserves the relation for every state in which it held before
the call (`_dataPos` being a 64-bit number). -/
theorem cursor_consistency (s s' : stuffedBits) (wordLen : Nat) (hp : s._dataPos < 2 ^ 64) :
    (s.allocateBlock = some s' →
      s'._dataPos = 0 ∧ s'._dataWrd = 0 ∧ s'._dataBit = 64 ∧ s'.Consistent) ∧
    (s.moveToNextBlock wordLen = some s' → s'._dataBlk ≠ s._dataBlk →
      s'._dataPos = 0 ∧ s'._dataWrd = 0 ∧ s'._dataBit = 64 ∧ s'.Consistent) ∧
    (s.eraseBlocks = some s' →
      (s.Unmoved → s'._dataPos = 0 ∧ s'._dataWrd = 0 ∧ s'._dataBit = 64 ∧ s'.Consistent) ∧
      (s.Consistent → s'.Consistent) ∧ (s._blocksMax = 0 → s' = s)) ∧
    (s.Consistent → s.updateBit.Consistent) ∧
    (({} : stuffedBits).Unmoved ∧
     (s.Unmoved → s.updateLen.Unmoved ∧ s.updateBit.Unmoved) ∧
     (s.Unmoved → s.allocateBlock = some s' → s'.Unmoved) ∧
     (s.Unmoved → s.moveToNextBlock wordLen = some s' → s'.Unmoved) ∧
     (s.Unmoved → s.ensureSpaceInCurrentBlock wordLen = some s' → s'.Unmoved) ∧
     (s.Unmoved → s.eraseBlocks = some s' → s'.Unmoved)) := by
  refine ⟨?_, ?_, ?_, stuffedBits.updateBit_consistent s hp, ?_⟩
  · intro h
    obtain ⟨a, b, c⟩ := stuffedBits.allocateBlock_cursor s s' h
    exact ⟨a, b, c, stuffedBits.consistent_reset s' a b c⟩
  · intro h hb
    obtain ⟨e, -⟩ := stuffedBits.moveToNextBlock_cursor s s' wordLen h hb
    rw [e]
    exact ⟨rfl, rfl, rfl, stuffedBits.consistent_reset _ rfl rfl rfl⟩
  · intro h
    obtain ⟨e0, e1⟩ := stuffedBits.eraseBlocks_cursor s s' h
    refine ⟨?_, ?_, e0⟩
    · intro hu
      by_cases hz : s._blocksMax = 0
      · obtain ⟨a, b, c⟩ := hu hz
        rw [e0 hz]
        exact ⟨a, b, c, stuffedBits.consistent_reset s a b c⟩
      · obtain ⟨a, b, c⟩ := e1 hz
        exact ⟨a, b, c, stuffedBits.consistent_reset s' a b c⟩
    · intro hc
      by_cases hz : s._blocksMax = 0
      · rw [e0 hz]; exact hc
      · obtain ⟨a, b, c⟩ := e1 hz
        exact stuffedBits.consistent_reset s' a b c
  · refine ⟨fun _ => ⟨rfl, rfl, rfl⟩, ?_, ?_, ?_, ?_, ?_⟩
    · intro hu
      refine ⟨hu, ?_⟩
      intro hz
      have hz' : s._blocksMax = 0 := by
        unfold stuffedBits.updateBit at hz
        split at hz <;> exact hz
      obtain ⟨a, b, c⟩ := hu hz'
      have e : s.updateBit = s := by
        unfold stuffedBits.updateBit
        rw [if_neg (by omega)]
      rw [e]
      exact ⟨a, b, c⟩
    · intro _ h _
      exact stuffedBits.allocateBlock_cursor s s' h
    · intro _ h hz
      exfalso
      unfold stuffedBits.moveToNextBlock at h
      simp only [] at h
      split_ifs at h with c1 c2 c3 c4 c5 c6
      · cases h; exact c1 (Or.inr (Or.inr (Or.inl hz)))
      · cases h; exact c1 (Or.inr (Or.inr (Or.inl hz)))
    · intro _ h hz
      unfold stuffedBits.ensureSpaceInCurrentBlock at h
      simp only [] at h
      split_ifs at h with c1 c2
      · cases h; exact absurd (Or.inr (Or.inr (Or.inl hz))) c1
      · exact stuffedBits.allocateBlock_cursor _ s' h
    · intro hu h hz
      obtain ⟨e0, e1⟩ := stuffedBits.eraseBlocks_cursor s s' h
      by_cases hz0 : s._blocksMax = 0
      · rw [e0 hz0]; exact hu hz0
      · exact e1 hz0

theorem cursor_consistency_witness :
    (stuffedBits.stream60.eraseBlocks.map (fun s' => (s'._dataPos, s'._dataWrd, s'._dataBit)) =
      some (0, 0, 64) ∧
     ({} : stuffedBits).eraseBlocks.map (fun s' => (s'._dataPos, s'._dataWrd, s'._dataBit)) =
      some (0, 0, 64)) ∧
    (stuffedBits.stream60.Consistent →
      stuffedBits.stream60.updateBit.Consistent) :=
  ⟨by decide, (cursor_consistency stuffedBits.stream60 stuffedBits.stream60 0 (by decide)).2.2.2.1⟩
/-- C37: crossing a block boundary does not move the logical stream position
`begin[active block] + _dataPos`.  For every stream state with the memory layout of the class,
whenever `ensureSpaceInCurrentBlock(wordLen)` returns, in either branch, the position is the same as
a 64-bit number, and the same exactly when it was below 2^64; and whenever `moveToNextBlock`
returns with the next block active and `begin[next] = begin[current] + length[current]`, the
position is the same. -/
theorem streamPos_kept (s s' : stuffedBits) (wordLen : Nat) (hl : s.Layout) :
    (s.ensureSpaceInCurrentBlock wordLen = some s' →
      s'.streamPos % 2 ^ 64 = s.streamPos % 2 ^ 64 ∧
      (s.streamPos < 2 ^ 64 → s'.streamPos = s.streamPos)) ∧
    (s.moveToNextBlock wordLen = some s' → s'._dataBlk ≠ s._dataBlk →
      (s.block (s._dataBlk + 1))._bgn = (s.block s._dataBlk)._bgn + (s.block s._dataBlk)._len →
      s'._dataBlk = s._dataBlk + 1 ∧ s'.streamPos = s.streamPos) := by
  constructor
  · intro h
    obtain ⟨hr, ⟨-, e⟩ | ⟨-, e⟩⟩ := stuffedBits.ensureSpace_cases s s' wordLen hl h
    · rw [e]; exact ⟨rfl, fun _ => rfl⟩
    · rw [e]
      obtain ⟨f1, f2, -, -, -, -, -, -⟩ := stuffedBits.advanced_fields s hr hl
      obtain ⟨n1, -, -, -⟩ := stuffedBits.nextBlock_fields s
      have b2 := stuffedBits.advanced_block s hr hl (s._dataBlk + 1)
      rw [if_neg (by omega), if_pos rfl] at b2
      have e2 : s.advanced.streamPos = s.streamPos % 2 ^ 64 := by
        unfold stuffedBits.streamPos
        rw [f1, f2, b2, n1, Nat.add_zero]
      rw [e2]
      exact ⟨Nat.mod_mod _ _, fun hlt => Nat.mod_eq_of_lt hlt⟩
  · intro h hb hc
    obtain ⟨e, hpos⟩ := stuffedBits.moveToNextBlock_cursor s s' wordLen h hb
    have hr := stuffedBits.ready_of_moveToNextBlock s s' wordLen h
    have hblk : (s._dataBlk + 1) % 2 ^ 32 = s._dataBlk + 1 := by
      have hlt : s._dataBlk < s._blocksMax := by
        unfold stuffedBits.moveToNextBlock at h
        by_cases c : s._dataBit = 0 ∨ 64 < s._dataBit ∨ s._blocksMax = 0 ∨ s._blocksMax ≤ s._dataBlk
        · rw [if_pos c] at h; cases h
        · omega
      have := hl.max32
      exact Nat.mod_eq_of_lt (by omega)
    rw [hblk] at e
    rw [e]
    refine ⟨rfl, ?_⟩
    show (s.block (s._dataBlk + 1))._bgn + 0 = (s.block s._dataBlk)._bgn + s._dataPos
    rw [hc, hpos, Nat.add_zero]

theorem streamPos_kept_witness :
    ((stuffedBits.stream60.ensureSpaceInCurrentBlock 7).map
        (fun s' => (s'._dataBlk, s'._dataPos, s'.streamPos)) = some (1, 0, 60) ∧
     stuffedBits.stream60.streamPos = 60) ∧
    (((stuffedBits.stream60.ensureSpaceInCurrentBlock 7).getD stuffedBits.stream60).streamPos %
        2 ^ 64 = stuffedBits.stream60.streamPos % 2 ^ 64 ∧
     (stuffedBits.stream60.streamPos < 2 ^ 64 →
      ((stuffedBits.stream60.ensureSpaceInCurrentBlock 7).getD stuffedBits.stream60).streamPos =
        stuffedBits.stream60.streamPos)) :=
  ⟨by decide, (streamPos_kept stuffedBits.stream60
      ((stuffedBits.stream60.ensureSpaceInCurrentBlock 7).getD stuffedBits.stream60) 7
      (stuffedBits.layout_of_inv _ stuffedBits.inv_stream60 (by decide))).1 (by decide)⟩

theorem paddingMask : ∀ j, j < 64 →
    (0x36DB6DB6DB6DB6DB : Nat).testBit j = decide (j < 63 ∧ j % 3 ≠ 2) := by
  decide

theorem testBit_paddingMask (w j : Nat) :
    (w &&& 0x36DB6DB6DB6DB6DB).testBit j = (decide (j < 63 ∧ j % 3 ≠ 2) && w.testBit j) := by
  rw [Nat.testBit_and, Bool.and_comm]
  by_cases hj : j < 64
  · rw [paddingMask j hj]
  · rw [testBit_high 64 _ j (by decide) (by omega)]
    have : ¬ (j < 63 ∧ j % 3 ≠ 2) := by omega
    simp [this]

theorem compressWord_congr (w w' : Nat)
    (h : w' &&& 0x36DB6DB6DB6DB6DB = w &&& 0x36DB6DB6DB6DB6DB) :
    compressWord w' = compressWord w := by
  apply Nat.eq_of_testBit_eq
  intro j
  rw [testBit_compressWord, testBit_compressWord]
  by_cases hj : j < 42
  · have h1 := testBit_paddingMask w (j + j / 2)
    have h2 := testBit_paddingMask w' (j + j / 2)
    rw [h] at h2
    have hc : j + j / 2 < 63 ∧ (j + j / 2) % 3 ≠ 2 := by omega
    rw [decide_eq_true hc, Bool.true_and] at h1 h2
    rw [← h1, ← h2]
  · simp [hj]

/-- C38: for every word `w`, `compressTo2(w)` passes its assertion, is below 2^42 and is accepted by
`expandTo3`; it does not depend on the padding bits of `w` (bit 2 of every 3-bit field and bits
62-63); and `expandTo3(compressTo2(w)) = w AND 0x36DB6DB6DB6DB6DB`, which is `w` when the padding
bits of `w` are zero. -/
theorem expandTo3_compressTo2 (w : Nat) :
    ∃ c, compressTo2 w = some c ∧ c < 2 ^ 42 ∧
      (∀ w', w' &&& 0x36DB6DB6DB6DB6DB = w &&& 0x36DB6DB6DB6DB6DB → compressTo2 w' = some c) ∧
      compressTo2 (w &&& 0x36DB6DB6DB6DB6DB) = some c ∧
      expandTo3 c = some (w &&& 0x36DB6DB6DB6DB6DB) ∧
      (w &&& 0x36DB6DB6DB6DB6DB = w → expandTo3 c = some w) := by
  have hexp : expandTo3 (compressWord w) = some (w &&& 0x36DB6DB6DB6DB6DB) := by
    rw [expandTo3_some _ (compressWord_lt w)]
    congr 1
    apply Nat.eq_of_testBit_eq
    intro j
    rw [testBit_expandWord, testBit_compressWord, testBit_paddingMask]
    by_cases hc : j < 63 ∧ j % 3 ≠ 2
    · have h1 : j - j / 3 < 42 := by omega
      have h2 : j - j / 3 + (j - j / 3) / 2 = j := by omega
      simp [hc, h1, h2]
    · simp [hc]
  refine ⟨compressWord w, compressTo2_some w, compressWord_lt w, ?_, ?_, hexp, ?_⟩
  · intro w' h
    rw [compressTo2_some, compressWord_congr w w' h]
  · rw [compressTo2_some, compressWord_congr w (w &&& 0x36DB6DB6DB6DB6DB) (by
      rw [Nat.and_assoc, Nat.and_self])]
  · intro h
    rw [hexp, h]

theorem expandTo3_compressTo2_witness :
    (compressTo2 0xffffffffffffffff = some 0x3ffffffffff ∧
     expandTo3 0x3ffffffffff = some 0x36DB6DB6DB6DB6DB ∧
     compressTo2 0x2688 = some 0x2e4 ∧ compressTo2 (0x2688 + 4) = some 0x2e4) ∧
    ∃ c, compressTo2 0x2688 = some c ∧ c < 2 ^ 42 ∧
      (∀ w', w' &&& 0x36DB6DB6DB6DB6DB = 0x2688 &&& 0x36DB6DB6DB6DB6DB →
        compressTo2 w' = some c) ∧
      compressTo2 (0x2688 &&& 0x36DB6DB6DB6DB6DB) = some c ∧
      expandTo3 c = some (0x2688 &&& 0x36DB6DB6DB6DB6DB) ∧
      (0x2688 &&& 0x36DB6DB6DB6DB6DB = 0x2688 → expandTo3 c = some 0x2688) :=
  ⟨by decide, expandTo3_compressTo2 0x2688⟩

end Meryl
